import Mathlib

/-!
# Verification of the realtimeMD Markdown parsing engine

This file gives a shallow embedding, over `List Char`, of the Markdown → HTML
parser of the repository (the placeholder-pipeline revision in
`src/unnamed/part_006`, class `MarkdownParser`, and the earlier revision in
`src/js/markdown.js`), and proves properties of the embedded functions.

JavaScript strings are modelled as `List Char`.  Every global
`String.replace(regex, …)` scan is modelled by an explicit fueled scanner
(`scanRep` / `scanExt`) whose matcher reproduces the deterministic behaviour of
the corresponding regular expression; literal-string replacements are modelled
by structurally recursive functions.  Functions that in JavaScript are `while`
loops over positions take explicit fuel and return `Option`; their totality is
proved (fuel adequacy), which is the formal content of the termination claims.
-/

namespace RealtimeMD

/-- JavaScript strings, modelled as lists of characters. -/
abbrev Str := List Char

/-- Coerce a Lean string literal to the model. -/
def str (s : String) : Str := s.data

/-- The backtick character (U+0060). -/
def btick : Char := Char.ofNat 96

/-- The reserved sentinel character U+0000 used by placeholder tokens. -/
def sentinel : Char := Char.ofNat 0

/-- JS `\s` (whitespace) character class, as relevant to this code base
(ASCII whitespace plus NBSP; the engine's inputs/outputs in the verified
properties only use the ASCII part). -/
def jsWs (c : Char) : Bool :=
  c = ' ' || c = '\t' || c = '\n' || c = '\r' ||
  c = Char.ofNat 11 || c = Char.ofNat 12 || c = Char.ofNat 160

/-- JS `\w` (word) character class: `[A-Za-z0-9_]`. -/
def jsWord (c : Char) : Bool :=
  ('a' ≤ c && c ≤ 'z') || ('A' ≤ c && c ≤ 'Z') || ('0' ≤ c && c ≤ '9') || c = '_'

/-- JS `\d` character class. -/
def jsDigit (c : Char) : Bool := '0' ≤ c && c ≤ '9'

/-- ASCII lower-casing, for the case-insensitive (`/i`) block-tag test. -/
def asciiLower (c : Char) : Char :=
  if 'A' ≤ c && c ≤ 'Z' then Char.ofNat (c.toNat + 32) else c

/-- Boolean "`p` is a prefix of `s`" on the string model. -/
def pfx : Str → Str → Bool
  | [], _ => true
  | _ :: _, [] => false
  | p :: ps, c :: cs => p = c && pfx ps cs

/-- Boolean "`p` is, up to ASCII case, a prefix of `s`" (`p` is given in
lower case, `s` is lowered character-wise), for the `/i` paragraph test. -/
def ciPfx : Str → Str → Bool
  | [], _ => true
  | _ :: _, [] => false
  | p :: ps, c :: cs => p = asciiLower c && ciPfx ps cs

/-- Boolean substring test: does `pat` occur contiguously in `s`? -/
def hasSub (pat : Str) : Str → Bool
  | [] => pfx pat []
  | c :: cs => pfx pat (c :: cs) || hasSub pat cs

/-- Number of positions of `s` at which `pat` starts (occurrences may
overlap). -/
def occCount (pat : Str) : Str → Nat
  | [] => if pfx pat [] then 1 else 0
  | c :: cs => (if pfx pat (c :: cs) then 1 else 0) + occCount pat cs

/-- JS `String.trim()` (from the relevant whitespace alphabet). -/
def jsTrim (s : Str) : Str :=
  ((s.dropWhile jsWs).reverse.dropWhile jsWs).reverse

/-- JS `String.trimEnd()`. -/
def jsTrimEnd (s : Str) : Str :=
  (s.reverse.dropWhile jsWs).reverse

/-- Split at every `'\n'` (JS `split('\n')`). -/
def splitNl : Str → List Str
  | [] => [[]]
  | '\n' :: r => [] :: splitNl r
  | c :: r =>
    match splitNl r with
    | l :: ls => (c :: l) :: ls
    | [] => [[c]]

/-- Join lines with `'\n'` (JS `join('\n')`). -/
def joinNl : List Str → Str
  | [] => []
  | [l] => l
  | l :: ls => l ++ '\n' :: joinNl ls

/-- Split at every non-overlapping occurrence of `"\n\n"`, scanning left to
right (JS `split('\n\n')`). -/
def splitNN : Str → List Str
  | '\n' :: '\n' :: r => [] :: splitNN r
  | c :: r =>
    match splitNN r with
    | l :: ls => (c :: l) :: ls
    | [] => [[c]]
  | [] => [[]]

/-- The decimal digit character for `n < 10`. -/
def digitChar (n : Nat) : Char := Char.ofNat (48 + n)

/-- Decimal digits of `n` (what JS `${n}` produces), via explicit fuel. -/
def natDigitsAux : Nat → Nat → Str
  | 0, _ => []
  | fuel + 1, n =>
    if n < 10 then [digitChar n]
    else natDigitsAux fuel (n / 10) ++ [digitChar (n % 10)]

/-- Decimal representation of a natural number as characters. -/
def natDigits (n : Nat) : Str := natDigitsAux (n + 1) n

/-! ## Generic regex-replace scanners

A JavaScript global `replace(regex, f)` scans the string left to right: at
each position it attempts the (deterministic, for the patterns used here)
match; on success it emits the replacement and resumes after the consumed
text, otherwise it copies one character and moves on.  `^` (with the `m`
flag) matches at the string start and right after a `'\n'`, so the scanner
threads an "at line start" flag; a matcher result records whether the last
consumed character was `'\n'`. -/

/-- Result of a matcher firing at the current position: the `payload`
(replacement text, or the extracted datum), the remaining input after the
consumed text, and whether the last consumed character was `'\n'`. -/
structure MRes (α : Type) where
  payload : α
  rest : Str
  nlEnd : Bool

/-- A matcher receives the at-line-start flag and the current suffix. -/
abbrev Matcher (α : Type) := Bool → Str → Option (MRes α)

/-- Fueled global replace: emit `r.payload` on a match, else copy one
character.  `none` only on fuel exhaustion (adequacy is proved below). -/
def scanRep (m : Matcher Str) : Nat → Bool → Str → Option Str
  | _, _, [] => some []
  | 0, _, _ :: _ => none
  | fuel + 1, atLs, c :: cs =>
    match m atLs (c :: cs) with
    | some r =>
      match scanRep m fuel r.nlEnd r.rest with
      | some t => some (r.payload ++ t)
      | none => none
    | none =>
      match scanRep m fuel (c == '\n') cs with
      | some t => some (c :: t)
      | none => none

/-- Fueled global extraction: like `scanRep` but the match is stored (in
order) and replaced by the placeholder `ph idx`, mirroring the
`array.push` / `\x00KIND${array.length}\x00` pattern of the source. -/
def scanExt {α : Type} (m : Matcher α) (ph : Nat → Str) :
    Nat → Nat → Bool → Str → Option (Str × List α)
  | _, _, _, [] => some ([], [])
  | 0, _, _, _ :: _ => none
  | fuel + 1, idx, atLs, c :: cs =>
    match m atLs (c :: cs) with
    | some r =>
      match scanExt m ph fuel (idx + 1) r.nlEnd r.rest with
      | some p => some (ph idx ++ p.1, r.payload :: p.2)
      | none => none
    | none =>
      match scanExt m ph fuel idx (c == '\n') cs with
      | some p => some (c :: p.1, p.2)
      | none => none

/-- Search for the first occurrence of the delimiter `d`; returns the text
before it and the text after it.  With `stopNl` the search fails if a
`'\n'` is seen first (for `(.+?)` contents). -/
def findDelim (d : Str) (stopNl : Bool) : Str → Option (Str × Str)
  | [] => none
  | c :: cs =>
    if pfx d (c :: cs) then some ([], (c :: cs).drop d.length)
    else if stopNl && c = '\n' then none
    else
      match findDelim d stopNl cs with
      | some p => some (c :: p.1, p.2)
      | none => none

/-! ## Placeholder tokens -/

/-- The placeholder token `\x00KIND${i}\x00` inserted during phase 1. -/
def phTok (kind : Str) (i : Nat) : Str :=
  sentinel :: (kind ++ natDigits i) ++ [sentinel]

/-- The `ESCAPED_DOLLAR` token `'\x00ESCAPEDDOLLAR\x00'`. -/
def escapedDollarTok : Str := sentinel :: str "ESCAPEDDOLLAR" ++ [sentinel]

/-! ## Literal-string replacement passes (structurally recursive) -/

/-- `replace(/\r\n/g, '\n')`. -/
def normNl : Str → Str
  | '\r' :: '\n' :: r => '\n' :: normNl r
  | c :: r => c :: normNl r
  | [] => []

/-- `replace(/\\\$/g, ESCAPED_DOLLAR)`. -/
def replEscDollar : Str → Str
  | '\\' :: '$' :: r => escapedDollarTok ++ replEscDollar r
  | c :: r => c :: replEscDollar r
  | [] => []

/-- Matcher for the final `new RegExp('\x00ESCAPEDDOLLAR\x00', 'g')`
restoration (the replacement `'$'`, having no substitution pattern after
it, is the literal dollar character). -/
def mEscDollarBack : Matcher Str := fun _ s =>
  if pfx escapedDollarTok s then
    some ⟨str "$", s.drop escapedDollarTok.length, false⟩
  else none

/-- The final `replace(new RegExp('\x00ESCAPEDDOLLAR\x00', 'g'), '$')`,
embedded as a fueled scan like every other global replace (the fuel
`s.length` always suffices, as each match consumes the 15-character
token). -/
def replEscDollarBack (s : Str) : Str :=
  (scanRep mEscDollarBack s.length true s).getD s

/-- `_escapeHtml`, first step: `replace(/&/g, '&amp;')`. -/
def replAmp : Str → Str
  | '&' :: r => str "&amp;" ++ replAmp r
  | c :: r => c :: replAmp r
  | [] => []

/-- `_escapeHtml`, second step: `replace(/</g, '&lt;')`. -/
def replLt : Str → Str
  | '<' :: r => str "&lt;" ++ replLt r
  | c :: r => c :: replLt r
  | [] => []

/-- `_escapeHtml`, third step: `replace(/>/g, '&gt;')`. -/
def replGt : Str → Str
  | '>' :: r => str "&gt;" ++ replGt r
  | c :: r => c :: replGt r
  | [] => []

/-- `_escapeHtml`, fourth step: `replace(/"/g, '&quot;')`. -/
def replQuot : Str → Str
  | '"' :: r => str "&quot;" ++ replQuot r
  | c :: r => c :: replQuot r
  | [] => []

/-- `MarkdownParser._escapeHtml`: the four chained global replaces. -/
def escapeHtml (s : Str) : Str := replQuot (replGt (replLt (replAmp s)))

/-- `_unescapeForAttr`, first step: `replace(/&amp;/g, '&')`. -/
def replEntAmp : Str → Str
  | '&' :: 'a' :: 'm' :: 'p' :: ';' :: r => '&' :: replEntAmp r
  | c :: r => c :: replEntAmp r
  | [] => []

/-- `_unescapeForAttr`, second step: `replace(/&lt;/g, '<')`. -/
def replEntLt : Str → Str
  | '&' :: 'l' :: 't' :: ';' :: r => '<' :: replEntLt r
  | c :: r => c :: replEntLt r
  | [] => []

/-- `_unescapeForAttr`, third step: `replace(/&gt;/g, '>')`. -/
def replEntGt : Str → Str
  | '&' :: 'g' :: 't' :: ';' :: r => '>' :: replEntGt r
  | c :: r => c :: replEntGt r
  | [] => []

/-- `_unescapeForAttr`, fourth step: `replace(/&quot;/g, '"')`. -/
def replEntQuot : Str → Str
  | '&' :: 'q' :: 'u' :: 'o' :: 't' :: ';' :: r => '"' :: replEntQuot r
  | c :: r => c :: replEntQuot r
  | [] => []

/-- `MarkdownParser._unescapeForAttr`: the four chained global replaces. -/
def unescapeForAttr (s : Str) : Str :=
  replEntQuot (replEntGt (replEntLt (replEntAmp s)))

/-- `_parseLineBreaks`, first step: `replace(/  \n/g, '<br>\n')`. -/
def replBrSpaces : Str → Str
  | ' ' :: ' ' :: '\n' :: r => str "<br>\n" ++ replBrSpaces r
  | c :: r => c :: replBrSpaces r
  | [] => []

/-- `_parseLineBreaks`, second step: `replace(/\\\n/g, '<br>\n')`. -/
def replBrBackslash : Str → Str
  | '\\' :: '\n' :: r => str "<br>\n" ++ replBrBackslash r
  | c :: r => c :: replBrBackslash r
  | [] => []

/-- `MarkdownParser._parseLineBreaks`. -/
def parseLineBreaks (s : Str) : Str := replBrBackslash (replBrSpaces s)

/-! ## Phase 1: extraction matchers -/

/-- Matcher for `/```(\w*)\n([\s\S]*?)```/g`: three backticks, a greedy word
run (the language tag), a mandatory newline, then the lazily-nearest closing
three backticks.  Payload: `(lang, code.trimEnd())` as stored by the source. -/
def mFence : Matcher (Str × Str) := fun _ s =>
  if pfx (str "```") s then
    match (s.drop 3).dropWhile jsWord with
    | '\n' :: r2 =>
      match findDelim (str "```") false r2 with
      | some p => some ⟨((s.drop 3).takeWhile jsWord, jsTrimEnd p.1), p.2, false⟩
      | none => none
    | _ => none
  else none

/-- Matcher for `` /`([^`\n]+)`/g ``: backtick, a nonempty greedy run of
non-backtick non-newline characters, then a backtick. -/
def mInlineCode : Matcher Str := fun _ s =>
  match s with
  | c :: cs =>
    if c = btick then
      match cs.dropWhile (fun x => x != btick && x != '\n') with
      | a :: rest =>
        if !(cs.takeWhile (fun x => x != btick && x != '\n')).isEmpty && a == btick then
          some ⟨cs.takeWhile (fun x => x != btick && x != '\n'), rest, false⟩
        else none
      | [] => none
    else none
  | [] => none

/-- Matcher for `/\$\$([\s\S]+?)\$\$/g`: two dollars, at least one character,
then the lazily-nearest two dollars.  Payload: `math.trim()` as stored. -/
def mDisplayMath : Matcher Str := fun _ s =>
  if pfx (str "$$") s then
    match s.drop 2 with
    | c :: r =>
      match findDelim (str "$$") false r with
      | some p => some ⟨jsTrim (c :: p.1), p.2, false⟩
      | none => none
    | [] => none
  else none

/-- Matcher for `/\$([^$\n]+?)\$/g`: a dollar, a nonempty run of
non-dollar non-newline characters, then a dollar.  Payload: the raw math. -/
def mInlineMath : Matcher Str := fun _ s =>
  match s with
  | c :: cs =>
    if c = '$' then
      match cs.dropWhile (fun x => x != '$' && x != '\n') with
      | a :: rest =>
        if !(cs.takeWhile (fun x => x != '$' && x != '\n')).isEmpty && a == '$' then
          some ⟨cs.takeWhile (fun x => x != '$' && x != '\n'), rest, false⟩
        else none
      | [] => none
    else none
  | [] => none

/-- The block-level tag alternation of the raw-HTML-block regex, in source
order. -/
def blockTagList : List Str :=
  [str "div", str "section", str "article", str "aside", str "header",
   str "footer", str "nav", str "main", str "details", str "summary",
   str "figure", str "figcaption", str "p", str "ul", str "ol", str "li",
   str "dl", str "dt", str "dd", str "table", str "thead", str "tbody",
   str "tfoot", str "tr", str "th", str "td", str "caption", str "colgroup",
   str "col", str "form", str "fieldset", str "legend", str "select",
   str "option", str "label", str "input", str "button", str "textarea",
   str "output", str "progress", str "meter", str "video", str "audio",
   str "source", str "picture", str "canvas", str "map", str "area",
   str "svg", str "math", str "del", str "ins", str "sub", str "sup",
   str "mark", str "abbr", str "time", str "cite", str "dfn", str "ruby",
   str "rt", str "rp", str "bdi", str "bdo", str "wbr", str "hr", str "br",
   str "img", str "a", str "em", str "strong", str "small", str "s",
   str "u", str "b", str "i", str "span", str "blockquote", str "pre",
   str "code"]

/-- Does the suffix start with a `[\s>]` character? -/
def wsGtHead (l : Str) : Bool :=
  match l with
  | c :: _ => jsWs c || c = '>'
  | [] => false

/-- Matcher for the raw-HTML-block regex
`/^(<(?:div|…|code)[\s>][\s\S]*?)$/gm`: anchored at line start, `<`, a
recognized tag followed by a `[\s>]` character, then lazily up to the
nearest line end (`$` in multiline mode; since `[\s>]` can itself be a
newline, the match may exceptionally reach onto the next line).
Payload: the whole matched block. -/
def mHtmlBlock : Matcher Str := fun atLs s =>
  if !atLs then none else
  match s with
  | '<' :: cs =>
    match blockTagList.find? (fun t => pfx t cs && wsGtHead (cs.drop t.length)) with
    | some t =>
      match cs.drop t.length with
      | d :: afterD =>
        some ⟨'<' :: (t ++ d :: afterD.takeWhile (fun x => x != '\n')),
              afterD.dropWhile (fun x => x != '\n'),
              (afterD.takeWhile (fun x => x != '\n')).isEmpty && d == '\n'⟩
      | [] => none
    | none => none
  | _ => none

/-- The `(\w+)([^>]*)>` tail of the inline-HTML-tag regex, after the `<`
and the optional slash `sl`. -/
def inlineTagTail (sl : Str) (r1 : Str) : Option (MRes Str) :=
  if (r1.takeWhile jsWord).isEmpty then none else
  match (r1.dropWhile jsWord).dropWhile (fun x => x != '>') with
  | g :: rest =>
    some ⟨'<' :: (sl ++ r1.takeWhile jsWord ++
          (r1.dropWhile jsWord).takeWhile (fun x => x != '>') ++ [g]), rest, false⟩
  | [] => none

/-- Matcher for the inline-HTML-tag regex `/<(\/?)(\w+)([^>]*)>/g`.
Payload: the whole matched tag. -/
def mInlineHtml : Matcher Str := fun _ s =>
  match s with
  | '<' :: '/' :: cs => inlineTagTail ['/'] cs
  | '<' :: cs => inlineTagTail [] cs
  | _ => none

/-! ## Phase-1 extraction passes -/

/-- Extract fenced code blocks (`codeBlocks` array). -/
def extractFences (s : Str) : Option (Str × List (Str × Str)) :=
  scanExt mFence (phTok (str "CODEBLOCK")) s.length 0 true s

/-- Extract inline code spans (`inlineCode` array). -/
def extractInlineCode (s : Str) : Option (Str × List Str) :=
  scanExt mInlineCode (phTok (str "INLINECODE")) s.length 0 true s

/-- Extract display math (`mathBlocks` array). -/
def extractDisplayMath (s : Str) : Option (Str × List Str) :=
  scanExt mDisplayMath (phTok (str "MATHBLOCK")) s.length 0 true s

/-- Extract inline math (`inlineMath` array). -/
def extractInlineMath (s : Str) : Option (Str × List Str) :=
  scanExt mInlineMath (phTok (str "INLINEMATH")) s.length 0 true s

/-- Extract raw HTML blocks (`htmlBlocks` array). -/
def extractHtmlBlocks (s : Str) : Option (Str × List Str) :=
  scanExt mHtmlBlock (phTok (str "HTMLBLOCK")) s.length 0 true s

/-- Extract inline HTML tags (`inlineHtml` array). -/
def extractInlineHtml (s : Str) : Option (Str × List Str) :=
  scanExt mInlineHtml (phTok (str "INLINEHTML")) s.length 0 true s

/-! ## Phase 3: block-level transforms -/

/-- `_parseBlockquotes` line test: `/^&gt;\s?(.*)$/`; returns the captured
content (after `&gt;` and one optional whitespace character). -/
def bqContent (l : Str) : Option Str :=
  if pfx (str "&gt;") l then
    match l.drop 4 with
    | c :: r => if jsWs c then some r else some (c :: r)
    | [] => some []
  else none

/-- `flushBlockquote`: wrap the gathered lines (if any). -/
def flushBq : List Str → List Str
  | [] => []
  | ls => [str "<blockquote><p>" ++ joinNl ls ++ str "</p></blockquote>"]

/-- The line loop of `_parseBlockquotes`, carrying the pending `bqLines`. -/
def bqLoop : List Str → List Str → List Str
  | [], acc => flushBq acc
  | l :: ls, acc =>
    match bqContent l with
    | some c => bqLoop ls (acc ++ [c])
    | none => flushBq acc ++ l :: bqLoop ls []

/-- `MarkdownParser._parseBlockquotes`. -/
def parseBlockquotes (s : Str) : Str := joinNl (bqLoop (splitNl s) [])

/-- Table row test `/^\|(.+)\|$/` on the trimmed line. -/
def isRowLine (l : Str) : Bool :=
  let t := jsTrim l
  3 ≤ t.length && t.head? == some '|' && t.getLast? == some '|' &&
    (t.drop 1).dropLast.all (fun c => c != '\n')

/-- Character class `[\s\-:|]` of the separator-row test. -/
def sepClass (c : Char) : Bool := jsWs c || c = '-' || c = ':' || c = '|'

/-- Separator row test `/^\|[\s\-:|]+\|$/` on the trimmed line. -/
def isSepLine (l : Str) : Bool :=
  let t := jsTrim l
  3 ≤ t.length && t.head? == some '|' && t.getLast? == some '|' &&
    (t.drop 1).dropLast.all sepClass

/-- Split at every `'|'` (JS `split('|')`). -/
def splitPipe : Str → List Str
  | [] => [[]]
  | '|' :: r => [] :: splitPipe r
  | c :: r =>
    match splitPipe r with
    | l :: ls => (c :: l) :: ls
    | [] => [[c]]

/-- `replace(/^\|/, '')`. -/
def dropLeadPipe : Str → Str
  | '|' :: r => r
  | t => t

/-- `replace(/\|$/, '')`. -/
def dropTrailPipe (t : Str) : Str :=
  if t.getLast? == some '|' then t.dropLast else t

/-- `MarkdownParser._parseTableRow`. -/
def parseTableRow (l : Str) : List Str :=
  splitPipe (dropTrailPipe (dropLeadPipe (jsTrim l)))

/-- `/^:-+:$/`. -/
def alignCenter (c : Str) : Bool :=
  3 ≤ c.length && c.head? == some ':' && c.getLast? == some ':' &&
    (c.drop 1).dropLast.all (fun x => x == '-')

/-- `/^-+:$/`. -/
def alignRight (c : Str) : Bool :=
  2 ≤ c.length && c.getLast? == some ':' && c.dropLast.all (fun x => x == '-')

/-- `/^:-+$/`. -/
def alignLeft (c : Str) : Bool :=
  2 ≤ c.length && c.head? == some ':' && (c.drop 1).all (fun x => x == '-')

/-- The per-cell mapping of `_parseTableAlignments`. -/
def alignOf (cell : Str) : Str :=
  let c := jsTrim cell
  if alignCenter c then str "center"
  else if alignRight c then str "right"
  else if alignLeft c then str "left"
  else []

/-- `MarkdownParser._parseTableAlignments`. -/
def parseTableAligns (l : Str) : List Str := (parseTableRow l).map alignOf

/-- `alignments[idx] ? ' style="text-align:…"' : ''` (an out-of-range index
reads as `undefined`, hence no attribute). -/
def alignAttr (aligns : List Str) (idx : Nat) : Str :=
  match aligns.get? idx with
  | some a => if a.isEmpty then [] else str " style=\"text-align:" ++ a ++ str "\""
  | none => []

/-- The `forEach` emitting `<th>`/`<td>` cells with alignment attributes. -/
def cellsHtml (tag : Str) (aligns : List Str) : Nat → List Str → Str
  | _, [] => []
  | idx, c :: rest =>
    '<' :: tag ++ alignAttr aligns idx ++ '>' :: jsTrim c ++
      '<' :: '/' :: tag ++ '>' :: cellsHtml tag aligns (idx + 1) rest

/-- HTML of one data row. -/
def rowHtml (aligns : List Str) (l : Str) : Str :=
  str "<tr>" ++ cellsHtml (str "td") aligns 0 (parseTableRow l) ++ str "</tr>"

/-- HTML of the whole table given header line cells, alignments and the
consumed data-row lines. -/
def tableHtml (header : List Str) (aligns : List Str) (rows : List Str) : Str :=
  str "<table><thead><tr>" ++ cellsHtml (str "th") aligns 0 header ++
    str "</tr></thead><tbody>" ++ (rows.map (rowHtml aligns)).flatten ++
    str "</tbody></table>"

/-- The inner `while` of `_parseTables` consuming contiguous data rows. -/
def consumeRows : List Str → List Str × List Str
  | [] => ([], [])
  | l :: ls =>
    if isRowLine l then
      let p := consumeRows ls
      (l :: p.1, p.2)
    else ([], l :: ls)

/-- The outer `while` of `_parseTables`, fueled by the number of lines. -/
def tableLoop : Nat → List Str → Option (List Str)
  | _, [] => some []
  | 0, _ :: _ => none
  | fuel + 1, l :: rest =>
    match rest with
    | l2 :: rest2 =>
      if isRowLine l && isSepLine l2 then
        match tableLoop fuel (consumeRows rest2).2 with
        | some t =>
          some (tableHtml (parseTableRow l) (parseTableAligns l2) (consumeRows rest2).1 :: t)
        | none => none
      else
        match tableLoop fuel (l2 :: rest2) with
        | some t => some (l :: t)
        | none => none
    | [] =>
      match tableLoop fuel [] with
      | some t => some (l :: t)
      | none => none

/-- `MarkdownParser._parseTables`. -/
def parseTables (s : Str) : Option Str :=
  match tableLoop (splitNl s).length (splitNl s) with
  | some ls => some (joinNl ls)
  | none => none

/-- The `\s*$` tail of the horizontal-rule pattern after the delimiter,
given the greedy whitespace run `w` and the text `afterW` following it.
Returns the remaining (unconsumed) input and the new at-line-start flag:
when nothing follows, `$` matches at the end and everything is consumed;
otherwise the greedy `\s*` backtracks to just before the last `'\n'` of
`w` (failing when there is none). -/
def hrTail (w afterW : Str) : Option (Str × Bool) :=
  if afterW.isEmpty then some ([], w.getLast? == some '\n')
  else if (w.reverse.takeWhile (fun x => x != '\n')).length = w.length then none
  else
    some (w.drop (w.length - (w.reverse.takeWhile (fun x => x != '\n')).length - 1) ++ afterW,
          (w.take (w.length - (w.reverse.takeWhile (fun x => x != '\n')).length - 1)).getLast?
            == some '\n')

/-- Matcher for `/^(?:---|\*\*\*|___)\s*$/gm`: anchored at line start, one
of the three delimiters, then greedy whitespace up to the nearest line end
(the greedy `\s*` may swallow interior newlines, so the match may cover
blank lines). -/
def mHr : Matcher Str := fun atLs s =>
  if !atLs then none else
  if pfx (str "---") s || pfx (str "***") s || pfx (str "___") s then
    match hrTail ((s.drop 3).takeWhile jsWs) ((s.drop 3).dropWhile jsWs) with
    | some p => some ⟨str "<hr>", p.1, p.2⟩
    | none => none
  else none

/-- `MarkdownParser._parseHorizontalRules`. -/
def parseHorizontalRules (s : Str) : Option Str := scanRep mHr s.length true s

/-- The `\s+(.+)$` tail of the heading patterns, given the (nonempty)
greedy whitespace run `w` and the text `afterW` following it.  Returns the
captured content and the remaining input.  When the string ends inside the
whitespace run, the greedy `\s+` backtracks so that `(.+)` captures the
last non-newline whitespace character (requiring at least one whitespace
character to remain in `\s+`). -/
def headTail (w afterW : Str) : Option (Str × Str) :=
  match afterW with
  | _ :: _ =>
    some (afterW.takeWhile (fun x => x != '\n'), afterW.dropWhile (fun x => x != '\n'))
  | [] =>
    match w.reverse.dropWhile (fun x => x == '\n') with
    | [] => none
    | [_] => none
    | lastC :: _ :: _ => some ([lastC], (w.reverse.takeWhile (fun x => x == '\n')).reverse)

/-- Matcher for `/^#{n}\s+(.+)$/gm` (the heading pattern for `n` hash
marks): anchored at line start, the hashes, greedy whitespace (which may
include newlines), then a nonempty greedy run of non-newline characters up
to the line end. -/
def mHeading (n : Nat) : Matcher Str := fun atLs s =>
  if !atLs then none else
  if pfx (List.replicate n '#') s then
    if ((s.drop n).takeWhile jsWs).isEmpty then none else
    match headTail ((s.drop n).takeWhile jsWs) ((s.drop n).dropWhile jsWs) with
    | some p =>
      some ⟨str "<h" ++ natDigits n ++ str ">" ++ p.1 ++
            str "</h" ++ natDigits n ++ str ">", p.2, false⟩
    | none => none
  else none

/-- `MarkdownParser._parseHeadings`: the six global replaces, `h6` first. -/
def parseHeadings (s : Str) : Option Str :=
  (scanRep (mHeading 6) s.length true s).bind fun a =>
  (scanRep (mHeading 5) a.length true a).bind fun b =>
  (scanRep (mHeading 4) b.length true b).bind fun c =>
  (scanRep (mHeading 3) c.length true c).bind fun d =>
  (scanRep (mHeading 2) d.length true d).bind fun e =>
  scanRep (mHeading 1) e.length true e

/-! ## Lists -/

/-- List type: ordered or unordered. -/
inductive LType
  | ul
  | ol
deriving DecidableEq, Repr

/-- One recorded list item: `{indent, type, content, checked}`. -/
structure LItem where
  indent : Nat
  type : LType
  content : Str
  checked : Option Bool
deriving DecidableEq, Repr

/-- Classify a line against the three list-item patterns, in source order:
checkbox `/^(\s*)-\s+\[(x| )\]\s+(.*)$/`, unordered `/^(\s*)[-*+]\s+(.*)$/`,
ordered `/^(\s*)\d+\.\s+(.*)$/`. -/
def lineItem (l : Str) : Option LItem :=
  let ws := l.takeWhile jsWs
  let r := l.dropWhile jsWs
  let checkbox : Option LItem :=
    match r with
    | '-' :: r1 =>
      let ws1 := r1.takeWhile jsWs
      if ws1.isEmpty then none else
      match r1.dropWhile jsWs with
      | '[' :: m :: ']' :: r2 =>
        if m = 'x' || m = ' ' then
          let ws2 := r2.takeWhile jsWs
          if ws2.isEmpty then none
          else some ⟨ws.length, .ul, r2.dropWhile jsWs, some (m = 'x')⟩
        else none
      | _ => none
    | _ => none
  match checkbox with
  | some it => some it
  | none =>
    let ul : Option LItem :=
      match r with
      | m :: r1 =>
        if m = '-' || m = '*' || m = '+' then
          let ws1 := r1.takeWhile jsWs
          if ws1.isEmpty then none
          else some ⟨ws.length, .ul, r1.dropWhile jsWs, none⟩
        else none
      | [] => none
    match ul with
    | some it => some it
    | none =>
      let ds := r.takeWhile jsDigit
      if ds.isEmpty then none else
      match r.dropWhile jsDigit with
      | '.' :: r2 =>
        let ws2 := r2.takeWhile jsWs
        if ws2.isEmpty then none
        else some ⟨ws.length, .ol, r2.dropWhile jsWs, none⟩
      | _ => none

/-- Closing tag of a list level. -/
def closeTag : LType → Str
  | .ol => str "</ol>"
  | .ul => str "</ul>"

/-- Opening tag of a list level. -/
def openTag : LType → Str
  | .ol => str "<ol>"
  | .ul => str "<ul>"

/-- The inner `while`: pop (and close) stack levels whose indent is `≥` the
current indent but not equal to it.  The stack head is the top. -/
def popGe (indent : Nat) : List (Nat × LType) → Str × List (Nat × LType)
  | [] => ([], [])
  | (i, t) :: st =>
    if i ≥ indent && i ≠ indent then
      let p := popGe indent st
      (closeTag t ++ p.1, p.2)
    else ([], (i, t) :: st)

/-- The `<li>` markup of one item (with the disabled-checkbox input when the
item carries checked state). -/
def liHtml (it : LItem) : Str :=
  match it.checked with
  | some b =>
    str "<li><input type=\"checkbox\"" ++
      (if b then str " checked disabled" else str " disabled") ++
      str "> " ++ it.content ++ str "</li>"
  | none => str "<li>" ++ it.content ++ str "</li>"

/-- One iteration of the item loop inside `flushList`. -/
def buildStep (acc : Str × List (Nat × LType)) (it : LItem) :
    Str × List (Nat × LType) :=
  let p := popGe it.indent acc.2
  let html1 := acc.1 ++ p.1
  let q : Str × List (Nat × LType) :=
    match p.2 with
    | [] => (html1 ++ openTag it.type, [(it.indent, it.type)])
    | (i, t) :: st =>
      if i < it.indent then
        (html1 ++ openTag it.type, (it.indent, it.type) :: (i, t) :: st)
      else if t ≠ it.type then
        (html1 ++ closeTag t ++ openTag it.type, (it.indent, it.type) :: st)
      else (html1, (i, t) :: st)
  (q.1 ++ liHtml it, q.2)

/-- Close every list level still open after the last item. -/
def closeAll : List (Nat × LType) → Str
  | [] => []
  | (_, t) :: st => closeTag t ++ closeAll st

/-- `flushList` body: fold the recorded items, then close the stack. -/
def buildList (items : List LItem) : Str :=
  let p := items.foldl buildStep ([], [])
  p.1 ++ closeAll p.2

/-- `flushList`: emits nothing when no items are pending. -/
def flushList : List LItem → List Str
  | [] => []
  | items => [buildList items]

/-- The line loop of `_parseLists`, carrying the pending `listLines`. -/
def listLoop : List Str → List LItem → List Str
  | [], acc => flushList acc
  | l :: ls, acc =>
    match lineItem l with
    | some it => listLoop ls (acc ++ [it])
    | none => flushList acc ++ l :: listLoop ls []

/-- `MarkdownParser._parseLists`. -/
def parseLists (s : Str) : Str := joinNl (listLoop (splitNl s) [])

/-! ## Paragraphs -/

/-- Tag alternation of the old revision's paragraph block test
(`src/js/markdown.js`), with `h[1-6]` expanded. -/
def paraTagsOld : List Str :=
  [str "h1", str "h2", str "h3", str "h4", str "h5", str "h6",
   str "ul", str "ol", str "li", str "blockquote", str "pre", str "table",
   str "thead", str "tbody", str "tr", str "th", str "td", str "hr",
   str "div", str "p"]

/-- Tag alternation of the new revision's paragraph block test
(`src/unnamed/part_006`). -/
def paraTagsNew : List Str :=
  paraTagsOld ++
    [str "section", str "article", str "aside", str "header", str "footer",
     str "nav", str "main", str "details", str "summary", str "figure",
     str "figcaption"]

/-- The case-insensitive block test `/^<(tag|…)[\s>]/i.test(block)`. -/
def blockTagTest (tags : List Str) (t : Str) : Bool :=
  match t with
  | '<' :: cs => tags.any (fun tag => ciPfx tag cs && wsGtHead (cs.drop tag.length))
  | _ => false

/-- The per-block mapping of `_parseParagraphs`; `checkPh` selects the new
revision's additional "don't wrap placeholder tokens" test. -/
def paraBlock (tags : List Str) (checkPh : Bool) (b : Str) : Str :=
  let t := jsTrim b
  if t.isEmpty then []
  else if blockTagTest tags t then t
  else if checkPh && t.head? == some sentinel then t
  else str "<p>" ++ t ++ str "</p>"

/-- `_parseParagraphs` of the new revision. -/
def parseParagraphsNew (s : Str) : Str :=
  joinNl ((splitNN s).map (paraBlock paraTagsNew true))

/-- `_parseParagraphs` of the old revision. -/
def parseParagraphsOld (s : Str) : Str :=
  joinNl ((splitNN s).map (paraBlock paraTagsOld false))

/-! ## Phase 4: inline transforms -/

/-- Matcher for `/!\[([^\]]*)\]\(([^)]+)\)/g` with the image-path resolver
`f` applied to the attribute-unescaped `src`. -/
def mImage (f : Str → Str) : Matcher Str := fun _ s =>
  if pfx (str "![") s then
    match (s.drop 2).dropWhile (fun x => x != ']') with
    | _ :: '(' :: r3 =>
      if (r3.takeWhile (fun x => x != ')')).isEmpty then none else
      match r3.dropWhile (fun x => x != ')') with
      | _ :: rest =>
        some ⟨str "<img src=\"" ++
              f (unescapeForAttr (r3.takeWhile (fun x => x != ')'))) ++
              str "\" alt=\"" ++ (s.drop 2).takeWhile (fun x => x != ']') ++
              str "\" loading=\"lazy\">", rest, false⟩
      | [] => none
    | _ => none
  else none

/-- `MarkdownParser._parseImages`. -/
def parseImages (f : Str → Str) (s : Str) : Option Str :=
  scanRep (mImage f) s.length true s

/-- Matcher for `/\[([^\]]+)\]\(([^)]+)\)/g`. -/
def mLink : Matcher Str := fun _ s =>
  match s with
  | '[' :: r1 =>
    if (r1.takeWhile (fun x => x != ']')).isEmpty then none else
    match r1.dropWhile (fun x => x != ']') with
    | _ :: '(' :: r3 =>
      if (r3.takeWhile (fun x => x != ')')).isEmpty then none else
      match r3.dropWhile (fun x => x != ')') with
      | _ :: rest =>
        some ⟨str "<a href=\"" ++ unescapeForAttr (r3.takeWhile (fun x => x != ')')) ++
              str "\" target=\"_blank\" rel=\"noopener noreferrer\">" ++
              r1.takeWhile (fun x => x != ']') ++ str "</a>", rest, false⟩
      | [] => none
    | _ => none
  | _ => none

/-- `MarkdownParser._parseLinks`. -/
def parseLinks (s : Str) : Option Str := scanRep mLink s.length true s

/-- Matcher for the lazy pair patterns `/d(.+?)d/g` (`d` one of `***`,
`___`, `**`, `__`, `*`, `_`, `~~`): the delimiter, at least one non-newline
character, the lazily-nearest closing delimiter. -/
def mPair (d pre post : Str) : Matcher Str := fun _ s =>
  if pfx d s then
    match s.drop d.length with
    | c :: r =>
      if c = '\n' then none else
      match findDelim d true r with
      | some p => some ⟨pre ++ c :: p.1 ++ post, p.2, false⟩
      | none => none
    | [] => none
  else none

/-- `MarkdownParser._parseBoldItalic`: the six global replaces in order. -/
def parseBoldItalic (s : Str) : Option Str :=
  (scanRep (mPair (str "***") (str "<strong><em>") (str "</em></strong>")) s.length true s).bind fun a =>
  (scanRep (mPair (str "___") (str "<strong><em>") (str "</em></strong>")) a.length true a).bind fun b =>
  (scanRep (mPair (str "**") (str "<strong>") (str "</strong>")) b.length true b).bind fun c =>
  (scanRep (mPair (str "__") (str "<strong>") (str "</strong>")) c.length true c).bind fun d =>
  (scanRep (mPair (str "*") (str "<em>") (str "</em>")) d.length true d).bind fun e =>
  scanRep (mPair (str "_") (str "<em>") (str "</em>")) e.length true e

/-- `MarkdownParser._parseStrikethrough`. -/
def parseStrikethrough (s : Str) : Option Str :=
  scanRep (mPair (str "~~") (str "<del>") (str "</del>")) s.length true s

/-! ## Phase 5: restoration -/

/-- JS `GetSubstitution` for a string-valued replacement of a string-pattern
`replace` (no capture groups): `$$`, `$&`, `` $` `` and `$'` are special,
anything else is literal. -/
def substDollar (matched before after : Str) : Str → Str
  | '$' :: '$' :: r => '$' :: substDollar matched before after r
  | '$' :: '&' :: r => matched ++ substDollar matched before after r
  | '$' :: '\x60' :: r => before ++ substDollar matched before after r
  | '$' :: '\'' :: r => after ++ substDollar matched before after r
  | c :: r => c :: substDollar matched before after r
  | [] => []

/-- `String.replace(pat, rep)` with string arguments: replace the first
occurrence, expanding substitution patterns in `rep`; `pre` accumulates the
already-copied text in reverse. -/
def replFirstSubGo (pat rep : Str) (pre : Str) : Str → Str
  | [] => []
  | c :: cs =>
    if pfx pat (c :: cs) then
      substDollar pat pre.reverse ((c :: cs).drop pat.length) rep ++
        (c :: cs).drop pat.length
    else c :: replFirstSubGo pat rep (c :: pre) cs

/-- `String.replace(pat, rep)` with string arguments. -/
def replFirstSub (pat rep s : Str) : Str := replFirstSubGo pat rep [] s

/-- One `for (let i = 0; …)` restoration loop: replace the first occurrence
of placeholder `i` by `mk item` for each stored item, in order. -/
def restoreLoop {α : Type} (kind : Str) (mk : α → Str) :
    Nat → List α → Str → Str
  | _, [], s => s
  | i, a :: rest, s =>
    restoreLoop kind mk (i + 1) rest (replFirstSub (phTok kind i) (mk a) s)

/-- Replacement markup for a stored inline code span. -/
def mkInlineCode (c : Str) : Str :=
  str "<code>" ++ escapeHtml c ++ str "</code>"

/-- Replacement markup for a stored fenced code block (mermaid special case). -/
def mkCodeBlock (p : Str × Str) : Str :=
  if p.1 = str "mermaid" then
    str "<div class=\"mermaid\">" ++ p.2 ++ str "</div>"
  else
    str "<pre><code" ++
      (if p.1.isEmpty then [] else str " class=\"language-" ++ p.1 ++ str "\"") ++
      str ">" ++ escapeHtml p.2 ++ str "</code></pre>"

/-- Replacement markup for a stored display-math block. -/
def mkMathBlock (m : Str) : Str :=
  str "<div class=\"math-display\">\\[" ++ m ++ str "\\]</div>"

/-- Replacement markup for a stored inline-math span. -/
def mkInlineMath (m : Str) : Str :=
  str "<span class=\"math-inline\">\\(" ++ m ++ str "\\)</span>"

/-! ## The two `parse` pipelines -/

/-- The extracted protected spans of phase 1. -/
structure Extracted where
  codeBlocks : List (Str × Str)
  inlineCode : List Str
  mathBlocks : List Str
  inlineMath : List Str
  htmlBlocks : List Str
  inlineHtml : List Str

/-- Phase 1 of the new revision: the seven extraction/protection passes, in
source order. -/
def phase1 (s : Str) : Option (Str × Extracted) :=
  (extractFences s).bind fun p1 =>
  (extractInlineCode p1.1).bind fun p2 =>
  (extractDisplayMath (replEscDollar p2.1)).bind fun p4 =>
  (extractInlineMath p4.1).bind fun p5 =>
  (extractHtmlBlocks p5.1).bind fun p6 =>
  (extractInlineHtml p6.1).map fun p7 =>
  (p7.1, ⟨p1.2, p2.2, p4.2, p5.2, p6.2, p7.2⟩)

/-- Phase 3 (block-level transforms), shared by both revisions. -/
def phaseBlocks (s : Str) : Option Str :=
  (parseTables (parseBlockquotes s)).bind fun h10 =>
  (parseHorizontalRules h10).bind fun h11 =>
  (parseHeadings h11).map fun h12 =>
  parseLists h12

/-- Phase 4 (inline transforms), shared by both revisions (the old revision
additionally runs `_parseInlineCode` just before this). -/
def phaseInline (f : Str → Str) (s : Str) : Option Str :=
  (parseImages f s).bind fun h15 =>
  (parseLinks h15).bind fun h16 =>
  (parseBoldItalic h16).bind fun h17 =>
  (parseStrikethrough h17).map fun h18 =>
  parseLineBreaks h18

/-- Phase 5 of the new revision: the six restoration loops in source order,
then the escaped-dollar restoration. -/
def phase5 (ex : Extracted) (s : Str) : Str :=
  replEscDollarBack
    (restoreLoop (str "INLINEMATH") mkInlineMath 0 ex.inlineMath
      (restoreLoop (str "MATHBLOCK") mkMathBlock 0 ex.mathBlocks
        (restoreLoop (str "CODEBLOCK") mkCodeBlock 0 ex.codeBlocks
          (restoreLoop (str "INLINECODE") mkInlineCode 0 ex.inlineCode
            (restoreLoop (str "HTMLBLOCK") id 0 ex.htmlBlocks
              (restoreLoop (str "INLINEHTML") id 0 ex.inlineHtml s))))))

/-- `MarkdownParser.parse` of the placeholder-pipeline revision
(`src/unnamed/part_006`), with the image-path resolver `f`. -/
def parseNew (f : Str → Str) (md : Str) : Option Str :=
  if md.isEmpty then some [] else
  (phase1 (normNl md)).bind fun p =>
  (phaseBlocks (escapeHtml p.1)).bind fun h13 =>
  (phaseInline f (parseParagraphsNew h13)).map fun h19 =>
  jsTrim (phase5 p.2 h19)

/-- Matcher of the old revision's `_parseCodeBlocks`: same pattern as
`mFence`, but replaced in place by the `<pre><code>` markup (note: the code
is *not* HTML-escaped there — that revision escapes the whole string first). -/
def mFenceOld : Matcher Str := fun atLs s =>
  match mFence atLs s with
  | some r =>
    some ⟨str "<pre><code" ++
        (if r.payload.1.isEmpty then []
         else str " class=\"language-" ++ r.payload.1 ++ str "\"") ++
        str ">" ++ r.payload.2 ++ str "</code></pre>", r.rest, r.nlEnd⟩
  | none => none

/-- The old revision's `_parseCodeBlocks`. -/
def parseCodeBlocksOld (s : Str) : Option Str := scanRep mFenceOld s.length true s

/-- Matcher of the old revision's `_parseInlineCode` (replacement
`'<code>$1</code>'`). -/
def mInlineCodeOld : Matcher Str := fun atLs s =>
  match mInlineCode atLs s with
  | some r => some ⟨str "<code>" ++ r.payload ++ str "</code>", r.rest, r.nlEnd⟩
  | none => none

/-- The old revision's `_parseInlineCode`. -/
def parseInlineCodeOld (s : Str) : Option Str := scanRep mInlineCodeOld s.length true s

/-- `MarkdownParser.parse` of the earlier revision (`src/js/markdown.js`). -/
def parseOld (f : Str → Str) (md : Str) : Option Str :=
  if md.isEmpty then some [] else
  (parseCodeBlocksOld (escapeHtml (normNl md))).bind fun h2 =>
  (phaseBlocks h2).bind fun h7 =>
  (parseInlineCodeOld (parseParagraphsOld h7)).bind fun h9 =>
  (phaseInline f h9).map fun h14 =>
  jsTrim h14

/-- The parser object: its only state is the injected image-path resolver. -/
structure MarkdownParser where
  resolveImagePath : Str → Str

/-- The constructor `new MarkdownParser(options)`:
`options.resolveImagePath || (src => src)`. -/
def mkParser (res : Option (Str → Str)) : MarkdownParser :=
  ⟨res.getD id⟩

/-- The `parse` *method* of the new revision, as a state-passing function on
the parser object: the body reads `this.resolveImagePath` and never assigns
to `this`, so the returned object is the receiver unchanged. -/
def parseMethod (p : MarkdownParser) (md : Str) :
    Option Str × MarkdownParser :=
  (parseNew p.resolveImagePath md, p)

/-- The identity resolver (the constructor default). -/
def idResolver : Str → Str := id

/-! ## Auxiliary notions used by the verification

`PTags` and `ltOkB` state the invariant on which the two revisions'
paragraph block tests agree; `tblChars` and `lstChars` collect the literal
markup characters the table and list passes can insert. -/

/-- The `<`-prefixes the block transforms can emit, chosen long enough to
decide both paragraph block tests. -/
def PTags : List Str :=
  [str "<b", str "<p", str "</", str "<t", str "<hr", str "<h1", str "<h2",
   str "<h3", str "<h4", str "<h5", str "<h6", str "<u", str "<o", str "<l",
   str "<i"]

/-- Every `<` of `s` starts one of the prefixes in `PTags`. -/
def ltOkB : Str → Bool
  | [] => true
  | c :: cs =>
    (if c = '<' then PTags.any (fun p => pfx p (c :: cs)) else true) && ltOkB cs

/-- The characters of the literal markup inserted by the table pass. -/
def tblChars : Str :=
  str "<table></table><thead></thead><tbody></tbody><tr></tr><th></th><td></td> style=\"text-align:centerightleft\""

/-- The characters of the literal markup inserted by the list pass. -/
def lstChars : Str :=
  str "<ol></ol><ul></ul><li></li><input type=\"checkbox\" checked disabled> "

/-- The tags present in the new revision's paragraph block test but not in
the old one's. -/
def paraExtra : List Str :=
  [str "section", str "article", str "aside", str "header", str "footer",
   str "nav", str "main", str "details", str "summary", str "figure",
   str "figcaption"]

/-! ## Length helpers and totality of the fueled scanners

The fuel threaded through `scanRep` / `scanExt` / `tableLoop` models the
progress of the JavaScript regex scan: each successful match consumes at
least one character.  The lemmas of this section prove that the initial
fuel (the input length) always suffices, which is the formal content of the
termination claim. -/

theorem pfxLen : ∀ {p s : Str}, pfx p s = true → p.length ≤ s.length := by
  intro p
  induction p with
  | nil => intro s _; exact Nat.zero_le _
  | cons a ps ih =>
    intro s h
    cases s with
    | nil => simp [pfx] at h
    | cons c cs =>
      simp only [pfx, Bool.and_eq_true] at h
      simpa using Nat.succ_le_succ (ih h.2)

theorem dropWhileLen (q : Char → Bool) : ∀ l : Str, (l.dropWhile q).length ≤ l.length := by
  intro l
  induction l with
  | nil => simp
  | cons c cs ih =>
    rw [List.dropWhile_cons]
    split
    · exact Nat.le_trans ih (Nat.le_succ _)
    · exact Nat.le_refl _

theorem dropLen (n : Nat) (l : Str) : (l.drop n).length ≤ l.length := by
  rw [List.length_drop]; omega

theorem findDelim_restLe {d : Str} {st : Bool} :
    ∀ {s q}, findDelim d st s = some q → q.2.length ≤ s.length := by
  intro s
  induction s with
  | nil => intro q h; simp [findDelim] at h
  | cons c cs ih =>
    intro q h
    simp only [findDelim] at h
    split at h
    · cases h
      exact dropLen _ _
    · split at h
      · cases h
      · cases hfd : findDelim d st cs with
        | none => rw [hfd] at h; cases h
        | some q' =>
          rw [hfd] at h
          cases h
          exact Nat.le_trans (ih (q := q') hfd) (Nat.le_succ _)

/-- A matcher consumes at least one character whenever it fires. -/
def Shrinks {α : Type} (m : Matcher α) : Prop :=
  ∀ ls s r, m ls s = some r → r.rest.length < s.length

theorem shrinks_mFence : Shrinks mFence := by
  intro ls s r h
  unfold mFence at h
  split at h
  case isTrue hp =>
    split at h
    case h_1 r2 heq =>
      split at h
      case h_1 q hfd =>
        cases h
        have h1 : q.2.length ≤ r2.length := findDelim_restLe hfd
        have h3 := dropWhileLen jsWord (s.drop 3)
        have h4 : (s.drop 3).length = s.length - 3 := List.length_drop ..
        have h5 : 3 ≤ s.length := pfxLen hp
        have h6 : ((s.drop 3).dropWhile jsWord).length = r2.length + 1 := by
          rw [heq]; rfl
        dsimp only
        omega
      case h_2 => cases h
    case h_2 => cases h
  case isFalse => cases h

theorem shrinks_mInlineCode : Shrinks mInlineCode := by
  intro ls s r h
  unfold mInlineCode at h
  split at h
  case h_1 c cs =>
    split at h
    case isTrue =>
      split at h
      case h_1 a rest heq =>
        split at h
        case isTrue =>
          cases h
          have h1 := dropWhileLen (fun x => x != btick && x != '\n') cs
          have h2 : (cs.dropWhile (fun x => x != btick && x != '\n')).length
              = rest.length + 1 := by rw [heq]; rfl
          dsimp only
          simp only [List.length_cons]
          omega
        case isFalse => cases h
      case h_2 => cases h
    case isFalse => cases h
  case h_2 => cases h

theorem shrinks_mDisplayMath : Shrinks mDisplayMath := by
  intro ls s r h
  unfold mDisplayMath at h
  split at h
  case isTrue hp =>
    split at h
    case h_1 c r2 heq =>
      split at h
      case h_1 q hfd =>
        cases h
        have h1 : q.2.length ≤ r2.length := findDelim_restLe hfd
        have h2 : (s.drop 2).length = s.length - 2 := List.length_drop ..
        have h3 : (s.drop 2).length = r2.length + 1 := by rw [heq]; rfl
        have h5 : 2 ≤ s.length := pfxLen hp
        dsimp only
        omega
      case h_2 => cases h
    case h_2 => cases h
  case isFalse => cases h

theorem shrinks_mInlineMath : Shrinks mInlineMath := by
  intro ls s r h
  unfold mInlineMath at h
  split at h
  case h_1 c cs =>
    split at h
    case isTrue =>
      split at h
      case h_1 a rest heq =>
        split at h
        case isTrue =>
          cases h
          have h1 := dropWhileLen (fun x => x != '$' && x != '\n') cs
          have h2 : (cs.dropWhile (fun x => x != '$' && x != '\n')).length
              = rest.length + 1 := by rw [heq]; rfl
          dsimp only
          simp only [List.length_cons]
          omega
        case isFalse => cases h
      case h_2 => cases h
    case isFalse => cases h
  case h_2 => cases h

theorem shrinks_mHtmlBlock : Shrinks mHtmlBlock := by
  intro ls s r h
  unfold mHtmlBlock at h
  split at h
  case isTrue => cases h
  case isFalse =>
    split at h
    case h_1 cs =>
      split at h
      case h_1 t hfind =>
        split at h
        case h_1 d afterD heq =>
          cases h
          have h1 := dropWhileLen (fun x => x != '\n') afterD
          have h2 : (cs.drop t.length).length = afterD.length + 1 := by rw [heq]; rfl
          have h3 := dropLen t.length cs
          dsimp only
          simp only [List.length_cons]
          omega
        case h_2 => cases h
      case h_2 => cases h
    case h_2 => cases h

theorem inlineTagTail_restLe {sl r1 : Str} {r : MRes Str}
    (h : inlineTagTail sl r1 = some r) : r.rest.length < r1.length + 1 := by
  unfold inlineTagTail at h
  split at h
  case isTrue => cases h
  case isFalse hw =>
    split at h
    case h_1 g rest heq =>
      cases h
      have h1 := dropWhileLen (fun x => x != '>') (r1.dropWhile jsWord)
      have h2 := dropWhileLen jsWord r1
      have h3 : ((r1.dropWhile jsWord).dropWhile (fun x => x != '>')).length
          = rest.length + 1 := by rw [heq]; rfl
      dsimp only
      omega
    case h_2 => cases h

theorem shrinks_mInlineHtml : Shrinks mInlineHtml := by
  intro ls s r h
  unfold mInlineHtml at h
  split at h
  case h_1 cs =>
    have h1 := inlineTagTail_restLe h
    simp only [List.length_cons]
    omega
  case h_2 cs =>
    have h1 := inlineTagTail_restLe h
    simp only [List.length_cons]
    omega
  case h_3 => cases h

theorem hrTail_restLe {w afterW : Str} {q : Str × Bool}
    (h : hrTail w afterW = some q) : q.1.length ≤ w.length + afterW.length := by
  unfold hrTail at h
  split at h
  case isTrue =>
    cases h
    exact Nat.zero_le _
  case isFalse =>
    split at h
    case isTrue => cases h
    case isFalse =>
      cases h
      dsimp only
      simp only [List.length_append]
      have := dropLen (w.length - (w.reverse.takeWhile (fun x => x != '\n')).length - 1) w
      omega

theorem shrinks_mHr : Shrinks mHr := by
  intro ls s r h
  unfold mHr at h
  split at h
  case isTrue => cases h
  case isFalse =>
    split at h
    case isTrue hp =>
      split at h
      case h_1 q hq =>
        cases h
        have h5 : 3 ≤ s.length := by
          rcases Bool.or_eq_true _ _ |>.mp hp with h' | h'
          · rcases Bool.or_eq_true _ _ |>.mp h' with h'' | h''
            · exact pfxLen h''
            · exact pfxLen h''
          · exact pfxLen h'
        have h1 := hrTail_restLe hq
        have h2 : ((s.drop 3).takeWhile jsWs).length + ((s.drop 3).dropWhile jsWs).length
            = (s.drop 3).length := by
          rw [← List.length_append, List.takeWhile_append_dropWhile]
        have h3 : (s.drop 3).length = s.length - 3 := List.length_drop ..
        dsimp only
        omega
      case h_2 => cases h
    case isFalse => cases h

theorem headTail_restLe {w afterW : Str} {q : Str × Str}
    (h : headTail w afterW = some q) (hw : ¬ w.isEmpty = true) :
    q.2.length + 1 ≤ w.length + afterW.length := by
  unfold headTail at h
  split at h
  case h_1 a l =>
    cases h
    dsimp only
    have h1 := dropWhileLen (fun x => x != '\n') (a :: l)
    have h2 : 1 ≤ w.length := by
      cases w with
      | nil => simp [List.isEmpty] at hw
      | cons a l => simp
    omega
  case h_2 =>
    split at h
    case h_1 => cases h
    case h_2 => cases h
    case h_3 lastC b rest heq =>
      cases h
      dsimp only
      have h1 : (w.reverse.takeWhile (fun x => x == '\n')).length +
          (w.reverse.dropWhile (fun x => x == '\n')).length = w.length := by
        rw [← List.length_append, List.takeWhile_append_dropWhile, List.length_reverse]
      have h2 : (w.reverse.dropWhile (fun x => x == '\n')).length = rest.length + 2 := by
        rw [heq]; rfl
      simp only [List.length_reverse, List.length_nil]
      omega

theorem shrinks_mHeading (n : Nat) : Shrinks (mHeading n) := by
  intro ls s r h
  unfold mHeading at h
  split at h
  case isTrue => cases h
  case isFalse =>
    split at h
    case isTrue hp =>
      split at h
      case isTrue => cases h
      case isFalse hw =>
        split at h
        case h_1 q hq =>
          cases h
          have h1 := headTail_restLe hq hw
          have h2 : ((s.drop n).takeWhile jsWs).length + ((s.drop n).dropWhile jsWs).length
              = (s.drop n).length := by
            rw [← List.length_append, List.takeWhile_append_dropWhile]
          have h3 : (s.drop n).length = s.length - n := List.length_drop ..
          have h4 : n ≤ s.length := by
            have := pfxLen hp
            simpa using this
          dsimp only
          omega
        case h_2 => cases h
    case isFalse => cases h

theorem shrinks_mImage (f : Str → Str) : Shrinks (mImage f) := by
  intro ls s r h
  unfold mImage at h
  split at h
  case isTrue hp =>
    split at h
    case h_1 a r3 heq =>
      split at h
      case isTrue => cases h
      case isFalse =>
        split at h
        case h_1 b rest heq2 =>
          cases h
          have h1 := dropWhileLen (fun x => x != ')') r3
          have h2 : (r3.dropWhile (fun x => x != ')')).length = rest.length + 1 := by
            rw [heq2]; rfl
          have h3 := dropWhileLen (fun x => x != ']') (s.drop 2)
          have h4 : ((s.drop 2).dropWhile (fun x => x != ']')).length = r3.length + 2 := by
            rw [heq]; rfl
          have h5 : (s.drop 2).length = s.length - 2 := List.length_drop ..
          have h6 : 2 ≤ s.length := pfxLen hp
          dsimp only
          omega
        case h_2 => cases h
    case h_2 => cases h
  case isFalse => cases h

theorem shrinks_mLink : Shrinks mLink := by
  intro ls s r h
  unfold mLink at h
  split at h
  case h_1 r1 =>
    split at h
    case isTrue => cases h
    case isFalse =>
      split at h
      case h_1 a r3 heq =>
        split at h
        case isTrue => cases h
        case isFalse =>
          split at h
          case h_1 b rest heq2 =>
            cases h
            have h1 := dropWhileLen (fun x => x != ')') r3
            have h2 : (r3.dropWhile (fun x => x != ')')).length = rest.length + 1 := by
              rw [heq2]; rfl
            have h3 := dropWhileLen (fun x => x != ']') r1
            have h4 : (r1.dropWhile (fun x => x != ']')).length = r3.length + 2 := by
              rw [heq]; rfl
            dsimp only
            simp only [List.length_cons]
            omega
          case h_2 => cases h
      case h_2 => cases h
  case h_2 => cases h

theorem shrinks_mPair (d pre post : Str) : Shrinks (mPair d pre post) := by
  intro ls s r h
  unfold mPair at h
  split at h
  case isTrue hp =>
    split at h
    case h_1 c r2 heq =>
      split at h
      case isTrue => cases h
      case isFalse =>
        split at h
        case h_1 q hfd =>
          cases h
          have h1 : q.2.length ≤ r2.length := findDelim_restLe hfd
          have h2 : (s.drop d.length).length = s.length - d.length := List.length_drop ..
          have h3 : (s.drop d.length).length = r2.length + 1 := by rw [heq]; rfl
          have h4 : d.length ≤ s.length := pfxLen hp
          dsimp only
          omega
        case h_2 => cases h
    case h_2 => cases h
  case isFalse => cases h

theorem shrinks_mFenceOld : Shrinks mFenceOld := by
  intro ls s r h
  unfold mFenceOld at h
  split at h
  case h_1 q hq =>
    cases h
    exact shrinks_mFence ls s q hq
  case h_2 => cases h

theorem shrinks_mInlineCodeOld : Shrinks mInlineCodeOld := by
  intro ls s r h
  unfold mInlineCodeOld at h
  split at h
  case h_1 q hq =>
    cases h
    exact shrinks_mInlineCode ls s q hq
  case h_2 => cases h

/-! ### Fuel adequacy of the scanners -/

theorem scanRep_total {m : Matcher Str} (hm : Shrinks m) :
    ∀ fuel ls s, s.length ≤ fuel → ∃ t, scanRep m fuel ls s = some t := by
  intro fuel
  induction fuel with
  | zero =>
    intro ls s h
    cases s with
    | nil => exact ⟨[], rfl⟩
    | cons c cs => simp at h
  | succ n ih =>
    intro ls s h
    cases s with
    | nil => exact ⟨[], rfl⟩
    | cons c cs =>
      simp only [scanRep]
      cases hm' : m ls (c :: cs) with
      | some r =>
        have hlt : r.rest.length < cs.length + 1 := hm ls (c :: cs) r hm'
        obtain ⟨t, ht⟩ := ih r.nlEnd r.rest (by simp at h; omega)
        exact ⟨r.payload ++ t, by dsimp only; rw [ht]⟩
      | none =>
        obtain ⟨t, ht⟩ := ih (c == '\n') cs (by simp at h; omega)
        exact ⟨c :: t, by dsimp only; rw [ht]⟩

theorem scanExt_total {α : Type} {m : Matcher α} (ph : Nat → Str) (hm : Shrinks m) :
    ∀ fuel idx ls s, s.length ≤ fuel → ∃ t, scanExt m ph fuel idx ls s = some t := by
  intro fuel
  induction fuel with
  | zero =>
    intro idx ls s h
    cases s with
    | nil => exact ⟨([], []), rfl⟩
    | cons c cs => simp at h
  | succ n ih =>
    intro idx ls s h
    cases s with
    | nil => exact ⟨([], []), rfl⟩
    | cons c cs =>
      simp only [scanExt]
      cases hm' : m ls (c :: cs) with
      | some r =>
        have hlt : r.rest.length < cs.length + 1 := hm ls (c :: cs) r hm'
        obtain ⟨t, ht⟩ := ih (idx + 1) r.nlEnd r.rest (by simp at h; omega)
        exact ⟨(ph idx ++ t.1, r.payload :: t.2), by dsimp only; rw [ht]⟩
      | none =>
        obtain ⟨t, ht⟩ := ih idx (c == '\n') cs (by simp at h; omega)
        exact ⟨(c :: t.1, t.2), by dsimp only; rw [ht]⟩

theorem consumeRows_restLe : ∀ ls : List Str, (consumeRows ls).2.length ≤ ls.length := by
  intro ls
  induction ls with
  | nil => simp [consumeRows]
  | cons l rest ih =>
    simp only [consumeRows]
    split
    · dsimp only
      exact Nat.le_trans ih (Nat.le_succ _)
    · simp

theorem tableLoop_total :
    ∀ fuel ls, ls.length ≤ fuel → ∃ t, tableLoop fuel ls = some t := by
  intro fuel
  induction fuel with
  | zero =>
    intro ls h
    cases ls with
    | nil => exact ⟨[], rfl⟩
    | cons l rest => simp at h
  | succ n ih =>
    intro ls h
    cases ls with
    | nil => exact ⟨[], rfl⟩
    | cons l rest =>
      cases rest with
      | nil => exact ⟨[l], by simp [tableLoop]⟩
      | cons l2 rest2 =>
        simp only [tableLoop]
        split
        · have h1 := consumeRows_restLe rest2
          obtain ⟨t, ht⟩ := ih (consumeRows rest2).2 (by simp at h; omega)
          exact ⟨_, by rw [ht]⟩
        · obtain ⟨t, ht⟩ := ih (l2 :: rest2) (by simp at h ⊢; omega)
          exact ⟨l :: t, by rw [ht]⟩

/-! ### Totality of every fallible phase, and of `parse` (claim C1) -/

theorem parseTables_total (s : Str) : ∃ t, parseTables s = some t := by
  obtain ⟨t, ht⟩ := tableLoop_total (splitNl s).length (splitNl s) (Nat.le_refl _)
  exact ⟨joinNl t, by unfold parseTables; rw [ht]⟩

theorem parseHorizontalRules_total (s : Str) :
    ∃ t, parseHorizontalRules s = some t :=
  scanRep_total shrinks_mHr s.length true s (Nat.le_refl _)

theorem parseHeadings_total (s : Str) : ∃ t, parseHeadings s = some t := by
  obtain ⟨a, ha⟩ := scanRep_total (shrinks_mHeading 6) s.length true s (Nat.le_refl _)
  obtain ⟨b, hb⟩ := scanRep_total (shrinks_mHeading 5) a.length true a (Nat.le_refl _)
  obtain ⟨c, hc⟩ := scanRep_total (shrinks_mHeading 4) b.length true b (Nat.le_refl _)
  obtain ⟨d, hd⟩ := scanRep_total (shrinks_mHeading 3) c.length true c (Nat.le_refl _)
  obtain ⟨e, he⟩ := scanRep_total (shrinks_mHeading 2) d.length true d (Nat.le_refl _)
  obtain ⟨g, hg⟩ := scanRep_total (shrinks_mHeading 1) e.length true e (Nat.le_refl _)
  exact ⟨g, by unfold parseHeadings; simp only [ha, hb, hc, hd, he, hg, Option.bind]⟩

theorem phaseBlocks_total (s : Str) : ∃ t, phaseBlocks s = some t := by
  obtain ⟨a, ha⟩ := parseTables_total (parseBlockquotes s)
  obtain ⟨b, hb⟩ := parseHorizontalRules_total a
  obtain ⟨c, hc⟩ := parseHeadings_total b
  exact ⟨parseLists c, by unfold phaseBlocks; simp only [ha, hb, hc, Option.bind, Option.map]⟩

theorem phase1_total (s : Str) : ∃ t, phase1 s = some t := by
  obtain ⟨a, ha⟩ := scanExt_total (phTok (str "CODEBLOCK")) shrinks_mFence
    s.length 0 true s (Nat.le_refl _)
  obtain ⟨b, hb⟩ := scanExt_total (phTok (str "INLINECODE")) shrinks_mInlineCode
    a.1.length 0 true a.1 (Nat.le_refl _)
  obtain ⟨c, hc⟩ := scanExt_total (phTok (str "MATHBLOCK")) shrinks_mDisplayMath
    (replEscDollar b.1).length 0 true (replEscDollar b.1) (Nat.le_refl _)
  obtain ⟨d, hd⟩ := scanExt_total (phTok (str "INLINEMATH")) shrinks_mInlineMath
    c.1.length 0 true c.1 (Nat.le_refl _)
  obtain ⟨e, he⟩ := scanExt_total (phTok (str "HTMLBLOCK")) shrinks_mHtmlBlock
    d.1.length 0 true d.1 (Nat.le_refl _)
  obtain ⟨g, hg⟩ := scanExt_total (phTok (str "INLINEHTML")) shrinks_mInlineHtml
    e.1.length 0 true e.1 (Nat.le_refl _)
  exact ⟨(g.1, ⟨a.2, b.2, c.2, d.2, e.2, g.2⟩), by
    unfold phase1 extractFences extractInlineCode extractDisplayMath extractInlineMath
      extractHtmlBlocks extractInlineHtml
    simp only [ha, hb, hc, hd, he, hg, Option.bind, Option.map]⟩

theorem phaseInline_total (f : Str → Str) (s : Str) : ∃ t, phaseInline f s = some t := by
  obtain ⟨a, ha⟩ := scanRep_total (shrinks_mImage f) s.length true s (Nat.le_refl _)
  obtain ⟨b, hb⟩ := scanRep_total shrinks_mLink a.length true a (Nat.le_refl _)
  obtain ⟨c1, hc1⟩ := scanRep_total
    (shrinks_mPair (str "***") (str "<strong><em>") (str "</em></strong>"))
    b.length true b (Nat.le_refl _)
  obtain ⟨c2, hc2⟩ := scanRep_total
    (shrinks_mPair (str "___") (str "<strong><em>") (str "</em></strong>"))
    c1.length true c1 (Nat.le_refl _)
  obtain ⟨c3, hc3⟩ := scanRep_total
    (shrinks_mPair (str "**") (str "<strong>") (str "</strong>"))
    c2.length true c2 (Nat.le_refl _)
  obtain ⟨c4, hc4⟩ := scanRep_total
    (shrinks_mPair (str "__") (str "<strong>") (str "</strong>"))
    c3.length true c3 (Nat.le_refl _)
  obtain ⟨c5, hc5⟩ := scanRep_total
    (shrinks_mPair (str "*") (str "<em>") (str "</em>"))
    c4.length true c4 (Nat.le_refl _)
  obtain ⟨c6, hc6⟩ := scanRep_total
    (shrinks_mPair (str "_") (str "<em>") (str "</em>"))
    c5.length true c5 (Nat.le_refl _)
  obtain ⟨d, hd⟩ := scanRep_total
    (shrinks_mPair (str "~~") (str "<del>") (str "</del>"))
    c6.length true c6 (Nat.le_refl _)
  exact ⟨parseLineBreaks d, by
    unfold phaseInline parseImages parseLinks parseBoldItalic parseStrikethrough
    simp only [ha, hb, hc1, hc2, hc3, hc4, hc5, hc6, hd, Option.bind, Option.map]⟩

/-- **Claim C1.** For every input string (and every resolver), `parse`
terminates with a string result: the fuel with which the embedding models
the JavaScript scanning loops always suffices, and no step of the pipeline
is partial, so the function never fails on any input. -/
theorem parseNew_total (f : Str → Str) (md : Str) : ∃ t, parseNew f md = some t := by
  unfold parseNew
  split
  · exact ⟨[], rfl⟩
  · obtain ⟨p, hp⟩ := phase1_total (normNl md)
    obtain ⟨a, ha⟩ := phaseBlocks_total (escapeHtml p.1)
    obtain ⟨b, hb⟩ := phaseInline_total f (parseParagraphsNew a)
    exact ⟨jsTrim (phase5 p.2 b), by simp only [hp, ha, hb, Option.bind, Option.map]⟩

/-- Totality of the old revision's `parse` (used for the refinement claim). -/
theorem parseOld_total (f : Str → Str) (md : Str) : ∃ t, parseOld f md = some t := by
  unfold parseOld
  split
  · exact ⟨[], rfl⟩
  · obtain ⟨a, ha⟩ := scanRep_total shrinks_mFenceOld (escapeHtml (normNl md)).length true
      (escapeHtml (normNl md)) (Nat.le_refl _)
    obtain ⟨b, hb⟩ := phaseBlocks_total a
    obtain ⟨c, hc⟩ := scanRep_total shrinks_mInlineCodeOld (parseParagraphsOld b).length true
      (parseParagraphsOld b) (Nat.le_refl _)
    obtain ⟨d, hd⟩ := phaseInline_total f c
    exact ⟨jsTrim d, by
      unfold parseCodeBlocksOld parseInlineCodeOld
      simp only [ha, hb, hc, hd, Option.bind, Option.map]⟩

/-! ## The escaping phase eliminates `<` (claim C2) -/

theorem mem_replAmp {c : Char} : ∀ {s : Str}, c ∈ replAmp s → c ∈ str "&amp;" ∨ c ∈ s := by
  intro s
  induction s with
  | nil => intro h; simp [replAmp] at h
  | cons a r ih =>
    intro h
    by_cases ha : a = '&'
    · subst ha
      rw [show replAmp ('&' :: r) = str "&amp;" ++ replAmp r from rfl] at h
      rcases List.mem_append.mp h with h' | h'
      · exact Or.inl h'
      · rcases ih h' with h'' | h''
        · exact Or.inl h''
        · exact Or.inr (List.mem_cons_of_mem _ h'')
    · rw [show replAmp (a :: r) = a :: replAmp r from by simp [replAmp, ha]] at h
      rcases List.mem_cons.mp h with h' | h'
      · exact Or.inr (h' ▸ List.mem_cons_self _ _)
      · rcases ih h' with h'' | h''
        · exact Or.inl h''
        · exact Or.inr (List.mem_cons_of_mem _ h'')

theorem mem_replLt {c : Char} : ∀ {s : Str}, c ∈ replLt s → c ∈ str "&lt;" ∨ (c ∈ s ∧ c ≠ '<') := by
  intro s
  induction s with
  | nil => intro h; simp [replLt] at h
  | cons a r ih =>
    intro h
    by_cases ha : a = '<'
    · subst ha
      rw [show replLt ('<' :: r) = str "&lt;" ++ replLt r from rfl] at h
      rcases List.mem_append.mp h with h' | h'
      · exact Or.inl h'
      · rcases ih h' with h'' | h''
        · exact Or.inl h''
        · exact Or.inr ⟨List.mem_cons_of_mem _ h''.1, h''.2⟩
    · rw [show replLt (a :: r) = a :: replLt r from by simp [replLt, ha]] at h
      rcases List.mem_cons.mp h with h' | h'
      · exact Or.inr ⟨h' ▸ List.mem_cons_self _ _, h' ▸ ha⟩
      · rcases ih h' with h'' | h''
        · exact Or.inl h''
        · exact Or.inr ⟨List.mem_cons_of_mem _ h''.1, h''.2⟩

theorem mem_replGt {c : Char} : ∀ {s : Str}, c ∈ replGt s → c ∈ str "&gt;" ∨ c ∈ s := by
  intro s
  induction s with
  | nil => intro h; simp [replGt] at h
  | cons a r ih =>
    intro h
    by_cases ha : a = '>'
    · subst ha
      rw [show replGt ('>' :: r) = str "&gt;" ++ replGt r from rfl] at h
      rcases List.mem_append.mp h with h' | h'
      · exact Or.inl h'
      · rcases ih h' with h'' | h''
        · exact Or.inl h''
        · exact Or.inr (List.mem_cons_of_mem _ h'')
    · rw [show replGt (a :: r) = a :: replGt r from by simp [replGt, ha]] at h
      rcases List.mem_cons.mp h with h' | h'
      · exact Or.inr (h' ▸ List.mem_cons_self _ _)
      · rcases ih h' with h'' | h''
        · exact Or.inl h''
        · exact Or.inr (List.mem_cons_of_mem _ h'')

theorem mem_replQuot {c : Char} : ∀ {s : Str}, c ∈ replQuot s → c ∈ str "&quot;" ∨ c ∈ s := by
  intro s
  induction s with
  | nil => intro h; simp [replQuot] at h
  | cons a r ih =>
    intro h
    by_cases ha : a = '"'
    · subst ha
      rw [show replQuot ('"' :: r) = str "&quot;" ++ replQuot r from rfl] at h
      rcases List.mem_append.mp h with h' | h'
      · exact Or.inl h'
      · rcases ih h' with h'' | h''
        · exact Or.inl h''
        · exact Or.inr (List.mem_cons_of_mem _ h'')
    · rw [show replQuot (a :: r) = a :: replQuot r from by simp [replQuot, ha]] at h
      rcases List.mem_cons.mp h with h' | h'
      · exact Or.inr (h' ▸ List.mem_cons_self _ _)
      · rcases ih h' with h'' | h''
        · exact Or.inl h''
        · exact Or.inr (List.mem_cons_of_mem _ h'')

/-- After `_escapeHtml`, no `'<'` remains: every `<` of the text reaching
phase 2 is turned into `&lt;`. -/
theorem escapeHtml_no_lt (s : Str) : '<' ∉ escapeHtml s := by
  intro h
  unfold escapeHtml at h
  rcases mem_replQuot h with h1 | h1
  · simp [str] at h1
  rcases mem_replGt h1 with h2 | h2
  · simp [str] at h2
  rcases mem_replLt h2 with h3 | h3
  · simp [str] at h3
  · exact h3.2 rfl

/-- **Claim C2, counterexample.**  On `"[x](a<b)"` the `<` is plain prose:
the input contains no `>`, so the inline-tag pattern `<(\/?)(\w+)([^>]*)>`
cannot consume it, and it does not sit at a line start behind a recognized
block tag.  The escaping phase does turn it into `&lt;`, but the link
pass's `_unescapeForAttr` restores the raw character inside the `href`
attribute: the output carries a literal `<` in `href="a<b"` and contains
no `&lt;` at all, refuting the claim's universal output-level statement. -/
theorem link_href_unescapes_lt :
    parseNew idResolver (str "[x](a<b)") =
      some (str "<p><a href=\"a<b\" target=\"_blank\" rel=\"noopener noreferrer\">x</a></p>") ∧
    hasSub (str "&lt;")
      (str "<p><a href=\"a<b\" target=\"_blank\" rel=\"noopener noreferrer\">x</a></p>")
      = false ∧
    hasSub (str "\"a<b\"")
      (str "<p><a href=\"a<b\" target=\"_blank\" rel=\"noopener noreferrer\">x</a></p>")
      = true :=
  ⟨by decide, by decide, by decide⟩

/-- **Claim C2, amended.**  The escaping phase eliminates every raw `<`
(for every input the escaped working string contains no `'<'`), and a
plain-prose `<` *outside link and image URLs* reaches the output as
`&lt;`: `parse("a<b") = "<p>a&lt;b</p>"`.  `"<script>"` is consumed whole
by the inline-raw-HTML extraction and restored as raw passthrough, not
transformed by the engine's own Markdown syntax.  Inside a link or image
URL, however, `_unescapeForAttr` deliberately restores the raw character
(see the counterexample), so the escaping guarantee does not extend to
`href`/`src` attribute text. -/
theorem plain_lt_escaped_outside_urls :
    (∀ s : Str, '<' ∉ escapeHtml s) ∧
    parseNew idResolver (str "a<b") = some (str "<p>a&lt;b</p>") ∧
    hasSub (str "&lt;") (str "<p>a&lt;b</p>") = true ∧
    extractInlineHtml (str "<script>") =
      some (str "\x00INLINEHTML0\x00", [str "<script>"]) ∧
    parseNew idResolver (str "<script>") = some (str "<script>") :=
  ⟨escapeHtml_no_lt, by decide, by decide, by decide, by decide⟩

/-! ## Placeholder tokens: distinctness and the collision risk (claim C3) -/

/-- Decimal value of a digit string (left inverse of `natDigits`). -/
def digitsVal (s : Str) : Nat := s.foldl (fun a c => 10 * a + (c.toNat - 48)) 0

theorem digitChar_toNat : ∀ m, m < 10 → (digitChar m).toNat = 48 + m := by decide

theorem digitsVal_aux : ∀ fuel n, n < fuel → digitsVal (natDigitsAux fuel n) = n := by
  intro fuel
  induction fuel with
  | zero => intro n h; omega
  | succ f ih =>
    intro n h
    by_cases h10 : n < 10
    · simp only [natDigitsAux, if_pos h10]
      unfold digitsVal
      simp only [List.foldl_cons, List.foldl_nil]
      rw [digitChar_toNat n h10]
      omega
    · simp only [natDigitsAux, if_neg h10]
      have hd : n / 10 < f := by
        have := Nat.div_lt_self (by omega : 0 < n) (by omega : 1 < 10)
        omega
      have hmod : n % 10 < 10 := Nat.mod_lt _ (by omega)
      unfold digitsVal
      rw [List.foldl_append]
      have := ih (n / 10) hd
      unfold digitsVal at this
      rw [this]
      simp only [List.foldl_cons, List.foldl_nil]
      rw [digitChar_toNat _ hmod]
      omega

theorem natDigits_inj {m n : Nat} (h : natDigits m = natDigits n) : m = n := by
  have hm := digitsVal_aux (m + 1) m (Nat.lt_succ_self m)
  have hn := digitsVal_aux (n + 1) n (Nat.lt_succ_self n)
  unfold natDigits at h
  rw [h] at hm
  rw [hn] at hm
  exact hm.symm

/-- Digit-character range of `natDigits`. -/
theorem natDigits_digits : ∀ fuel n, n < fuel →
    ∀ c ∈ natDigitsAux fuel n, 48 ≤ c.toNat ∧ c.toNat ≤ 57 := by
  intro fuel
  induction fuel with
  | zero => intro n h; omega
  | succ f ih =>
    intro n h c hc
    by_cases h10 : n < 10
    · simp only [natDigitsAux, if_pos h10] at hc
      rcases List.mem_singleton.mp hc with rfl
      rw [digitChar_toNat n h10]
      omega
    · simp only [natDigitsAux, if_neg h10] at hc
      rcases List.mem_append.mp hc with h' | h'
      · have hd : n / 10 < f := by
          have := Nat.div_lt_self (by omega : 0 < n) (by omega : 1 < 10)
          omega
        exact ih (n / 10) hd c h'
      · rcases List.mem_singleton.mp h' with rfl
        rw [digitChar_toNat _ (Nat.mod_lt _ (by omega))]
        omega

theorem natDigits_ne_nil (n : Nat) : natDigits n ≠ [] := by
  unfold natDigits natDigitsAux
  by_cases h10 : n < 10
  · simp [h10]
  · simp only [if_neg h10]
    intro hcon
    exact absurd (List.append_eq_nil.mp hcon).2 (by simp)

/-- Uppercase-letter test for characters of a placeholder kind tag. -/
def isUpChar (c : Char) : Bool := 65 ≤ c.toNat && c.toNat ≤ 90

/-- The placeholder kinds carrying a numeric index, in extraction order. -/
def phKinds : List Str :=
  [str "CODEBLOCK", str "INLINECODE", str "MATHBLOCK", str "INLINEMATH",
   str "HTMLBLOCK", str "INLINEHTML"]

theorem takeWhile_all_append {p : Char → Bool} :
    ∀ (k d : Str), (∀ c ∈ k, p c = true) → (∀ c, d.head? = some c → p c = false) →
      (k ++ d).takeWhile p = k := by
  intro k
  induction k with
  | nil =>
    intro d _ hd
    cases d with
    | nil => rfl
    | cons a l =>
      simp only [List.nil_append, List.takeWhile_cons]
      simp [hd a rfl]
  | cons a l ih =>
    intro d hk hd
    simp only [List.cons_append, List.takeWhile_cons]
    rw [hk a (List.mem_cons_self _ _)]
    simp only [if_true]
    rw [ih d (fun c hc => hk c (List.mem_cons_of_mem _ hc)) hd]

theorem append_singleton_inj {a b : Str} {x : Char} (h : a ++ [x] = b ++ [x]) : a = b := by
  have := congrArg List.reverse h
  simp only [List.reverse_append, List.reverse_cons, List.reverse_nil,
    List.nil_append, List.singleton_append, List.cons.injEq] at this
  have := congrArg List.reverse this.2
  simpa using this

theorem phTok_inj : ∀ k₁, k₁ ∈ phKinds → ∀ k₂, k₂ ∈ phKinds → ∀ i₁ i₂,
    phTok k₁ i₁ = phTok k₂ i₂ → k₁ = k₂ ∧ i₁ = i₂ := by
  intro k₁ h₁ k₂ h₂ i₁ i₂ h
  unfold phTok at h
  have h' : (k₁ ++ natDigits i₁) ++ [sentinel] = (k₂ ++ natDigits i₂) ++ [sentinel] := by
    injection h
  have h'' : k₁ ++ natDigits i₁ = k₂ ++ natDigits i₂ := append_singleton_inj h'
  have hku : ∀ k, k ∈ phKinds → ∀ c ∈ k, isUpChar c = true := by decide
  have hdu : ∀ i c, (natDigits i).head? = some c → isUpChar c = false := by
    intro i c hc
    cases hnd : natDigits i with
    | nil => rw [hnd] at hc; cases hc
    | cons a l =>
      rw [hnd] at hc
      have hac : a = c := by simpa using hc
      subst hac
      have hmem : a ∈ natDigits i := by rw [hnd]; exact List.mem_cons_self _ _
      have hrange := natDigits_digits (i + 1) i (Nat.lt_succ_self i) a hmem
      cases hup : isUpChar a with
      | false => rfl
      | true =>
        exfalso
        simp only [isUpChar, Bool.and_eq_true, decide_eq_true_eq] at hup
        omega
  have ht1 : (k₁ ++ natDigits i₁).takeWhile isUpChar = k₁ :=
    takeWhile_all_append k₁ (natDigits i₁) (hku k₁ h₁) (hdu i₁)
  have ht2 : (k₂ ++ natDigits i₂).takeWhile isUpChar = k₂ :=
    takeWhile_all_append k₂ (natDigits i₂) (hku k₂ h₂) (hdu i₂)
  have hk : k₁ = k₂ := by rw [← ht1, ← ht2, h'']
  refine ⟨hk, ?_⟩
  subst hk
  have hdig : natDigits i₁ = natDigits i₂ := by
    have := h''
    exact List.append_cancel_left this
  exact natDigits_inj hdig

theorem pfx_mem : ∀ {p t : Str}, pfx p t = true → ∀ c ∈ p, c ∈ t := by
  intro p
  induction p with
  | nil => intro t _ c hc; cases hc
  | cons a ps ih =>
    intro t h c hc
    cases t with
    | nil => simp [pfx] at h
    | cons b bs =>
      simp only [pfx, Bool.and_eq_true, decide_eq_true_eq] at h
      rcases List.mem_cons.mp hc with h' | h'
      · exact h' ▸ h.1 ▸ List.mem_cons_self _ _
      · exact List.mem_cons_of_mem _ (ih h.2 c h')

theorem hasSub_mem : ∀ {s p : Str}, hasSub p s = true → ∀ c ∈ p, c ∈ s := by
  intro s
  induction s with
  | nil =>
    intro p h c hc
    cases p with
    | nil => cases hc
    | cons a l => simp [hasSub, pfx] at h
  | cons b bs ih =>
    intro p h c hc
    simp only [hasSub, Bool.or_eq_true] at h
    rcases h with h' | h'
    · exact pfx_mem h' c hc
    · exact List.mem_cons_of_mem _ (ih h' c hc)

/-- **Claim C3, amended.**  For documents (and placeholder-free content)
not containing the sentinel character `U+0000`, the placeholder tokens are
pairwise distinct (across kinds and indices) and none occurs as a substring
of such a document — the collision of the claim's unrestricted form arises
exactly when the document itself contains the sentinel. -/
theorem placeholder_tokens_distinct :
    (∀ k₁, k₁ ∈ phKinds → ∀ k₂, k₂ ∈ phKinds → ∀ i₁ i₂,
      phTok k₁ i₁ = phTok k₂ i₂ → k₁ = k₂ ∧ i₁ = i₂) ∧
    (∀ k, k ∈ phKinds → ∀ i, ∀ s : Str, sentinel ∉ s →
      hasSub (phTok k i) s = false) := by
  refine ⟨phTok_inj, ?_⟩
  intro k _ i s hs
  cases hsub : hasSub (phTok k i) s with
  | false => rfl
  | true =>
    exact absurd (hasSub_mem hsub sentinel (List.mem_cons_self _ _)) hs

/-- Witness for `placeholder_tokens_distinct` at concrete inputs. -/
theorem placeholder_tokens_distinct_witness :
    (str "CODEBLOCK" = str "CODEBLOCK" ∧ (0 : Nat) = 0) ∧
    hasSub (phTok (str "CODEBLOCK") 0) (str "# hello") = false :=
  ⟨placeholder_tokens_distinct.1 (str "CODEBLOCK") (by decide)
      (str "CODEBLOCK") (by decide) 0 0 rfl,
   placeholder_tokens_distinct.2 (str "CODEBLOCK") (by decide) 0 (str "# hello")
      (by decide)⟩

/-- **Claim C3, counterexample.**  A document that itself contains the
sentinel bytes `\x00CODEBLOCK0\x00` collides with the placeholder the
engine inserts for its fenced code block: the phase-5 restoration replaces
the *user's* occurrence, and the engine's own placeholder survives into the
output as garbage. -/
theorem placeholder_collision :
    parseNew idResolver (str "\x00CODEBLOCK0\x00```\nx\n```") =
      some (str "<pre><code>x</code></pre>\x00CODEBLOCK0\x00") ∧
    hasSub (phTok (str "CODEBLOCK") 0) (str "\x00CODEBLOCK0\x00```\nx\n```") = true ∧
    hasSub [sentinel] (str "<pre><code>x</code></pre>\x00CODEBLOCK0\x00") = true := by
  refine ⟨by decide, by decide, by decide⟩

/-! ## Concrete functional-correctness claims (C4, C5, C8) -/

/-- **Claim C4.**  Dollar-delimited math input is translated to
bracket-delimited output: `$x^2$` becomes an inline-math span with `\(x^2\)`,
`$$x^2$$` a display-math div with `\[x^2\]`, and the escaped `\$5` a literal
`$5` with no math wrapper; no dollar-delimited math survives to the output. -/
theorem math_dollar_translation :
    parseNew idResolver (str "$x^2$") =
      some (str "<span class=\"math-inline\">\\(x^2\\)</span>") ∧
    parseNew idResolver (str "$$x^2$$") =
      some (str "<div class=\"math-display\">\\[x^2\\]</div>") ∧
    parseNew idResolver (str "\\$5") = some (str "$5") ∧
    hasSub (str "math") (str "$5") = false :=
  ⟨by decide, by decide, by decide, by decide⟩

/-- **Claim C5.**  Round-trip of fenced code: the `js`-tagged fence yields
exactly the `<pre><code class="language-js">` block with the code content
byte-identical (HTML-escaping is the identity here), trailing newline
trimmed, and no other transformation applied. -/
theorem fenced_code_roundtrip :
    parseNew idResolver (str "```js\nconst a = 1;\n```") =
      some (str "<pre><code class=\"language-js\">const a = 1;</code></pre>") := by
  decide

/-- **Claim C8.**  List nesting: `- a\n  - b\n- c` produces a single
top-level `<ul>` open/close pair, with the nested `<ul><li>b</li></ul>`
opened for the larger indent and `<li>c` emitted after it closes; every
opened tag is closed (two `<ul>` and two `</ul>` in total, the outer pair
spanning the whole output). -/
theorem list_nesting :
    parseNew idResolver (str "- a\n  - b\n- c") =
      some (str "<ul><li>a</li><ul><li>b</li></ul><li>c</li></ul>") ∧
    occCount (str "<ul>") (str "<ul><li>a</li><ul><li>b</li></ul><li>c</li></ul>") = 2 ∧
    occCount (str "</ul>") (str "<ul><li>a</li><ul><li>b</li></ul><li>c</li></ul>") = 2 ∧
    pfx (str "<ul>") (str "<ul><li>a</li><ul><li>b</li></ul><li>c</li></ul>") = true ∧
    pfx (str ">lu/<") (str "<ul><li>a</li><ul><li>b</li></ul><li>c</li></ul>").reverse = true :=
  ⟨by decide, by decide, by decide, by decide, by decide⟩

/-! ## An unterminated fence is not a fence (claim C6) -/

theorem pfx_append_self : ∀ (d x : Str), pfx d (d ++ x) = true := by
  intro d
  induction d with
  | nil => intro x; rfl
  | cons a l ih => intro x; simp [pfx, ih]

theorem pfx_decomp : ∀ {p s : Str}, pfx p s = true → s = p ++ s.drop p.length := by
  intro p
  induction p with
  | nil => intro s _; rfl
  | cons a l ih =>
    intro s h
    cases s with
    | nil => simp [pfx] at h
    | cons c cs =>
      simp only [pfx, Bool.and_eq_true, decide_eq_true_eq] at h
      have := ih h.2
      simp only [List.length_cons, List.drop_succ_cons, List.cons_append]
      rw [h.1, ← this]

theorem findDelim_decomp {d : Str} {st : Bool} :
    ∀ {s q}, findDelim d st s = some q → s = q.1 ++ d ++ q.2 := by
  intro s
  induction s with
  | nil => intro q h; simp [findDelim] at h
  | cons c cs ih =>
    intro q h
    simp only [findDelim] at h
    split at h
    case isTrue hp =>
      cases h
      simpa using pfx_decomp hp
    case isFalse =>
      split at h
      · cases h
      · split at h
        case h_1 q' hfd =>
          cases h
          have := ih hfd
          simp only [List.cons_append]
          rw [← this]
        case h_2 => cases h

theorem drop_ne_nil_lt {s t : Str} {j : Nat} (h : s.drop j = t) (hne : t ≠ []) :
    j < s.length := by
  rcases Nat.lt_or_ge j s.length with h' | h'
  · exact h'
  · exfalso
    have hd : s.drop j = [] := List.drop_eq_nil_of_le h'
    rw [hd] at h
    exact hne h.symm

/-- Shifted drop over an append. -/
theorem dropAppend : ∀ (a b : Str) (k : Nat), (a ++ b).drop (a.length + k) = b.drop k := by
  intro a
  induction a with
  | nil => intro b k; simp
  | cons x xs ih => intro b k; simp [Nat.succ_add, ih b k]

/-- If the fence matcher fires on `s`, then `"```"` occurs at position `0`
and at a second, strictly later position of `s`. -/
theorem mFence_two_ticks {ls : Bool} {s : Str} {r : MRes (Str × Str)}
    (h : mFence ls s = some r) :
    pfx (str "```") s = true ∧
      ∃ j, 0 < j ∧ j < s.length ∧ pfx (str "```") (s.drop j) = true := by
  unfold mFence at h
  split at h
  case isFalse => cases h
  case isTrue hp =>
    refine ⟨hp, ?_⟩
    split at h
    case h_2 => cases h
    case h_1 r2 heq =>
      split at h
      case h_2 => cases h
      case h_1 q hfd =>
        have hdec : r2 = q.1 ++ str "```" ++ q.2 := findDelim_decomp hfd
        have hsplit : s.drop 3 = (s.drop 3).takeWhile jsWord ++ ('\n' :: r2) := by
          conv => lhs; rw [← List.takeWhile_append_dropWhile (p := jsWord) (l := s.drop 3)]
          rw [heq]
        have key : ∀ (lang r2' : Str), s.drop 3 = lang ++ ('\n' :: r2') →
            r2' = q.1 ++ str "```" ++ q.2 →
            s.drop (3 + (lang.length + (1 + q.1.length))) = str "```" ++ q.2 := by
          intro lang r2' hsp hdc
          rw [← List.drop_drop, hsp, dropAppend,
            show 1 + q.1.length = q.1.length + 1 from by omega,
            List.drop_succ_cons, hdc, List.append_assoc]
          simp [dropAppend q.1 (str "```" ++ q.2) 0]
        have hdropj := key _ _ hsplit hdec
        refine ⟨3 + (((s.drop 3).takeWhile jsWord).length + (1 + q.1.length)),
          by omega, ?_, ?_⟩
        · exact drop_ne_nil_lt hdropj (by simp [str])
        · rw [hdropj]; exact pfx_append_self _ _

/-- A scanner with a matcher that fires on no suffix of `s` is the
identity extraction. -/
theorem scanExt_noFire {α : Type} (m : Matcher α) (ph : Nat → Str) :
    ∀ fuel s idx ls, (∀ ls' n, m ls' (s.drop n) = none) → s.length ≤ fuel →
      scanExt m ph fuel idx ls s = some (s, []) := by
  intro fuel
  induction fuel with
  | zero =>
    intro s idx ls hm h
    cases s with
    | nil => rfl
    | cons c cs => simp at h
  | succ n ih =>
    intro s idx ls hm h
    cases s with
    | nil => rfl
    | cons c cs =>
      have h0 : m ls (c :: cs) = none := by
        have := hm ls 0
        simpa using this
      simp only [scanExt, h0]
      have hcs : ∀ ls' k, m ls' (cs.drop k) = none := by
        intro ls' k
        have := hm ls' (k + 1)
        simpa using this
      rw [ih cs idx (c == '\n') hcs (by simp at h; omega)]

/-- **Claim C6, amended.**  An unterminated fence does not consume
anything: when the opening triple backtick is the only occurrence of
`"```"` in the document, the fence-extraction pass is the identity and
extracts no code block — the backticks stay literal text which the later
phases parse as ordinary Markdown (second conjunct: on `"```\n# hi"` the
remaining text becomes a heading inside a paragraph, not code). -/
theorem unterminated_fence_literal :
    (∀ s : Str,
      (∀ i, i < s.length → ∀ j, j < s.length →
        pfx (str "```") (s.drop i) = true → pfx (str "```") (s.drop j) = true → i = j) →
      extractFences s = some (s, [])) ∧
    parseNew idResolver (str "```\n# hi") = some (str "<p>```\n<h1>hi</h1></p>") := by
  constructor
  · intro s h
    unfold extractFences
    apply scanExt_noFire
    · intro ls n
      cases hm : mFence ls (s.drop n) with
      | none => rfl
      | some r =>
        exfalso
        obtain ⟨hp, j, hj0, hjlen, hpj⟩ := mFence_two_ticks hm
        have hd1 : (s.drop n).drop j = s.drop (n + j) := List.drop_drop ..
        have hocc2 : pfx (str "```") (s.drop (n + j)) = true := by
          rw [← hd1]; exact hpj
        have h3a : 3 ≤ (s.drop n).length := pfxLen hp
        have h3b : 3 ≤ (s.drop (n + j)).length := pfxLen hocc2
        have hla : (s.drop n).length = s.length - n := List.length_drop ..
        have hlb : (s.drop (n + j)).length = s.length - (n + j) := List.length_drop ..
        have := h n (by omega) (n + j) (by omega) hp hocc2
        omega
    · exact Nat.le_refl _
  · decide

/-- Witness for `unterminated_fence_literal` at a concrete input. -/
theorem unterminated_fence_literal_witness :
    extractFences (str "```\nabc") = some (str "```\nabc", []) :=
  unterminated_fence_literal.1 (str "```\nabc") (by decide)

/-- **Claim C6, counterexample.**  On the unterminated fence
`"```\n# hi"` the remaining text is *not* captured as fenced code content:
no `<pre>` is produced and the `# hi` line is parsed as a Markdown heading. -/
theorem unterminated_fence_ce :
    parseNew idResolver (str "```\n# hi") = some (str "<p>```\n<h1>hi</h1></p>") ∧
    hasSub (str "<pre>") (str "<p>```\n<h1>hi</h1></p>") = false ∧
    hasSub (str "<code") (str "<p>```\n<h1>hi</h1></p>") = false ∧
    hasSub (str "<h1>") (str "<p>```\n<h1>hi</h1></p>") = true :=
  ⟨by decide, by decide, by decide, by decide⟩

/-! ## Tables require a separator row (claim C7) -/

/-- One unfold of `tableLoop` at a line pair that fails the separator
test. -/
theorem tableLoop_cons_noSep {fuel : Nat} {l l2 : Str} {rest2 : List Str}
    (hsep : isSepLine l2 = false) :
    tableLoop (fuel + 1) (l :: l2 :: rest2) =
      match tableLoop fuel (l2 :: rest2) with
      | some t => some (l :: t)
      | none => none := by
  simp only [tableLoop, hsep, Bool.and_false]
  rfl

/-- **Claim C7.**  A pipe-delimited line becomes a table header only when
the next line matches the separator pattern: if no line of the input
passes the separator test, the table pass leaves every line unchanged; in
particular `"|A|B|\n|no|\n|1|2|"` produces a plain paragraph and no
`<table>` element. -/
theorem table_separator_required :
    (∀ ls : List Str, (∀ l ∈ ls, isSepLine l = false) →
      tableLoop ls.length ls = some ls) ∧
    parseNew idResolver (str "|A|B|\n|no|\n|1|2|") =
      some (str "<p>|A|B|\n|no|\n|1|2|</p>") ∧
    hasSub (str "<table") (str "<p>|A|B|\n|no|\n|1|2|</p>") = false := by
  refine ⟨?_, by decide, by decide⟩
  intro ls
  induction ls with
  | nil => intro _; rfl
  | cons l rest ih =>
    intro h
    cases rest with
    | nil => simp [tableLoop]
    | cons l2 rest2 =>
      have hsep : isSepLine l2 = false := h l2 (List.mem_cons_of_mem _ (List.mem_cons_self _ _))
      have hrec := ih (fun x hx => h x (List.mem_cons_of_mem _ hx))
      show tableLoop ((l2 :: rest2).length + 1) (l :: l2 :: rest2) = _
      rw [tableLoop_cons_noSep hsep, hrec]

/-- Witness for `table_separator_required` at the concrete line list. -/
theorem table_separator_required_witness :
    tableLoop 3 [str "|A|B|", str "|no|", str "|1|2|"] =
      some [str "|A|B|", str "|no|", str "|1|2|"] :=
  table_separator_required.1 [str "|A|B|", str "|no|", str "|1|2|"] (by decide)

/-! ## Determinism and statelessness (claim C9) -/

/-- **Claim C9.**  `parse` is deterministic and stateless across calls: a
call returns the receiver object unchanged (the method body never writes
`this`), a later call is unaffected by any earlier call, and the output
depends only on the input string and the configured resolver. -/
theorem parse_stateless :
    (∀ (p : MarkdownParser) (s : Str), (parseMethod p s).2 = p) ∧
    (∀ (p : MarkdownParser) (s₁ s₂ : Str),
      (parseMethod (parseMethod p s₁).2 s₂).1 = (parseMethod p s₂).1) ∧
    (∀ (p q : MarkdownParser) (s : Str),
      p.resolveImagePath = q.resolveImagePath →
      (parseMethod p s).1 = (parseMethod q s).1) :=
  ⟨fun _ _ => rfl, fun _ _ _ => rfl, fun p q s h => by
    unfold parseMethod
    dsimp only
    rw [h]⟩

/-- Witness for `parse_stateless` at concrete parsers and input. -/
theorem parse_stateless_witness :
    (parseMethod (mkParser none) (str "# hi")).1 =
      (parseMethod (mkParser (some idResolver)) (str "# hi")).1 :=
  parse_stateless.2.2 (mkParser none) (mkParser (some idResolver)) (str "# hi") rfl

/-! ## The two revisions can diverge (claim C10, counterexample) -/

/-- **Claim C10, counterexample.**  The claim's restricted input class
(no backtick, dollar, backslash, `<`, or `U+0000`) does not by itself make
the two revisions agree for every resolver: with a resolver whose output
contains the sentinel-built `ESCAPED_DOLLAR` token, the new revision's
final escaped-dollar restoration rewrites the resolver's output while the
old revision has no such pass, so the outputs differ on `"![a](x)"`. -/
theorem revisions_diverge_on_resolver :
    parseNew (fun _ => escapedDollarTok) (str "![a](x)") =
      some (str "<p><img src=\"$\" alt=\"a\" loading=\"lazy\"></p>") ∧
    parseOld (fun _ => escapedDollarTok) (str "![a](x)") =
      some (str "<p><img src=\"\x00ESCAPEDDOLLAR\x00\" alt=\"a\" loading=\"lazy\"></p>") ∧
    parseNew (fun _ => escapedDollarTok) (str "![a](x)") ≠
      parseOld (fun _ => escapedDollarTok) (str "![a](x)") :=
  ⟨by decide, by decide, by decide⟩

/-! ## Infrastructure for the refinement claim (C10)

On inputs free of backtick, dollar, backslash, `<` and the sentinel, the
two revisions differ only in the no-op extraction/restoration passes and in
the paragraph block test.  The proofs below track two invariants through
the block phase: absence of characters (membership lemmas), and the
`ltOkB` property — every `<` in the working string starts one of the tag
prefixes `PTags` that the block transforms can emit, on which the two
paragraph regexes agree. -/

theorem mem_of_takeWhile {q : Char → Bool} : ∀ {l : Str} {c}, c ∈ l.takeWhile q → c ∈ l := by
  intro l
  induction l with
  | nil => intro c h; simp at h
  | cons a r ih =>
    intro c h
    rw [List.takeWhile_cons] at h
    split at h
    · rcases List.mem_cons.mp h with h' | h'
      · exact h' ▸ List.mem_cons_self _ _
      · exact List.mem_cons_of_mem _ (ih h')
    · cases h

theorem mem_takeWhile_pred {q : Char → Bool} :
    ∀ {l : Str} {c}, c ∈ l.takeWhile q → q c = true := by
  intro l
  induction l with
  | nil => intro c h; simp at h
  | cons a r ih =>
    intro c h
    rw [List.takeWhile_cons] at h
    split at h
    case isTrue hq =>
      rcases List.mem_cons.mp h with h' | h'
      · exact h' ▸ hq
      · exact ih h'
    case isFalse => cases h

theorem mem_of_dropWhile {q : Char → Bool} : ∀ {l : Str} {c}, c ∈ l.dropWhile q → c ∈ l := by
  intro l
  induction l with
  | nil => intro c h; simp at h
  | cons a r ih =>
    intro c h
    rw [List.dropWhile_cons] at h
    split at h
    · exact List.mem_cons_of_mem _ (ih h)
    · exact h

theorem head_dropWhile_not {q : Char → Bool} :
    ∀ {l : Str} {c}, (l.dropWhile q).head? = some c → q c = false := by
  intro l
  induction l with
  | nil => intro c h; simp at h
  | cons a r ih =>
    intro c h
    rw [List.dropWhile_cons] at h
    split at h
    case isTrue => exact ih h
    case isFalse hq =>
      simp only [List.head?_cons, Option.some.injEq] at h
      subst h
      simpa using hq

theorem mem_of_drop {n : Nat} {l : Str} {c : Char} (h : c ∈ l.drop n) : c ∈ l :=
  (List.drop_subset n l) h

theorem mem_of_jsTrim {l : Str} {c : Char} (h : c ∈ jsTrim l) : c ∈ l := by
  unfold jsTrim at h
  rw [List.mem_reverse] at h
  have h1 := mem_of_dropWhile h
  rw [List.mem_reverse] at h1
  exact mem_of_dropWhile h1

theorem mem_of_jsTrimEnd {l : Str} {c : Char} (h : c ∈ jsTrimEnd l) : c ∈ l := by
  unfold jsTrimEnd at h
  rw [List.mem_reverse] at h
  have h1 := mem_of_dropWhile h
  rw [List.mem_reverse] at h1
  exact h1

/-! ### Split/join round trips -/

theorem splitNl_ne_nil : ∀ s : Str, splitNl s ≠ [] := by
  intro s
  match s with
  | [] => simp [splitNl]
  | '\n' :: r => simp [splitNl]
  | c :: r =>
    rw [splitNl.eq_def]
    split
    · simp
    · simp
    · split <;> simp

theorem splitNl_cons_ne {c : Char} {r : Str} (hc : ¬ c = '\n') :
    splitNl (c :: r) =
      match splitNl r with
      | l :: ls => (c :: l) :: ls
      | [] => [[c]] := by
  rw [splitNl.eq_def]
  split
  · rename_i heq; cases heq
  · rename_i heq
    injection heq with h1 h2
    exact absurd h1 hc
  · rename_i c' r' heq
    injection heq with h1 h2
    subst h1; subst h2
    rfl

theorem splitNl_join : ∀ s : Str, joinNl (splitNl s) = s := by
  intro s
  match s with
  | [] => rfl
  | '\n' :: r =>
    have ih := splitNl_join r
    rw [show splitNl ('\n' :: r) = [] :: splitNl r from rfl]
    cases hr : splitNl r with
    | nil => exact absurd hr (splitNl_ne_nil r)
    | cons l ls =>
      rw [show joinNl ([] :: l :: ls) = [] ++ '\n' :: joinNl (l :: ls) from rfl]
      rw [hr] at ih
      rw [ih]
      rfl
  | c :: r =>
    have ih := splitNl_join r
    by_cases hc : c = '\n'
    · subst hc
      rw [show splitNl ('\n' :: r) = [] :: splitNl r from rfl]
      cases hr : splitNl r with
      | nil => exact absurd hr (splitNl_ne_nil r)
      | cons l ls =>
        rw [show joinNl ([] :: l :: ls) = [] ++ '\n' :: joinNl (l :: ls) from rfl]
        rw [hr] at ih
        rw [ih]
        rfl
    · rw [splitNl_cons_ne hc]
      cases hr : splitNl r with
      | nil => exact absurd hr (splitNl_ne_nil r)
      | cons l ls =>
        rw [hr] at ih
        cases ls with
        | nil =>
          simp only [joinNl] at ih ⊢
          rw [ih]
        | cons l2 ls2 =>
          simp only [joinNl] at ih ⊢
          simp only [List.cons_append]
          rw [ih]

termination_by s => s.length
decreasing_by all_goals (simp <;> omega)

/-- Join blocks with `"\n\n"` (inverse of `splitNN`). -/
def joinNN : List Str → Str
  | [] => []
  | [l] => l
  | l :: ls => l ++ '\n' :: '\n' :: joinNN ls

theorem splitNN_ne_nil : ∀ s : Str, splitNN s ≠ [] := by
  intro s
  rw [splitNN.eq_def]
  split
  · simp
  · split <;> simp
  · simp

theorem splitNN_join : ∀ s : Str, joinNN (splitNN s) = s := by
  intro s
  match s with
  | '\n' :: '\n' :: r =>
    have ih := splitNN_join r
    rw [show splitNN ('\n' :: '\n' :: r) = [] :: splitNN r from rfl]
    cases hr : splitNN r with
    | nil => exact absurd hr (splitNN_ne_nil r)
    | cons l ls =>
      rw [show joinNN ([] :: l :: ls) = [] ++ '\n' :: '\n' :: joinNN (l :: ls) from rfl]
      rw [hr] at ih
      rw [ih]
      rfl
  | [] => rfl
  | [c] =>
    rw [splitNN.eq_def]
    split
    · rename_i heq; cases heq
    · rename_i c' r' heq
      injection heq with h1 h2
      subst h1; subst h2
      rfl
    · rename_i heq; cases heq
  | c :: c2 :: r =>
    by_cases hcc : c = '\n' ∧ c2 = '\n'
    · rcases hcc with ⟨rfl, rfl⟩
      have ih := splitNN_join r
      rw [show splitNN ('\n' :: '\n' :: r) = [] :: splitNN r from rfl]
      cases hr : splitNN r with
      | nil => exact absurd hr (splitNN_ne_nil r)
      | cons l ls =>
        rw [show joinNN ([] :: l :: ls) = [] ++ '\n' :: '\n' :: joinNN (l :: ls) from rfl]
        rw [hr] at ih
        rw [ih]
        rfl
    · have ih := splitNN_join (c2 :: r)
      have hsplit : splitNN (c :: c2 :: r) =
          match splitNN (c2 :: r) with
          | l :: ls => (c :: l) :: ls
          | [] => [[c]] := by
        rw [splitNN.eq_def]
        split
        · rename_i heq
          exfalso
          injection heq with h1 h2
          injection h2 with h2a _
          exact hcc ⟨h1.symm ▸ rfl, h2a.symm ▸ rfl⟩
        · rename_i c' r' heq
          injection heq with h1 h2
          subst h1; subst h2
          rfl
        · rename_i heq; cases heq
      rw [hsplit]
      cases hr : splitNN (c2 :: r) with
      | nil => exact absurd hr (splitNN_ne_nil (c2 :: r))
      | cons l ls =>
        rw [hr] at ih
        cases ls with
        | nil =>
          simp only [joinNN] at ih ⊢
          rw [ih]
        | cons l2 ls2 =>
          simp only [joinNN] at ih ⊢
          simp only [List.cons_append]
          rw [ih]
termination_by s => s.length
decreasing_by all_goals (simp <;> omega)

theorem mem_joinNl : ∀ {ls : List Str} {c : Char},
    c ∈ joinNl ls → c = '\n' ∨ ∃ l ∈ ls, c ∈ l := by
  intro ls
  induction ls with
  | nil => intro c h; simp [joinNl] at h
  | cons l rest ih =>
    intro c h
    cases rest with
    | nil =>
      simp only [joinNl] at h
      exact Or.inr ⟨l, List.mem_cons_self _ _, h⟩
    | cons l2 rest2 =>
      simp only [joinNl] at h
      rcases List.mem_append.mp h with h' | h'
      · exact Or.inr ⟨l, List.mem_cons_self _ _, h'⟩
      · rcases List.mem_cons.mp h' with h'' | h''
        · exact Or.inl h''
        · rcases ih h'' with h3 | ⟨l', hl', hc'⟩
          · exact Or.inl h3
          · exact Or.inr ⟨l', List.mem_cons_of_mem _ hl', hc'⟩

theorem mem_splitNl : ∀ {s : Str} {l : Str}, l ∈ splitNl s → ∀ {c}, c ∈ l → c ∈ s := by
  intro s
  induction s with
  | nil =>
    intro l hl c hc
    simp [splitNl] at hl
    subst hl
    cases hc
  | cons a r ih =>
    intro l hl c hc
    by_cases ha : a = '\n'
    · subst ha
      rw [show splitNl ('\n' :: r) = [] :: splitNl r from rfl] at hl
      rcases List.mem_cons.mp hl with h' | h'
      · subst h'; cases hc
      · exact List.mem_cons_of_mem _ (ih h' hc)
    · rw [splitNl_cons_ne ha] at hl
      cases hr : splitNl r with
      | nil => exact absurd hr (splitNl_ne_nil r)
      | cons h0 t0 =>
        rw [hr] at hl
        rcases List.mem_cons.mp hl with h' | h'
        · subst h'
          rcases List.mem_cons.mp hc with h'' | h''
          · exact h'' ▸ List.mem_cons_self _ _
          · exact List.mem_cons_of_mem _ (ih (hr ▸ List.mem_cons_self _ _) h'')
        · exact List.mem_cons_of_mem _ (ih (hr ▸ List.mem_cons_of_mem _ h') hc)

theorem mem_splitNN : ∀ {s : Str} {l : Str}, l ∈ splitNN s → ∀ {c}, c ∈ l → c ∈ s := by
  intro s
  match s with
  | [] =>
    intro l hl c hc
    simp [splitNN] at hl
    subst hl
    cases hc
  | '\n' :: '\n' :: r =>
    intro l hl c hc
    rw [show splitNN ('\n' :: '\n' :: r) = [] :: splitNN r from rfl] at hl
    rcases List.mem_cons.mp hl with h' | h'
    · subst h'; cases hc
    · exact List.mem_cons_of_mem _ (List.mem_cons_of_mem _ (mem_splitNN h' hc))
  | [a] =>
    intro l hl c hc
    have hSa : splitNN [a] = [[a]] := by
      rw [splitNN.eq_def]
      split
      · rename_i heq
        injection heq with _ h2
        cases h2
      · rename_i c' r' heq
        injection heq with h1 h2
        subst h1
        subst h2
        rfl
      · rename_i heq; cases heq
    rw [hSa] at hl
    simp at hl
    subst hl
    rcases List.mem_cons.mp hc with h'' | h''
    · exact h'' ▸ List.mem_cons_self _ _
    · cases h''
  | a :: a2 :: r =>
    intro l hl c hc
    by_cases haa : a = '\n' ∧ a2 = '\n'
    · rcases haa with ⟨rfl, rfl⟩
      rw [show splitNN ('\n' :: '\n' :: r) = [] :: splitNN r from rfl] at hl
      rcases List.mem_cons.mp hl with h' | h'
      · subst h'; cases hc
      · exact List.mem_cons_of_mem _ (List.mem_cons_of_mem _ (mem_splitNN h' hc))
    · have hsplit : splitNN (a :: a2 :: r) =
          match splitNN (a2 :: r) with
          | l :: ls => (a :: l) :: ls
          | [] => [[a]] := by
        rw [splitNN.eq_def]
        split
        · rename_i heq
          exfalso
          injection heq with h1 h2
          injection h2 with h2a _
          exact haa ⟨h1.symm ▸ rfl, h2a.symm ▸ rfl⟩
        · rename_i c' r' heq
          injection heq with h1 h2
          subst h1; subst h2
          rfl
        · rename_i heq; cases heq
      rw [hsplit] at hl
      cases hr : splitNN (a2 :: r) with
      | nil => exact absurd hr (splitNN_ne_nil (a2 :: r))
      | cons h0 t0 =>
        rw [hr] at hl
        rcases List.mem_cons.mp hl with h' | h'
        · subst h'
          rcases List.mem_cons.mp hc with h'' | h''
          · exact h'' ▸ List.mem_cons_self _ _
          · exact List.mem_cons_of_mem _
              (mem_splitNN (hr ▸ List.mem_cons_self _ _) h'')
        · exact List.mem_cons_of_mem _
            (mem_splitNN (hr ▸ List.mem_cons_of_mem _ h') hc)
termination_by s => s.length
decreasing_by all_goals (simp <;> omega)

theorem splitPipe_ne_nil : ∀ s : Str, splitPipe s ≠ [] := by
  intro s
  rw [splitPipe.eq_def]
  split
  · exact List.cons_ne_nil _ _
  · exact List.cons_ne_nil _ _
  · split
    · exact List.cons_ne_nil _ _
    · exact List.cons_ne_nil _ _

theorem mem_splitPipe : ∀ {s : Str} {l : Str}, l ∈ splitPipe s → ∀ {c}, c ∈ l → c ∈ s := by
  intro s
  induction s with
  | nil =>
    intro l hl c hc
    simp [splitPipe] at hl
    subst hl
    cases hc
  | cons a r ih =>
    intro l hl c hc
    by_cases ha : a = '|'
    · subst ha
      rw [show splitPipe ('|' :: r) = [] :: splitPipe r from rfl] at hl
      rcases List.mem_cons.mp hl with h' | h'
      · subst h'; cases hc
      · exact List.mem_cons_of_mem _ (ih h' hc)
    · have hb : splitPipe (a :: r) =
          match splitPipe r with
          | l :: ls => (a :: l) :: ls
          | [] => [[a]] := by
        rw [splitPipe.eq_def]
        split
        · rename_i heq; cases heq
        · rename_i heq
          injection heq with h1 h2
          exact absurd h1 ha
        · rename_i c' r' heq
          injection heq with h1 h2
          subst h1; subst h2
          rfl
      rw [hb] at hl
      cases hr : splitPipe r with
      | nil => exact absurd hr (splitPipe_ne_nil r)
      | cons h0 t0 =>
        rw [hr] at hl
        rcases List.mem_cons.mp hl with h' | h'
        · subst h'
          rcases List.mem_cons.mp hc with h'' | h''
          · exact h'' ▸ List.mem_cons_self _ _
          · exact List.mem_cons_of_mem _ (ih (hr ▸ List.mem_cons_self _ _) h'')
        · exact List.mem_cons_of_mem _ (ih (hr ▸ List.mem_cons_of_mem _ h') hc)

/-! ### The block-tag-prefix invariant -/

theorem pfx_append_right {p t : Str} (u : Str) (h : pfx p t = true) :
    pfx p (t ++ u) = true := by
  induction p generalizing t with
  | nil => rfl
  | cons a ps ih =>
    cases t with
    | nil => simp [pfx] at h
    | cons b bs =>
      simp only [pfx, Bool.and_eq_true] at h ⊢
      exact ⟨h.1, ih h.2⟩

theorem ltOkB_cons_ne {c : Char} {s : Str} (h : ¬ c = '<') :
    ltOkB (c :: s) = ltOkB s := by
  simp [ltOkB, h]

theorem ltOkB_tail {c : Char} {s : Str} (h : ltOkB (c :: s) = true) : ltOkB s = true := by
  simp only [ltOkB, Bool.and_eq_true] at h
  exact h.2

theorem ltOkB_append {a b : Str} (ha : ltOkB a = true) (hb : ltOkB b = true) :
    ltOkB (a ++ b) = true := by
  induction a with
  | nil => exact hb
  | cons c cs ih =>
    simp only [ltOkB, Bool.and_eq_true] at ha
    simp only [List.cons_append, ltOkB, Bool.and_eq_true]
    refine ⟨?_, ih ha.2⟩
    split
    case isTrue hc =>
      have h1 := ha.1
      rw [if_pos hc] at h1
      rcases List.any_eq_true.mp h1 with ⟨p, hp, hpfx⟩
      exact List.any_eq_true.mpr ⟨p, hp, by
        have := pfx_append_right (t := c :: cs) b hpfx
        simpa using this⟩
    case isFalse => rfl

theorem ltOkB_of_append_right {a b : Str} (h : ltOkB (a ++ b) = true) : ltOkB b = true := by
  induction a with
  | nil => exact h
  | cons c cs ih =>
    simp only [List.cons_append] at h
    exact ih (ltOkB_tail h)

theorem pfx_trunc : ∀ {p a b : Str}, pfx p (a ++ b) = true →
    (∀ d, b.head? = some d → d ∉ p) → pfx p a = true := by
  intro p
  induction p with
  | nil => intro a b _ _; rfl
  | cons x xs ih =>
    intro a b h hb
    cases a with
    | nil =>
      cases b with
      | nil => simp [pfx] at h
      | cons d ds =>
        simp only [List.nil_append, pfx, Bool.and_eq_true, decide_eq_true_eq] at h
        exact absurd (h.1 ▸ List.mem_cons_self _ _) (hb d rfl)
    | cons y ys =>
      simp only [List.cons_append, pfx, Bool.and_eq_true] at h ⊢
      refine ⟨h.1, ih h.2 ?_⟩
      intro d hd
      intro hmem
      exact hb d hd (List.mem_cons_of_mem _ hmem)

theorem ltOkB_of_append_left {a b : Str} (h : ltOkB (a ++ b) = true)
    (hb : ∀ d, b.head? = some d → ∀ p ∈ PTags, d ∉ p) : ltOkB a = true := by
  induction a with
  | nil => rfl
  | cons c cs ih =>
    simp only [List.cons_append, ltOkB, Bool.and_eq_true] at h
    simp only [ltOkB, Bool.and_eq_true]
    refine ⟨?_, ih h.2⟩
    split
    case isTrue hc =>
      have h1 := h.1
      rw [if_pos hc] at h1
      rcases List.any_eq_true.mp h1 with ⟨p, hp, hpfx⟩
      refine List.any_eq_true.mpr ⟨p, hp, ?_⟩
      have hpfx' : pfx p ((c :: cs) ++ b) = true := by simpa using hpfx
      exact pfx_trunc hpfx' (fun d hd => hb d hd p hp)
    case isFalse => rfl

theorem ltOkB_of_no_lt {s : Str} (h : ∀ c ∈ s, ¬ c = '<') : ltOkB s = true := by
  induction s with
  | nil => rfl
  | cons c cs ih =>
    simp only [ltOkB, Bool.and_eq_true]
    refine ⟨?_, ih (fun x hx => h x (List.mem_cons_of_mem _ hx))⟩
    rw [if_neg (h c (List.mem_cons_self _ _))]

theorem ltOkB_drop {s : Str} (h : ltOkB s = true) (n : Nat) : ltOkB (s.drop n) = true := by
  have := List.take_append_drop n s
  rw [← this] at h
  exact ltOkB_of_append_right h

theorem ltOkB_dropWhile {q : Char → Bool} {s : Str} (h : ltOkB s = true) :
    ltOkB (s.dropWhile q) = true := by
  induction s with
  | nil => rfl
  | cons c cs ih =>
    rw [List.dropWhile_cons]
    split
    · exact ih (ltOkB_tail h)
    · exact h

/-- No `PTags` prefix contains a whitespace character, a newline, or a pipe
(so fragment cuts at those characters cannot split a prefix). -/
theorem pTags_chars : ∀ p ∈ PTags, ∀ c ∈ p,
    jsWs c = false ∧ ¬ c = '\n' ∧ ¬ c = '|' := by decide

theorem ltOkB_takeWhile_not_nl {s : Str} (h : ltOkB s = true) :
    ltOkB (s.takeWhile (fun x => x != '\n')) = true := by
  have hsplit := List.takeWhile_append_dropWhile
    (p := fun x : Char => x != '\n') (l := s)
  rw [← hsplit] at h
  refine ltOkB_of_append_left h ?_
  intro d hd p hp hmem
  have := head_dropWhile_not hd
  simp only [bne, Bool.not_eq_false', beq_iff_eq] at this
  exact (pTags_chars p hp d hmem).2.1 this

theorem ltOkB_jsTrim {s : Str} (h : ltOkB s = true) : ltOkB (jsTrim s) = true := by
  have h1 : ltOkB (s.dropWhile jsWs) = true := ltOkB_dropWhile h
  -- the trimmed string plus its trailing whitespace make up `s.dropWhile jsWs`
  have hdec : s.dropWhile jsWs =
      jsTrim s ++ ((s.dropWhile jsWs).reverse.takeWhile jsWs).reverse := by
    unfold jsTrim
    rw [← List.reverse_append, List.takeWhile_append_dropWhile, List.reverse_reverse]
  rw [hdec] at h1
  refine ltOkB_of_append_left h1 ?_
  intro d hd p hp hmem
  have hdm : d ∈ ((s.dropWhile jsWs).reverse.takeWhile jsWs).reverse := by
    cases hv : ((s.dropWhile jsWs).reverse.takeWhile jsWs).reverse with
    | nil => rw [hv] at hd; cases hd
    | cons x xs =>
      rw [hv] at hd
      simp only [List.head?_cons, Option.some.injEq] at hd
      subst hd
      exact List.mem_cons_self _ _
  rw [List.mem_reverse] at hdm
  exact absurd (mem_takeWhile_pred hdm)
    (by rw [(pTags_chars p hp d hmem).1]; exact Bool.false_ne_true)

/-! ### No-fire identities for the extraction and replacement passes -/

theorem scanRep_noFire {m : Matcher Str} :
    ∀ fuel (s : Str) ls, (∀ ls' n, m ls' (s.drop n) = none) → s.length ≤ fuel →
      scanRep m fuel ls s = some s := by
  intro fuel
  induction fuel with
  | zero =>
    intro s ls hm h
    cases s with
    | nil => rfl
    | cons c cs => simp at h
  | succ n ih =>
    intro s ls hm h
    cases s with
    | nil => rfl
    | cons c cs =>
      have h0 : m ls (c :: cs) = none := by
        have := hm ls 0
        simpa using this
      simp only [scanRep, h0]
      have hcs : ∀ ls' k, m ls' (cs.drop k) = none := by
        intro ls' k
        have := hm ls' (k + 1)
        simpa using this
      rw [ih cs (c == '\n') hcs (by simp at h; omega)]

theorem mFence_none {a : Bool} {u : Str} (h : ¬ btick ∈ u) : mFence a u = none := by
  cases hp : pfx (str "```") u with
  | false => simp [mFence, hp]
  | true => exact absurd (pfx_mem hp btick (by decide)) h

theorem mInlineCode_none {a : Bool} {u : Str} (h : ¬ btick ∈ u) : mInlineCode a u = none := by
  cases u with
  | nil => rfl
  | cons c cs =>
    have hc : ¬ c = btick := fun hh => h (hh ▸ List.mem_cons_self _ _)
    simp [mInlineCode, hc]

theorem mDisplayMath_none {a : Bool} {u : Str} (h : ¬ '$' ∈ u) : mDisplayMath a u = none := by
  cases hp : pfx (str "$$") u with
  | false => simp [mDisplayMath, hp]
  | true => exact absurd (pfx_mem hp '$' (by decide)) h

theorem mInlineMath_none {a : Bool} {u : Str} (h : ¬ '$' ∈ u) : mInlineMath a u = none := by
  cases u with
  | nil => rfl
  | cons c cs =>
    have hc : ¬ c = '$' := fun hh => h (hh ▸ List.mem_cons_self _ _)
    simp [mInlineMath, hc]

theorem mHtmlBlock_none {a : Bool} {u : Str} (h : ¬ '<' ∈ u) : mHtmlBlock a u = none := by
  cases a with
  | false => rfl
  | true =>
    cases u with
    | nil => rfl
    | cons c cs =>
      have hc : ¬ c = '<' := fun hh => h (hh ▸ List.mem_cons_self _ _)
      simp [mHtmlBlock, hc]

theorem mInlineHtml_none {a : Bool} {u : Str} (h : ¬ '<' ∈ u) : mInlineHtml a u = none := by
  cases u with
  | nil => rfl
  | cons c cs =>
    have hc : ¬ c = '<' := fun hh => h (hh ▸ List.mem_cons_self _ _)
    simp [mInlineHtml, hc]

theorem mFenceOld_none {a : Bool} {u : Str} (h : ¬ btick ∈ u) : mFenceOld a u = none := by
  simp [mFenceOld, mFence_none h]

theorem mInlineCodeOld_none {a : Bool} {u : Str} (h : ¬ btick ∈ u) :
    mInlineCodeOld a u = none := by
  simp [mInlineCodeOld, mInlineCode_none h]

theorem replEscDollar_id : ∀ {s : Str}, ¬ '$' ∈ s → replEscDollar s = s := by
  intro s
  induction s with
  | nil => intro _; rfl
  | cons c cs ih =>
    intro h
    rw [replEscDollar.eq_def]
    split
    · rename_i r heq
      injection heq with h1 h2
      refine absurd (List.mem_cons_of_mem c ?_) h
      rw [h2]
      exact List.mem_cons_self _ _
    · rename_i c' r' heq
      injection heq with h1 h2
      subst h1
      subst h2
      rw [ih (fun hm => h (List.mem_cons_of_mem _ hm))]
    · rename_i heq
      cases heq

theorem mEscDollarBack_none {a : Bool} {u : Str} (h : ¬ sentinel ∈ u) :
    mEscDollarBack a u = none := by
  cases hp : pfx escapedDollarTok u with
  | false => simp [mEscDollarBack, hp]
  | true => exact absurd (pfx_mem hp sentinel (by decide)) h

theorem replEscDollarBack_id {s : Str} (h : ¬ sentinel ∈ s) :
    replEscDollarBack s = s := by
  unfold replEscDollarBack
  rw [scanRep_noFire s.length s true
    (fun _ _ => mEscDollarBack_none (fun hc => h (mem_of_drop hc))) (Nat.le_refl _)]
  rfl

theorem normNl_cons_ne {c : Char} {cs : Str} (h : ¬ c = '\r') :
    normNl (c :: cs) = c :: normNl cs := by
  rw [normNl.eq_def]
  split
  · rename_i r heq
    injection heq with h1 h2
    exact absurd h1 h
  · rename_i c' r' heq
    injection heq with h1 h2
    subst h1
    subst h2
    rfl
  · rename_i heq
    cases heq

theorem normNl_cr_cons {cs : Str} (h : ∀ r, cs ≠ '\n' :: r) :
    normNl ('\r' :: cs) = '\r' :: normNl cs := by
  rw [normNl.eq_def]
  split
  · rename_i r heq
    injection heq with h1 h2
    exact absurd h2 (h r)
  · rename_i c' r' heq
    injection heq with h1 h2
    subst h1
    subst h2
    rfl
  · rename_i heq
    cases heq

theorem mem_normNl : ∀ {s : Str} {c : Char}, c ∈ normNl s → c ∈ s := by
  intro s
  induction s with
  | nil => intro c h; simp [normNl] at h
  | cons a cs ih =>
    intro c h
    by_cases ha : a = '\r'
    · subst ha
      cases cs with
      | nil =>
        rw [normNl_cr_cons (fun r hr => by cases hr)] at h
        rcases List.mem_cons.mp h with h' | h'
        · exact h' ▸ List.mem_cons_self _ _
        · exact List.mem_cons_of_mem _ (ih h')
      | cons b r =>
        by_cases hb : b = '\n'
        · subst hb
          rw [show normNl ('\r' :: '\n' :: r) = '\n' :: normNl r from rfl] at h
          rcases List.mem_cons.mp h with h' | h'
          · subst h'
            exact List.mem_cons_of_mem _ (List.mem_cons_self _ _)
          · have hr : c ∈ normNl ('\n' :: r) := by
              rw [normNl_cons_ne (by decide)]
              exact List.mem_cons_of_mem _ h'
            exact List.mem_cons_of_mem _ (ih hr)
        · rw [normNl_cr_cons (fun r' hr' => by injection hr' with h1 h2; exact hb h1)] at h
          rcases List.mem_cons.mp h with h' | h'
          · exact h' ▸ List.mem_cons_self _ _
          · exact List.mem_cons_of_mem _ (ih h')
    · rw [normNl_cons_ne ha] at h
      rcases List.mem_cons.mp h with h' | h'
      · exact h' ▸ List.mem_cons_self _ _
      · exact List.mem_cons_of_mem _ (ih h')

theorem mem_escapeHtml {c : Char} {s : Str} (h : c ∈ escapeHtml s) :
    c ∈ s ∨ c ∈ str "&amp;&lt;&gt;&quot;" := by
  unfold escapeHtml at h
  rcases mem_replQuot h with h1 | h1
  · exact Or.inr ((by decide : ∀ x ∈ str "&quot;", x ∈ str "&amp;&lt;&gt;&quot;") c h1)
  rcases mem_replGt h1 with h2 | h2
  · exact Or.inr ((by decide : ∀ x ∈ str "&gt;", x ∈ str "&amp;&lt;&gt;&quot;") c h2)
  rcases mem_replLt h2 with h3 | h3
  · exact Or.inr ((by decide : ∀ x ∈ str "&lt;", x ∈ str "&amp;&lt;&gt;&quot;") c h3)
  rcases mem_replAmp h3.1 with h4 | h4
  · exact Or.inr ((by decide : ∀ x ∈ str "&amp;", x ∈ str "&amp;&lt;&gt;&quot;") c h4)
  · exact Or.inl h4

/-- On an input with no backtick, dollar or `<`, the whole of phase 1 is the
identity and extracts nothing. -/
theorem phase1_id {s : Str} (hb : ¬ btick ∈ s) (hd : ¬ '$' ∈ s) (hl : ¬ '<' ∈ s) :
    phase1 s = some (s, ⟨[], [], [], [], [], []⟩) := by
  have h1 : extractFences s = some (s, []) :=
    scanExt_noFire _ _ s.length s 0 true
      (fun _ _ => mFence_none (fun hc => hb (mem_of_drop hc))) (Nat.le_refl _)
  have h2 : extractInlineCode s = some (s, []) :=
    scanExt_noFire _ _ s.length s 0 true
      (fun _ _ => mInlineCode_none (fun hc => hb (mem_of_drop hc))) (Nat.le_refl _)
  have hrd : replEscDollar s = s := replEscDollar_id hd
  have h3 : extractDisplayMath s = some (s, []) :=
    scanExt_noFire _ _ s.length s 0 true
      (fun _ _ => mDisplayMath_none (fun hc => hd (mem_of_drop hc))) (Nat.le_refl _)
  have h4 : extractInlineMath s = some (s, []) :=
    scanExt_noFire _ _ s.length s 0 true
      (fun _ _ => mInlineMath_none (fun hc => hd (mem_of_drop hc))) (Nat.le_refl _)
  have h5 : extractHtmlBlocks s = some (s, []) :=
    scanExt_noFire _ _ s.length s 0 true
      (fun _ _ => mHtmlBlock_none (fun hc => hl (mem_of_drop hc))) (Nat.le_refl _)
  have h6 : extractInlineHtml s = some (s, []) :=
    scanExt_noFire _ _ s.length s 0 true
      (fun _ _ => mInlineHtml_none (fun hc => hl (mem_of_drop hc))) (Nat.le_refl _)
  unfold phase1
  simp only [h1, h2, hrd, h3, h4, h5, h6, Option.bind, Option.map]

/-- With nothing extracted, phase 5 is just the escaped-dollar restoration. -/
theorem phase5_empty (s : Str) :
    phase5 ⟨[], [], [], [], [], []⟩ s = replEscDollarBack s := rfl

/-- The old revision's code-block pass is the identity on backtick-free
input. -/
theorem parseCodeBlocksOld_id {s : Str} (hb : ¬ btick ∈ s) :
    parseCodeBlocksOld s = some s :=
  scanRep_noFire s.length s true
    (fun _ _ => mFenceOld_none (fun hc => hb (mem_of_drop hc))) (Nat.le_refl _)

/-- The old revision's inline-code pass is the identity on backtick-free
input. -/
theorem parseInlineCodeOld_id {s : Str} (hb : ¬ btick ∈ s) :
    parseInlineCodeOld s = some s :=
  scanRep_noFire s.length s true
    (fun _ _ => mInlineCodeOld_none (fun hc => hb (mem_of_drop hc))) (Nat.le_refl _)

/-! ### Character-absence preservation through the scanning passes -/

theorem scanRep_not_mem {m : Matcher Str} {c : Char}
    (hm : ∀ a u r, m a u = some r → ¬ c ∈ u → ¬ c ∈ r.payload ∧ ¬ c ∈ r.rest) :
    ∀ fuel a (s out : Str), scanRep m fuel a s = some out → ¬ c ∈ s → ¬ c ∈ out := by
  intro fuel
  induction fuel with
  | zero =>
    intro a s out h hs
    cases s with
    | nil =>
      injection h with h'
      rw [← h']
      simp
    | cons c0 cs => cases h
  | succ n ih =>
    intro a s out h hs
    cases s with
    | nil =>
      injection h with h'
      rw [← h']
      simp
    | cons c0 cs =>
      cases hm0 : m a (c0 :: cs) with
      | some r =>
        simp only [scanRep, hm0] at h
        cases ht : scanRep m n r.nlEnd r.rest with
        | none => rw [ht] at h; cases h
        | some t =>
          rw [ht] at h
          injection h with h'
          rw [← h']
          obtain ⟨hp, hr⟩ := hm _ _ _ hm0 hs
          intro hmem
          rcases List.mem_append.mp hmem with hA | hA
          · exact hp hA
          · exact ih _ _ _ ht hr hA
      | none =>
        simp only [scanRep, hm0] at h
        cases ht : scanRep m n (c0 == '\n') cs with
        | none => rw [ht] at h; cases h
        | some t =>
          rw [ht] at h
          injection h with h'
          rw [← h']
          intro hmem
          rcases List.mem_cons.mp hmem with hA | hA
          · exact hs (hA ▸ List.mem_cons_self _ _)
          · exact ih _ _ _ ht (fun hx => hs (List.mem_cons_of_mem _ hx)) hA

theorem findDelim_mem {d : Str} {st : Bool} :
    ∀ {s : Str} {q : Str × Str}, findDelim d st s = some q →
      ∀ {c : Char}, (c ∈ q.1 → c ∈ s) ∧ (c ∈ q.2 → c ∈ s) := by
  intro s
  induction s with
  | nil => intro q h; simp [findDelim] at h
  | cons c0 cs ih =>
    intro q h c
    simp only [findDelim] at h
    split at h
    · cases h
      exact ⟨fun hc => absurd hc (by simp), fun hc => mem_of_drop hc⟩
    · split at h
      · cases h
      · cases hfd : findDelim d st cs with
        | none => rw [hfd] at h; cases h
        | some q' =>
          rw [hfd] at h
          cases h
          refine ⟨fun hc => ?_, fun hc => ?_⟩
          · rcases List.mem_cons.mp hc with h' | h'
            · exact h' ▸ List.mem_cons_self _ _
            · exact List.mem_cons_of_mem _ ((ih (q := q') hfd).1 h')
          · exact List.mem_cons_of_mem _ ((ih (q := q') hfd).2 hc)

theorem mem_replEntAmp : ∀ {s : Str} {c : Char}, c ∈ replEntAmp s → c = '&' ∨ c ∈ s := by
  intro s
  induction s using replEntAmp.induct with
  | case1 r ih =>
    intro c h
    rw [show replEntAmp ('&' :: 'a' :: 'm' :: 'p' :: ';' :: r) = '&' :: replEntAmp r
        from rfl] at h
    rcases List.mem_cons.mp h with h' | h'
    · exact Or.inl h'
    · rcases ih h' with h'' | h''
      · exact Or.inl h''
      · exact Or.inr (by simp [h''])
  | case2 c0 r hne ih =>
    intro c h
    rw [show replEntAmp (c0 :: r) = c0 :: replEntAmp r from by simp [replEntAmp]] at h
    rcases List.mem_cons.mp h with h' | h'
    · exact Or.inr (h' ▸ List.mem_cons_self _ _)
    · rcases ih h' with h'' | h''
      · exact Or.inl h''
      · exact Or.inr (List.mem_cons_of_mem _ h'')
  | case3 => intro c h; simp [replEntAmp] at h

theorem mem_replEntLt : ∀ {s : Str} {c : Char}, c ∈ replEntLt s → c = '<' ∨ c ∈ s := by
  intro s
  induction s using replEntLt.induct with
  | case1 r ih =>
    intro c h
    rw [show replEntLt ('&' :: 'l' :: 't' :: ';' :: r) = '<' :: replEntLt r from rfl] at h
    rcases List.mem_cons.mp h with h' | h'
    · exact Or.inl h'
    · rcases ih h' with h'' | h''
      · exact Or.inl h''
      · exact Or.inr (by simp [h''])
  | case2 c0 r hne ih =>
    intro c h
    rw [show replEntLt (c0 :: r) = c0 :: replEntLt r from by simp [replEntLt]] at h
    rcases List.mem_cons.mp h with h' | h'
    · exact Or.inr (h' ▸ List.mem_cons_self _ _)
    · rcases ih h' with h'' | h''
      · exact Or.inl h''
      · exact Or.inr (List.mem_cons_of_mem _ h'')
  | case3 => intro c h; simp [replEntLt] at h

theorem mem_replEntGt : ∀ {s : Str} {c : Char}, c ∈ replEntGt s → c = '>' ∨ c ∈ s := by
  intro s
  induction s using replEntGt.induct with
  | case1 r ih =>
    intro c h
    rw [show replEntGt ('&' :: 'g' :: 't' :: ';' :: r) = '>' :: replEntGt r from rfl] at h
    rcases List.mem_cons.mp h with h' | h'
    · exact Or.inl h'
    · rcases ih h' with h'' | h''
      · exact Or.inl h''
      · exact Or.inr (by simp [h''])
  | case2 c0 r hne ih =>
    intro c h
    rw [show replEntGt (c0 :: r) = c0 :: replEntGt r from by simp [replEntGt]] at h
    rcases List.mem_cons.mp h with h' | h'
    · exact Or.inr (h' ▸ List.mem_cons_self _ _)
    · rcases ih h' with h'' | h''
      · exact Or.inl h''
      · exact Or.inr (List.mem_cons_of_mem _ h'')
  | case3 => intro c h; simp [replEntGt] at h

theorem mem_replEntQuot : ∀ {s : Str} {c : Char}, c ∈ replEntQuot s → c = '"' ∨ c ∈ s := by
  intro s
  induction s using replEntQuot.induct with
  | case1 r ih =>
    intro c h
    rw [show replEntQuot ('&' :: 'q' :: 'u' :: 'o' :: 't' :: ';' :: r) =
        '"' :: replEntQuot r from rfl] at h
    rcases List.mem_cons.mp h with h' | h'
    · exact Or.inl h'
    · rcases ih h' with h'' | h''
      · exact Or.inl h''
      · exact Or.inr (by simp [h''])
  | case2 c0 r hne ih =>
    intro c h
    rw [show replEntQuot (c0 :: r) = c0 :: replEntQuot r from by simp [replEntQuot]] at h
    rcases List.mem_cons.mp h with h' | h'
    · exact Or.inr (h' ▸ List.mem_cons_self _ _)
    · rcases ih h' with h'' | h''
      · exact Or.inl h''
      · exact Or.inr (List.mem_cons_of_mem _ h'')
  | case3 => intro c h; simp [replEntQuot] at h

theorem mem_unescapeForAttr {s : Str} {c : Char} (h : c ∈ unescapeForAttr s) :
    c ∈ s ∨ c ∈ str "&<>\"" := by
  unfold unescapeForAttr at h
  rcases mem_replEntQuot h with h1 | h1
  · exact Or.inr (by rw [h1]; decide)
  rcases mem_replEntGt h1 with h2 | h2
  · exact Or.inr (by rw [h2]; decide)
  rcases mem_replEntLt h2 with h3 | h3
  · exact Or.inr (by rw [h3]; decide)
  rcases mem_replEntAmp h3 with h4 | h4
  · exact Or.inr (by rw [h4]; decide)
  · exact Or.inl h4

theorem mem_replBrSpaces : ∀ {s : Str} {c : Char},
    c ∈ replBrSpaces s → c ∈ str "<br>\n" ∨ c ∈ s := by
  intro s
  induction s using replBrSpaces.induct with
  | case1 r ih =>
    intro c h
    rw [show replBrSpaces (' ' :: ' ' :: '\n' :: r) = str "<br>\n" ++ replBrSpaces r
        from rfl] at h
    rcases List.mem_append.mp h with h' | h'
    · exact Or.inl h'
    · rcases ih h' with h'' | h''
      · exact Or.inl h''
      · exact Or.inr (by simp [h''])
  | case2 c0 r hne ih =>
    intro c h
    rw [show replBrSpaces (c0 :: r) = c0 :: replBrSpaces r from by simp [replBrSpaces]] at h
    rcases List.mem_cons.mp h with h' | h'
    · exact Or.inr (h' ▸ List.mem_cons_self _ _)
    · rcases ih h' with h'' | h''
      · exact Or.inl h''
      · exact Or.inr (List.mem_cons_of_mem _ h'')
  | case3 => intro c h; simp [replBrSpaces] at h

theorem mem_replBrBackslash : ∀ {s : Str} {c : Char},
    c ∈ replBrBackslash s → c ∈ str "<br>\n" ∨ c ∈ s := by
  intro s
  induction s using replBrBackslash.induct with
  | case1 r ih =>
    intro c h
    rw [show replBrBackslash ('\\' :: '\n' :: r) = str "<br>\n" ++ replBrBackslash r
        from rfl] at h
    rcases List.mem_append.mp h with h' | h'
    · exact Or.inl h'
    · rcases ih h' with h'' | h''
      · exact Or.inl h''
      · exact Or.inr (by simp [h''])
  | case2 c0 r hne ih =>
    intro c h
    rw [show replBrBackslash (c0 :: r) = c0 :: replBrBackslash r
        from by simp [replBrBackslash]] at h
    rcases List.mem_cons.mp h with h' | h'
    · exact Or.inr (h' ▸ List.mem_cons_self _ _)
    · rcases ih h' with h'' | h''
      · exact Or.inl h''
      · exact Or.inr (List.mem_cons_of_mem _ h'')
  | case3 => intro c h; simp [replBrBackslash] at h

theorem parseLineBreaks_not_mem {s : Str} {c : Char} (hc : ¬ c ∈ str "<br>\n")
    (h : ¬ c ∈ s) : ¬ c ∈ parseLineBreaks s := by
  intro hm
  unfold parseLineBreaks at hm
  rcases mem_replBrBackslash hm with h1 | h1
  · exact hc h1
  rcases mem_replBrSpaces h1 with h2 | h2
  · exact hc h2
  · exact h h2

theorem hrTail_mem {w afterW : Str} {q : Str × Bool} (h : hrTail w afterW = some q)
    {c : Char} (hc : c ∈ q.1) : c ∈ w ∨ c ∈ afterW := by
  unfold hrTail at h
  split at h
  case isTrue =>
    cases h
    exact absurd hc (by simp)
  case isFalse =>
    split at h
    case isTrue => cases h
    case isFalse =>
      cases h
      dsimp only at hc
      rcases List.mem_append.mp hc with h' | h'
      · exact Or.inl (mem_of_drop h')
      · exact Or.inr h'

theorem mHr_not_mem {a : Bool} {u : Str} {r : MRes Str} {c : Char}
    (h : mHr a u = some r) (hc : ¬ c ∈ str "<hr>") (hu : ¬ c ∈ u) :
    ¬ c ∈ r.payload ∧ ¬ c ∈ r.rest := by
  unfold mHr at h
  split at h
  case isTrue => cases h
  case isFalse =>
    split at h
    case isTrue =>
      split at h
      case h_1 q hq =>
        cases h
        refine ⟨hc, fun hm => ?_⟩
        dsimp only at hm
        rcases hrTail_mem hq hm with h' | h'
        · exact hu (mem_of_drop (mem_of_takeWhile h'))
        · exact hu (mem_of_drop (mem_of_dropWhile h'))
      case h_2 => cases h
    case isFalse => cases h

theorem headTail_mem {w afterW : Str} {q : Str × Str} (h : headTail w afterW = some q)
    {c : Char} : (c ∈ q.1 → c ∈ w ∨ c ∈ afterW) ∧ (c ∈ q.2 → c ∈ w ∨ c ∈ afterW) := by
  unfold headTail at h
  split at h
  case h_1 a l =>
    cases h
    dsimp only
    exact ⟨fun hc => Or.inr (mem_of_takeWhile hc), fun hc => Or.inr (mem_of_dropWhile hc)⟩
  case h_2 =>
    split at h
    case h_1 => cases h
    case h_2 => cases h
    case h_3 lastC b rest heq =>
      cases h
      dsimp only
      constructor
      · intro hc
        rcases List.mem_cons.mp hc with h' | h'
        · subst h'
          have hmem : c ∈ w.reverse.dropWhile (fun x => x == '\n') := by
            rw [heq]
            exact List.mem_cons_self _ _
          refine Or.inl ?_
          rw [← List.mem_reverse]
          exact mem_of_dropWhile hmem
        · cases h'
      · intro hc
        rw [List.mem_reverse] at hc
        refine Or.inl ?_
        rw [← List.mem_reverse]
        exact mem_of_takeWhile hc

theorem mHeading_not_mem {n : Nat} {a : Bool} {u : Str} {r : MRes Str} {c : Char}
    (h : mHeading n a u = some r) (hc1 : ¬ c ∈ str "<h") (hc2 : ¬ c ∈ str ">")
    (hc3 : ¬ c ∈ str "</h") (hcd : ¬ c ∈ natDigits n) (hu : ¬ c ∈ u) :
    ¬ c ∈ r.payload ∧ ¬ c ∈ r.rest := by
  unfold mHeading at h
  split at h
  case isTrue => cases h
  case isFalse =>
    split at h
    case isTrue hp =>
      split at h
      case isTrue => cases h
      case isFalse hw =>
        split at h
        case h_1 q hq =>
          cases h
          dsimp only
          have habs : ∀ {x : Char}, x ∈ q.1 ∨ x ∈ q.2 → x ∈ u := by
            intro x hx
            have hx' : x ∈ (u.drop n).takeWhile jsWs ∨ x ∈ (u.drop n).dropWhile jsWs := by
              rcases hx with hx | hx
              · exact (headTail_mem hq).1 hx
              · exact (headTail_mem hq).2 hx
            rcases hx' with hx' | hx'
            · exact mem_of_drop (mem_of_takeWhile hx')
            · exact mem_of_drop (mem_of_dropWhile hx')
          constructor
          · intro hm
            simp only [List.append_assoc] at hm
            rcases List.mem_append.mp hm with h1 | hm
            · exact hc1 h1
            rcases List.mem_append.mp hm with h1 | hm
            · exact hcd h1
            rcases List.mem_append.mp hm with h1 | hm
            · exact hc2 h1
            rcases List.mem_append.mp hm with h1 | hm
            · exact hu (habs (Or.inl h1))
            rcases List.mem_append.mp hm with h1 | hm
            · exact hc3 h1
            rcases List.mem_append.mp hm with h1 | h1
            · exact hcd h1
            · exact hc2 h1
          · intro hm
            exact hu (habs (Or.inr hm))
        case h_2 => cases h
    case isFalse => cases h

theorem mImage_not_mem {f : Str → Str} {a : Bool} {u : Str} {r : MRes Str} {c : Char}
    (hf : ∀ t, ¬ c ∈ t → ¬ c ∈ f t)
    (hm1 : ¬ c ∈ str "<img src=\"") (hm2 : ¬ c ∈ str "\" alt=\"")
    (hm3 : ¬ c ∈ str "\" loading=\"lazy\">") (hq : ¬ c ∈ str "&<>\"")
    (h : mImage f a u = some r) (hu : ¬ c ∈ u) :
    ¬ c ∈ r.payload ∧ ¬ c ∈ r.rest := by
  unfold mImage at h
  split at h
  case isTrue hp =>
    split at h
    case h_1 a2 r3 heq =>
      split at h
      case isTrue => cases h
      case isFalse =>
        split at h
        case h_1 b rest heq2 =>
          cases h
          dsimp only
          have hr3 : ∀ {x : Char}, x ∈ r3 → x ∈ u := by
            intro x hx
            refine mem_of_drop (n := 2) (mem_of_dropWhile (q := fun x => x != ']') ?_)
            rw [heq]
            exact List.mem_cons_of_mem _ (List.mem_cons_of_mem _ hx)
          constructor
          · intro hm
            simp only [List.append_assoc] at hm
            rcases List.mem_append.mp hm with h1 | hm
            · exact hm1 h1
            rcases List.mem_append.mp hm with h1 | hm
            · refine hf _ ?_ h1
              intro hx
              rcases mem_unescapeForAttr hx with hx' | hx'
              · exact hu (hr3 (mem_of_takeWhile hx'))
              · exact hq hx'
            rcases List.mem_append.mp hm with h1 | hm
            · exact hm2 h1
            rcases List.mem_append.mp hm with h1 | h1
            · exact hu (mem_of_drop (mem_of_takeWhile h1))
            · exact hm3 h1
          · intro hm
            have : c ∈ r3.dropWhile (fun x => x != ')') := by
              rw [heq2]
              exact List.mem_cons_of_mem _ hm
            exact hu (hr3 (mem_of_dropWhile this))
        case h_2 => cases h
    case h_2 => cases h
  case isFalse => cases h

theorem mLink_not_mem {a : Bool} {u : Str} {r : MRes Str} {c : Char}
    (hm1 : ¬ c ∈ str "<a href=\"")
    (hm2 : ¬ c ∈ str "\" target=\"_blank\" rel=\"noopener noreferrer\">")
    (hm3 : ¬ c ∈ str "</a>") (hq : ¬ c ∈ str "&<>\"")
    (h : mLink a u = some r) (hu : ¬ c ∈ u) :
    ¬ c ∈ r.payload ∧ ¬ c ∈ r.rest := by
  unfold mLink at h
  split at h
  case h_1 r1 =>
    split at h
    case isTrue => cases h
    case isFalse =>
      split at h
      case h_1 a2 r3 heq =>
        split at h
        case isTrue => cases h
        case isFalse =>
          split at h
          case h_1 b rest heq2 =>
            cases h
            dsimp only
            have hr1 : ∀ {x : Char}, x ∈ r1 → x ∈ '[' :: r1 := by
              intro x hx
              exact List.mem_cons_of_mem _ hx
            have hr3 : ∀ {x : Char}, x ∈ r3 → x ∈ '[' :: r1 := by
              intro x hx
              refine hr1 (mem_of_dropWhile (q := fun x => x != ']') ?_)
              rw [heq]
              exact List.mem_cons_of_mem _ (List.mem_cons_of_mem _ hx)
            constructor
            · intro hm
              simp only [List.append_assoc] at hm
              rcases List.mem_append.mp hm with h1 | hm
              · exact hm1 h1
              rcases List.mem_append.mp hm with h1 | hm
              · rcases mem_unescapeForAttr h1 with hx' | hx'
                · exact hu (hr3 (mem_of_takeWhile hx'))
                · exact hq hx'
              rcases List.mem_append.mp hm with h1 | hm
              · exact hm2 h1
              rcases List.mem_append.mp hm with h1 | h1
              · exact hu (hr1 (mem_of_takeWhile h1))
              · exact hm3 h1
            · intro hm
              have : c ∈ r3.dropWhile (fun x => x != ')') := by
                rw [heq2]
                exact List.mem_cons_of_mem _ hm
              exact hu (hr3 (mem_of_dropWhile this))
          case h_2 => cases h
      case h_2 => cases h
  case h_2 => cases h

theorem mPair_not_mem {d pre post : Str} {a : Bool} {u : Str} {r : MRes Str} {c : Char}
    (h : mPair d pre post a u = some r) (hpre : ¬ c ∈ pre) (hpost : ¬ c ∈ post)
    (hu : ¬ c ∈ u) : ¬ c ∈ r.payload ∧ ¬ c ∈ r.rest := by
  unfold mPair at h
  split at h
  case isTrue hp =>
    split at h
    case h_1 c0 r2 heq =>
      split at h
      case isTrue => cases h
      case isFalse =>
        split at h
        case h_1 q hq =>
          cases h
          dsimp only
          have hr2 : ∀ {x : Char}, x ∈ c0 :: r2 → x ∈ u := by
            intro x hx
            rw [← heq] at hx
            exact mem_of_drop hx
          constructor
          · intro hm
            simp only [List.append_assoc, List.cons_append] at hm
            rcases List.mem_append.mp hm with h1 | hm
            · exact hpre h1
            rcases List.mem_cons.mp hm with h1 | hm
            · exact hu (hr2 (h1 ▸ List.mem_cons_self _ _))
            rcases List.mem_append.mp hm with h1 | h1
            · exact hu (hr2 (List.mem_cons_of_mem _ ((findDelim_mem hq).1 h1)))
            · exact hpost h1
          · intro hm
            exact hu (hr2 (List.mem_cons_of_mem _ ((findDelim_mem hq).2 hm)))
        case h_2 => cases h
    case h_2 => cases h
  case isFalse => cases h

theorem natDigits_not_mem {n : Nat} {c : Char} (hc : c.toNat < 48 ∨ 57 < c.toNat) :
    ¬ c ∈ natDigits n := by
  intro h
  have := natDigits_digits (n + 1) n (Nat.lt_succ_self n) c h
  omega

theorem parseHorizontalRules_not_mem {s out : Str} {c : Char}
    (h : parseHorizontalRules s = some out) (hc : ¬ c ∈ str "<hr>") (hs : ¬ c ∈ s) :
    ¬ c ∈ out :=
  scanRep_not_mem (fun _ _ _ h' hu => mHr_not_mem h' hc hu) _ _ _ _ h hs

theorem parseHeadings_not_mem {s out : Str} {c : Char}
    (h : parseHeadings s = some out) (hc1 : ¬ c ∈ str "<h") (hc2 : ¬ c ∈ str ">")
    (hc3 : ¬ c ∈ str "</h") (hdig : c.toNat < 48 ∨ 57 < c.toNat)
    (hs : ¬ c ∈ s) : ¬ c ∈ out := by
  have key : ∀ (n : Nat) (x y : Str), scanRep (mHeading n) x.length true x = some y →
      ¬ c ∈ x → ¬ c ∈ y := by
    intro n x y hxy hx
    exact scanRep_not_mem
      (fun _ _ _ h' hu => mHeading_not_mem h' hc1 hc2 hc3 (natDigits_not_mem hdig) hu)
      _ _ _ _ hxy hx
  unfold parseHeadings at h
  cases h6 : scanRep (mHeading 6) s.length true s with
  | none => rw [h6] at h; cases h
  | some a =>
    rw [h6] at h
    simp only [Option.bind] at h
    have ha := key 6 s a h6 hs
    cases h5 : scanRep (mHeading 5) a.length true a with
    | none => rw [h5] at h; cases h
    | some b =>
      rw [h5] at h
      simp only [Option.bind] at h
      have hb := key 5 a b h5 ha
      cases h4 : scanRep (mHeading 4) b.length true b with
      | none => rw [h4] at h; cases h
      | some d =>
        rw [h4] at h
        simp only [Option.bind] at h
        have hd := key 4 b d h4 hb
        cases h3 : scanRep (mHeading 3) d.length true d with
        | none => rw [h3] at h; cases h
        | some e =>
          rw [h3] at h
          simp only [Option.bind] at h
          have he := key 3 d e h3 hd
          cases h2 : scanRep (mHeading 2) e.length true e with
          | none => rw [h2] at h; cases h
          | some g =>
            rw [h2] at h
            simp only [Option.bind] at h
            have hg := key 2 e g h2 he
            exact key 1 g out h hg

theorem parseBoldItalic_not_mem {s out : Str} {c : Char}
    (hbi : ¬ c ∈ str "<strong><em></em></strong>")
    (h : parseBoldItalic s = some out) (hs : ¬ c ∈ s) : ¬ c ∈ out := by
  have key : ∀ (d pre post : Str),
      (∀ x ∈ pre, x ∈ str "<strong><em></em></strong>") →
      (∀ x ∈ post, x ∈ str "<strong><em></em></strong>") →
      ∀ (x y : Str), scanRep (mPair d pre post) x.length true x = some y →
        ¬ c ∈ x → ¬ c ∈ y := by
    intro d pre post hp1 hp2 x y hxy hx
    exact scanRep_not_mem
      (fun _ _ _ h' hu =>
        mPair_not_mem h' (fun hxx => hbi (hp1 c hxx)) (fun hxx => hbi (hp2 c hxx)) hu)
      _ _ _ _ hxy hx
  unfold parseBoldItalic at h
  cases h1 : scanRep (mPair (str "***") (str "<strong><em>") (str "</em></strong>"))
      s.length true s with
  | none => rw [h1] at h; cases h
  | some a =>
    rw [h1] at h
    simp only [Option.bind] at h
    have ha := key _ _ _ (by decide) (by decide) s a h1 hs
    cases h2 : scanRep (mPair (str "___") (str "<strong><em>") (str "</em></strong>"))
        a.length true a with
    | none => rw [h2] at h; cases h
    | some b =>
      rw [h2] at h
      simp only [Option.bind] at h
      have hb := key _ _ _ (by decide) (by decide) a b h2 ha
      cases h3 : scanRep (mPair (str "**") (str "<strong>") (str "</strong>"))
          b.length true b with
      | none => rw [h3] at h; cases h
      | some d =>
        rw [h3] at h
        simp only [Option.bind] at h
        have hd := key _ _ _ (by decide) (by decide) b d h3 hb
        cases h4 : scanRep (mPair (str "__") (str "<strong>") (str "</strong>"))
            d.length true d with
        | none => rw [h4] at h; cases h
        | some e =>
          rw [h4] at h
          simp only [Option.bind] at h
          have he := key _ _ _ (by decide) (by decide) d e h4 hd
          cases h5 : scanRep (mPair (str "*") (str "<em>") (str "</em>"))
              e.length true e with
          | none => rw [h5] at h; cases h
          | some g =>
            rw [h5] at h
            simp only [Option.bind] at h
            have hg := key _ _ _ (by decide) (by decide) e g h5 he
            exact key _ _ _ (by decide) (by decide) g out h hg

theorem phaseInline_not_mem {f : Str → Str} {s out : Str} {c : Char}
    (hf : ∀ t, ¬ c ∈ t → ¬ c ∈ f t)
    (him1 : ¬ c ∈ str "<img src=\"") (him2 : ¬ c ∈ str "\" alt=\"")
    (him3 : ¬ c ∈ str "\" loading=\"lazy\">")
    (hl1 : ¬ c ∈ str "<a href=\"")
    (hl2 : ¬ c ∈ str "\" target=\"_blank\" rel=\"noopener noreferrer\">")
    (hl3 : ¬ c ∈ str "</a>")
    (hq : ¬ c ∈ str "&<>\"")
    (hbi : ¬ c ∈ str "<strong><em></em></strong>")
    (hdel : ¬ c ∈ str "<del></del>")
    (hbr : ¬ c ∈ str "<br>\n")
    (h : phaseInline f s = some out) (hs : ¬ c ∈ s) : ¬ c ∈ out := by
  unfold phaseInline at h
  cases h1 : parseImages f s with
  | none => rw [h1] at h; cases h
  | some a =>
    rw [h1] at h
    simp only [Option.bind] at h
    have ha : ¬ c ∈ a :=
      scanRep_not_mem
        (fun _ _ _ h' hu => mImage_not_mem hf him1 him2 him3 hq h' hu)
        _ _ _ _ h1 hs
    cases h2 : parseLinks a with
    | none => rw [h2] at h; cases h
    | some b =>
      rw [h2] at h
      simp only [Option.bind] at h
      have hb : ¬ c ∈ b :=
        scanRep_not_mem
          (fun _ _ _ h' hu => mLink_not_mem hl1 hl2 hl3 hq h' hu)
          _ _ _ _ h2 ha
      cases h3 : parseBoldItalic b with
      | none => rw [h3] at h; cases h
      | some d =>
        rw [h3] at h
        simp only [Option.bind] at h
        have hd : ¬ c ∈ d := parseBoldItalic_not_mem hbi h3 hb
        cases h4 : parseStrikethrough d with
        | none => rw [h4] at h; cases h
        | some e =>
          rw [h4] at h
          simp only [Option.map] at h
          injection h with h'
          rw [← h']
          have he : ¬ c ∈ e :=
            scanRep_not_mem
              (fun _ _ _ h' hu =>
                mPair_not_mem h'
                  (fun hxx => hdel ((by decide : ∀ x ∈ str "<del>",
                    x ∈ str "<del></del>") c hxx))
                  (fun hxx => hdel ((by decide : ∀ x ∈ str "</del>",
                    x ∈ str "<del></del>") c hxx))
                  hu)
              _ _ _ _ h4 hd
          exact parseLineBreaks_not_mem hbr he

/-! ### Membership bounds for the line-loop passes -/

theorem mem_bqContent {l cnt : Str} (h : bqContent l = some cnt) {c : Char}
    (hc : c ∈ cnt) : c ∈ l := by
  unfold bqContent at h
  split at h
  case isTrue =>
    split at h
    case h_1 c0 r heq =>
      split at h
      case isTrue =>
        cases h
        refine mem_of_drop (n := 4) ?_
        rw [heq]
        exact List.mem_cons_of_mem _ hc
      case isFalse =>
        cases h
        refine mem_of_drop (n := 4) ?_
        rw [heq]
        exact hc
    case h_2 heq =>
      cases h
      cases hc
  case isFalse => cases h

theorem mem_flushBq {acc : List Str} {l : Str} (hl : l ∈ flushBq acc) {c : Char}
    (hc : c ∈ l) :
    c ∈ str "<blockquote><p></p></blockquote>" ∨ c = '\n' ∨ ∃ a ∈ acc, c ∈ a := by
  unfold flushBq at hl
  split at hl
  · cases hl
  · rcases List.mem_singleton.mp hl with rfl
    simp only [List.append_assoc] at hc
    rcases List.mem_append.mp hc with h1 | h1
    · exact Or.inl ((by decide : ∀ x ∈ str "<blockquote><p>",
        x ∈ str "<blockquote><p></p></blockquote>") c h1)
    rcases List.mem_append.mp h1 with h2 | h2
    · rcases mem_joinNl h2 with h3 | ⟨a, ha, hca⟩
      · exact Or.inr (Or.inl h3)
      · exact Or.inr (Or.inr ⟨a, ha, hca⟩)
    · exact Or.inl ((by decide : ∀ x ∈ str "</p></blockquote>",
        x ∈ str "<blockquote><p></p></blockquote>") c h2)

theorem mem_bqLoop : ∀ {ls acc : List Str} {l : Str}, l ∈ bqLoop ls acc →
    ∀ {c : Char}, c ∈ l →
      c ∈ str "<blockquote><p></p></blockquote>" ∨ c = '\n' ∨
        (∃ a ∈ acc, c ∈ a) ∨ (∃ x ∈ ls, c ∈ x) := by
  intro ls
  induction ls with
  | nil =>
    intro acc l hl c hc
    rcases mem_flushBq hl hc with h1 | h1 | h1
    · exact Or.inl h1
    · exact Or.inr (Or.inl h1)
    · exact Or.inr (Or.inr (Or.inl h1))
  | cons l0 rest ih =>
    intro acc l hl c hc
    cases hb : bqContent l0 with
    | some cnt =>
      rw [show bqLoop (l0 :: rest) acc = bqLoop rest (acc ++ [cnt]) from by
        simp [bqLoop, hb]] at hl
      rcases ih hl hc with h1 | h1 | ⟨a, ha, hca⟩ | ⟨x, hx, hcx⟩
      · exact Or.inl h1
      · exact Or.inr (Or.inl h1)
      · rcases List.mem_append.mp ha with ha' | ha'
        · exact Or.inr (Or.inr (Or.inl ⟨a, ha', hca⟩))
        · rcases List.mem_singleton.mp ha' with rfl
          exact Or.inr (Or.inr (Or.inr
            ⟨l0, List.mem_cons_self _ _, mem_bqContent hb hca⟩))
      · exact Or.inr (Or.inr (Or.inr ⟨x, List.mem_cons_of_mem _ hx, hcx⟩))
    | none =>
      rw [show bqLoop (l0 :: rest) acc = flushBq acc ++ l0 :: bqLoop rest [] from by
        simp [bqLoop, hb]] at hl
      rcases List.mem_append.mp hl with hl' | hl'
      · rcases mem_flushBq hl' hc with h1 | h1 | h1
        · exact Or.inl h1
        · exact Or.inr (Or.inl h1)
        · exact Or.inr (Or.inr (Or.inl h1))
      · rcases List.mem_cons.mp hl' with hl'' | hl''
        · subst hl''
          exact Or.inr (Or.inr (Or.inr ⟨l, List.mem_cons_self _ _, hc⟩))
        · rcases ih hl'' hc with h1 | h1 | ⟨a, ha, _⟩ | ⟨x, hx, hcx⟩
          · exact Or.inl h1
          · exact Or.inr (Or.inl h1)
          · cases ha
          · exact Or.inr (Or.inr (Or.inr ⟨x, List.mem_cons_of_mem _ hx, hcx⟩))

theorem parseBlockquotes_not_mem {s : Str} {c : Char}
    (hmk : ¬ c ∈ str "<blockquote><p></p></blockquote>") (hnl : ¬ c = '\n')
    (hs : ¬ c ∈ s) : ¬ c ∈ parseBlockquotes s := by
  intro hm
  unfold parseBlockquotes at hm
  rcases mem_joinNl hm with h1 | ⟨l, hl, hcl⟩
  · exact hnl h1
  rcases mem_bqLoop hl hcl with h1 | h1 | ⟨a, ha, _⟩ | ⟨x, hx, hcx⟩
  · exact hmk h1
  · exact hnl h1
  · cases ha
  · exact hs (mem_splitNl hx hcx)

theorem mem_of_dropLast : ∀ {l : Str} {c : Char}, c ∈ l.dropLast → c ∈ l := by
  intro l
  induction l with
  | nil => intro c h; cases h
  | cons a r ih =>
    intro c h
    cases r with
    | nil => cases h
    | cons b rr =>
      rw [show (a :: b :: rr).dropLast = a :: (b :: rr).dropLast from rfl] at h
      rcases List.mem_cons.mp h with h' | h'
      · exact h' ▸ List.mem_cons_self _ _
      · exact List.mem_cons_of_mem _ (ih h')

theorem mem_dropLeadPipe {t : Str} {c : Char} (h : c ∈ dropLeadPipe t) : c ∈ t := by
  unfold dropLeadPipe at h
  split at h
  · exact List.mem_cons_of_mem _ h
  · exact h

theorem mem_dropTrailPipe {t : Str} {c : Char} (h : c ∈ dropTrailPipe t) : c ∈ t := by
  unfold dropTrailPipe at h
  split at h
  · exact mem_of_dropLast h
  · exact h

theorem mem_parseTableRow {l cell : Str} (hc : cell ∈ parseTableRow l) {c : Char}
    (h : c ∈ cell) : c ∈ l := by
  unfold parseTableRow at hc
  exact mem_of_jsTrim (mem_dropLeadPipe (mem_dropTrailPipe (mem_splitPipe hc h)))

theorem mem_alignOf {cell : Str} {c : Char} (h : c ∈ alignOf cell) :
    c ∈ str "centerightleft" := by
  simp only [alignOf] at h
  split at h
  · exact (by decide : ∀ x ∈ str "center", x ∈ str "centerightleft") c h
  · split at h
    · exact (by decide : ∀ x ∈ str "right", x ∈ str "centerightleft") c h
    · split at h
      · exact (by decide : ∀ x ∈ str "left", x ∈ str "centerightleft") c h
      · cases h

theorem mem_alignAttr {aligns : List Str} {idx : Nat} {c : Char}
    (h : c ∈ alignAttr aligns idx) :
    c ∈ tblChars ∨ ∃ a ∈ aligns, c ∈ a := by
  unfold alignAttr at h
  split at h
  case h_1 a heq =>
    split at h
    · cases h
    · simp only [List.append_assoc] at h
      rcases List.mem_append.mp h with h1 | h1
      · exact Or.inl ((by decide : ∀ x ∈ str " style=\"text-align:",
          x ∈ tblChars) c h1)
      rcases List.mem_append.mp h1 with h2 | h2
      · exact Or.inr ⟨a, List.get?_mem heq, h2⟩
      · exact Or.inl ((by decide : ∀ x ∈ str "\"", x ∈ tblChars) c h2)
  case h_2 => cases h

theorem mem_cellsHtml {tag : Str} {aligns : List Str}
    (htag : ∀ x ∈ tag, x ∈ tblChars) :
    ∀ {cells : List Str} {idx : Nat} {c : Char}, c ∈ cellsHtml tag aligns idx cells →
      c ∈ tblChars ∨ (∃ a ∈ aligns, c ∈ a) ∨ ∃ x ∈ cells, c ∈ x := by
  intro cells
  induction cells with
  | nil => intro idx c h; cases h
  | cons c0 rest ih =>
    intro idx c h
    rw [show cellsHtml tag aligns idx (c0 :: rest) =
        '<' :: tag ++ alignAttr aligns idx ++ '>' :: jsTrim c0 ++
          '<' :: '/' :: tag ++ '>' :: cellsHtml tag aligns (idx + 1) rest from rfl] at h
    simp only [List.append_assoc, List.cons_append] at h
    rcases List.mem_cons.mp h with h1 | h
    · exact Or.inl (by rw [h1]; decide)
    rcases List.mem_append.mp h with h1 | h
    · exact Or.inl (htag c h1)
    rcases List.mem_append.mp h with h1 | h
    · rcases mem_alignAttr h1 with h2 | h2
      · exact Or.inl h2
      · exact Or.inr (Or.inl h2)
    rcases List.mem_cons.mp h with h1 | h
    · exact Or.inl (by rw [h1]; decide)
    rcases List.mem_append.mp h with h1 | h
    · exact Or.inr (Or.inr ⟨c0, List.mem_cons_self _ _, mem_of_jsTrim h1⟩)
    rcases List.mem_cons.mp h with h1 | h
    · exact Or.inl (by rw [h1]; decide)
    rcases List.mem_cons.mp h with h1 | h
    · exact Or.inl (by rw [h1]; decide)
    rcases List.mem_append.mp h with h1 | h
    · exact Or.inl (htag c h1)
    rcases List.mem_cons.mp h with h1 | h
    · exact Or.inl (by rw [h1]; decide)
    rcases ih h with h1 | h1 | ⟨x, hx, hcx⟩
    · exact Or.inl h1
    · exact Or.inr (Or.inl h1)
    · exact Or.inr (Or.inr ⟨x, List.mem_cons_of_mem _ hx, hcx⟩)

theorem mem_rowHtml {aligns : List Str} {r : Str} {c : Char}
    (h : c ∈ rowHtml aligns r) :
    c ∈ tblChars ∨ (∃ a ∈ aligns, c ∈ a) ∨ c ∈ r := by
  unfold rowHtml at h
  simp only [List.append_assoc] at h
  rcases List.mem_append.mp h with h1 | h
  · exact Or.inl ((by decide : ∀ x ∈ str "<tr>", x ∈ tblChars) c h1)
  rcases List.mem_append.mp h with h1 | h
  · rcases mem_cellsHtml (by decide) h1 with h2 | h2 | ⟨x, hx, hcx⟩
    · exact Or.inl h2
    · exact Or.inr (Or.inl h2)
    · exact Or.inr (Or.inr (mem_parseTableRow hx hcx))
  · exact Or.inl ((by decide : ∀ x ∈ str "</tr>", x ∈ tblChars) c h)

theorem mem_tableHtml {header aligns rows : List Str} {c : Char}
    (h : c ∈ tableHtml header aligns rows) :
    c ∈ tblChars ∨ (∃ a ∈ aligns, c ∈ a) ∨ (∃ x ∈ header, c ∈ x) ∨
      ∃ r ∈ rows, c ∈ r := by
  unfold tableHtml at h
  simp only [List.append_assoc] at h
  rcases List.mem_append.mp h with h1 | h
  · exact Or.inl ((by decide : ∀ x ∈ str "<table><thead><tr>", x ∈ tblChars) c h1)
  rcases List.mem_append.mp h with h1 | h
  · rcases mem_cellsHtml (by decide) h1 with h2 | h2 | ⟨x, hx, hcx⟩
    · exact Or.inl h2
    · exact Or.inr (Or.inl h2)
    · exact Or.inr (Or.inr (Or.inl ⟨x, hx, hcx⟩))
  rcases List.mem_append.mp h with h1 | h
  · exact Or.inl ((by decide : ∀ x ∈ str "</tr></thead><tbody>", x ∈ tblChars) c h1)
  rcases List.mem_append.mp h with h1 | h
  · rcases List.mem_flatten.mp h1 with ⟨piece, hp, hcp⟩
    rcases List.mem_map.mp hp with ⟨r, hr, rfl⟩
    rcases mem_rowHtml hcp with h2 | h2 | h2
    · exact Or.inl h2
    · exact Or.inr (Or.inl h2)
    · exact Or.inr (Or.inr (Or.inr ⟨r, hr, h2⟩))
  · exact Or.inl ((by decide : ∀ x ∈ str "</tbody></table>", x ∈ tblChars) c h)

theorem consumeRows_sub : ∀ ls : List Str,
    (∀ x ∈ (consumeRows ls).1, x ∈ ls) ∧ (∀ x ∈ (consumeRows ls).2, x ∈ ls) := by
  intro ls
  induction ls with
  | nil => exact ⟨(fun x hx => nomatch hx), (fun x hx => nomatch hx)⟩
  | cons l rest ih =>
    by_cases hr : isRowLine l = true
    · rw [show consumeRows (l :: rest) =
          (l :: (consumeRows rest).1, (consumeRows rest).2) from by
        simp [consumeRows, hr]]
      constructor
      · intro x hx
        rcases List.mem_cons.mp hx with h' | h'
        · exact h' ▸ List.mem_cons_self _ _
        · exact List.mem_cons_of_mem _ (ih.1 x h')
      · intro x hx
        exact List.mem_cons_of_mem _ (ih.2 x hx)
    · rw [show consumeRows (l :: rest) = ([], l :: rest) from by
        simp [consumeRows, hr]]
      exact ⟨(fun x hx => nomatch hx), (fun x hx => hx)⟩

theorem mem_parseTableAligns {l : Str} {a : Str} (ha : a ∈ parseTableAligns l)
    {c : Char} (hc : c ∈ a) : c ∈ tblChars := by
  unfold parseTableAligns at ha
  rcases List.mem_map.mp ha with ⟨cell, _, rfl⟩
  exact (by decide : ∀ x ∈ str "centerightleft", x ∈ tblChars) c (mem_alignOf hc)

theorem mem_tableLoop : ∀ {fuel : Nat} {ls out : List Str},
    tableLoop fuel ls = some out → ∀ {l}, l ∈ out → ∀ {c}, c ∈ l →
      c ∈ tblChars ∨ ∃ x ∈ ls, c ∈ x := by
  intro fuel
  induction fuel with
  | zero =>
    intro ls out h l hl c hc
    cases ls with
    | nil =>
      injection h with h'
      rw [← h'] at hl
      cases hl
    | cons l0 rest => cases h
  | succ n ih =>
    intro ls out h l hl c hc
    cases ls with
    | nil =>
      injection h with h'
      rw [← h'] at hl
      cases hl
    | cons l0 rest =>
      cases rest with
      | nil =>
        have hempty : tableLoop n ([] : List Str) = some [] := by
          cases n <;> rfl
        simp only [tableLoop, hempty] at h
        injection h with h'
        rw [← h'] at hl
        rcases List.mem_cons.mp hl with h1 | h1
        · exact Or.inr ⟨l0, List.mem_cons_self _ _, h1 ▸ hc⟩
        · cases h1
      | cons l1 rest2 =>
        by_cases hsep : (isRowLine l0 && isSepLine l1) = true
        · simp only [tableLoop, hsep, if_pos] at h
          cases hrec : tableLoop n (consumeRows rest2).2 with
          | none => rw [hrec] at h; cases h
          | some t =>
            rw [hrec] at h
            injection h with h'
            rw [← h'] at hl
            rcases List.mem_cons.mp hl with h1 | h1
            · subst h1
              rcases mem_tableHtml hc with h2 | ⟨a, ha, hca⟩ | ⟨x, hx, hcx⟩ | ⟨r, hr, hcr⟩
              · exact Or.inl h2
              · exact Or.inl (mem_parseTableAligns ha hca)
              · exact Or.inr ⟨l0, List.mem_cons_self _ _, mem_parseTableRow hx hcx⟩
              · exact Or.inr ⟨r, List.mem_cons_of_mem _
                  (List.mem_cons_of_mem _ ((consumeRows_sub rest2).1 r hr)), hcr⟩
            · rcases ih hrec h1 hc with h2 | ⟨x, hx, hcx⟩
              · exact Or.inl h2
              · exact Or.inr ⟨x, List.mem_cons_of_mem _
                  (List.mem_cons_of_mem _ ((consumeRows_sub rest2).2 x hx)), hcx⟩
        · simp only [tableLoop, hsep, if_neg] at h
          cases hrec : tableLoop n (l1 :: rest2) with
          | none => rw [hrec] at h; cases h
          | some t =>
            rw [hrec] at h
            injection h with h'
            rw [← h'] at hl
            rcases List.mem_cons.mp hl with h1 | h1
            · exact Or.inr ⟨l0, List.mem_cons_self _ _, h1 ▸ hc⟩
            · rcases ih hrec h1 hc with h2 | ⟨x, hx, hcx⟩
              · exact Or.inl h2
              · exact Or.inr ⟨x, List.mem_cons_of_mem _ hx, hcx⟩

theorem parseTables_not_mem {s out : Str} {c : Char} (h : parseTables s = some out)
    (htb : ¬ c ∈ tblChars) (hnl : ¬ c = '\n') (hs : ¬ c ∈ s) : ¬ c ∈ out := by
  intro hm
  unfold parseTables at h
  cases htl : tableLoop (splitNl s).length (splitNl s) with
  | none => rw [htl] at h; cases h
  | some ls2 =>
    rw [htl] at h
    injection h with h'
    rw [← h'] at hm
    rcases mem_joinNl hm with h1 | ⟨l, hl, hcl⟩
    · exact hnl h1
    rcases mem_tableLoop htl hl hcl with h1 | ⟨x, hx, hcx⟩
    · exact htb h1
    · exact hs (mem_splitNl hx hcx)

theorem lineItem_content_mem {l : Str} {it : LItem} (h : lineItem l = some it)
    {c : Char} (hc : c ∈ it.content) : c ∈ l := by
  simp only [lineItem] at h
  split at h
  case h_1 it1 heq1 =>
    injection h with h'
    subst h'
    split at heq1
    case h_1 r1 heqr =>
      split at heq1
      case isTrue => cases heq1
      case isFalse =>
        split at heq1
        case h_1 m r2 heqr2 =>
          split at heq1
          case isTrue =>
            split at heq1
            case isTrue => cases heq1
            case isFalse =>
              injection heq1 with h''
              subst h''
              dsimp only at hc
              have h1 : c ∈ r2 := mem_of_dropWhile hc
              have h2 : c ∈ r1 := by
                refine mem_of_dropWhile (q := jsWs) ?_
                rw [heqr2]
                exact List.mem_cons_of_mem _ (List.mem_cons_of_mem _
                  (List.mem_cons_of_mem _ h1))
              refine mem_of_dropWhile (q := jsWs) ?_
              rw [heqr]
              exact List.mem_cons_of_mem _ h2
          case isFalse => cases heq1
        case h_2 => cases heq1
    case h_2 => cases heq1
  case h_2 heq1 =>
    split at h
    case h_1 it1 heq2 =>
      injection h with h'
      subst h'
      split at heq2
      case h_1 m r1 heqr =>
        split at heq2
        case isTrue =>
          split at heq2
          case isTrue => cases heq2
          case isFalse =>
            injection heq2 with h''
            subst h''
            dsimp only at hc
            have h1 : c ∈ r1 := mem_of_dropWhile hc
            refine mem_of_dropWhile (q := jsWs) ?_
            rw [heqr]
            exact List.mem_cons_of_mem _ h1
        case isFalse => cases heq2
      case h_2 => cases heq2
    case h_2 heq2 =>
      split at h
      case isTrue => cases h
      case isFalse =>
        split at h
        case h_1 r2 heqr =>
          split at h
          case isTrue => cases h
          case isFalse =>
            injection h with h'
            subst h'
            dsimp only at hc
            have h1 : c ∈ r2 := mem_of_dropWhile hc
            have h2 : c ∈ (l.dropWhile jsWs).dropWhile jsDigit := by
              rw [heqr]
              exact List.mem_cons_of_mem _ h1
            exact mem_of_dropWhile (mem_of_dropWhile h2)
        case h_2 => cases h

theorem mem_closeTag {t : LType} {c : Char} (h : c ∈ closeTag t) : c ∈ lstChars := by
  cases t
  · exact (by decide : ∀ x ∈ str "</ul>", x ∈ lstChars) c h
  · exact (by decide : ∀ x ∈ str "</ol>", x ∈ lstChars) c h

theorem mem_openTag {t : LType} {c : Char} (h : c ∈ openTag t) : c ∈ lstChars := by
  cases t
  · exact (by decide : ∀ x ∈ str "<ul>", x ∈ lstChars) c h
  · exact (by decide : ∀ x ∈ str "<ol>", x ∈ lstChars) c h

theorem mem_popGe {indent : Nat} : ∀ {st : List (Nat × LType)} {c : Char},
    c ∈ (popGe indent st).1 → c ∈ lstChars := by
  intro st
  induction st with
  | nil => intro c h; cases h
  | cons p rest ih =>
    intro c h
    obtain ⟨i, t⟩ := p
    have hstep : popGe indent ((i, t) :: rest) =
        if (i ≥ indent && i ≠ indent) = true then
          (closeTag t ++ (popGe indent rest).1, (popGe indent rest).2)
        else ([], (i, t) :: rest) := rfl
    by_cases hcond : (i ≥ indent && i ≠ indent) = true
    · rw [hstep, if_pos hcond] at h
      rcases List.mem_append.mp h with h1 | h1
      · exact mem_closeTag h1
      · exact ih h1
    · rw [hstep, if_neg hcond] at h
      cases h

theorem mem_closeAll : ∀ {st : List (Nat × LType)} {c : Char},
    c ∈ closeAll st → c ∈ lstChars := by
  intro st
  induction st with
  | nil => intro c h; cases h
  | cons p rest ih =>
    intro c h
    obtain ⟨i, t⟩ := p
    rw [show closeAll ((i, t) :: rest) = closeTag t ++ closeAll rest from rfl] at h
    rcases List.mem_append.mp h with h1 | h1
    · exact mem_closeTag h1
    · exact ih h1

theorem mem_liHtml {it : LItem} {c : Char} (h : c ∈ liHtml it) :
    c ∈ lstChars ∨ c ∈ it.content := by
  unfold liHtml at h
  split at h
  case h_1 b heq =>
    simp only [List.append_assoc] at h
    rcases List.mem_append.mp h with h1 | h
    · exact Or.inl ((by decide : ∀ x ∈ str "<li><input type=\"checkbox\"",
        x ∈ lstChars) c h1)
    rcases List.mem_append.mp h with h1 | h
    · split at h1
      · exact Or.inl ((by decide : ∀ x ∈ str " checked disabled", x ∈ lstChars) c h1)
      · exact Or.inl ((by decide : ∀ x ∈ str " disabled", x ∈ lstChars) c h1)
    rcases List.mem_append.mp h with h1 | h
    · exact Or.inl ((by decide : ∀ x ∈ str "> ", x ∈ lstChars) c h1)
    rcases List.mem_append.mp h with h1 | h
    · exact Or.inr h1
    · exact Or.inl ((by decide : ∀ x ∈ str "</li>", x ∈ lstChars) c h)
  case h_2 =>
    simp only [List.append_assoc] at h
    rcases List.mem_append.mp h with h1 | h
    · exact Or.inl ((by decide : ∀ x ∈ str "<li>", x ∈ lstChars) c h1)
    rcases List.mem_append.mp h with h1 | h
    · exact Or.inr h1
    · exact Or.inl ((by decide : ∀ x ∈ str "</li>", x ∈ lstChars) c h)

theorem mem_buildStep {acc : Str × List (Nat × LType)} {it : LItem} {c : Char}
    (h : c ∈ (buildStep acc it).1) : c ∈ acc.1 ∨ c ∈ lstChars ∨ c ∈ it.content := by
  simp only [buildStep] at h
  rcases List.mem_append.mp h with h1 | h1
  · split at h1
    case h_1 =>
      dsimp only at h1
      simp only [List.append_assoc] at h1
      rcases List.mem_append.mp h1 with h2 | h1
      · exact Or.inl h2
      rcases List.mem_append.mp h1 with h2 | h1
      · exact Or.inr (Or.inl (mem_popGe h2))
      · exact Or.inr (Or.inl (mem_openTag h1))
    case h_2 i t st =>
      split at h1
      · dsimp only at h1
        simp only [List.append_assoc] at h1
        rcases List.mem_append.mp h1 with h2 | h1
        · exact Or.inl h2
        rcases List.mem_append.mp h1 with h2 | h1
        · exact Or.inr (Or.inl (mem_popGe h2))
        · exact Or.inr (Or.inl (mem_openTag h1))
      · split at h1
        · dsimp only at h1
          simp only [List.append_assoc] at h1
          rcases List.mem_append.mp h1 with h2 | h1
          · exact Or.inl h2
          rcases List.mem_append.mp h1 with h2 | h1
          · exact Or.inr (Or.inl (mem_popGe h2))
          rcases List.mem_append.mp h1 with h2 | h1
          · exact Or.inr (Or.inl (mem_closeTag h2))
          · exact Or.inr (Or.inl (mem_openTag h1))
        · dsimp only at h1
          rcases List.mem_append.mp h1 with h2 | h2
          · exact Or.inl h2
          · exact Or.inr (Or.inl (mem_popGe h2))
  · rcases mem_liHtml h1 with h2 | h2
    · exact Or.inr (Or.inl h2)
    · exact Or.inr (Or.inr h2)

theorem mem_buildFold : ∀ {items : List LItem} {acc : Str × List (Nat × LType)}
    {c : Char}, c ∈ (items.foldl buildStep acc).1 →
      c ∈ acc.1 ∨ c ∈ lstChars ∨ ∃ it ∈ items, c ∈ it.content := by
  intro items
  induction items with
  | nil => intro acc c h; exact Or.inl h
  | cons it rest ih =>
    intro acc c h
    rw [List.foldl_cons] at h
    rcases ih h with h1 | h1 | ⟨it2, hit, hc2⟩
    · rcases mem_buildStep h1 with h2 | h2 | h2
      · exact Or.inl h2
      · exact Or.inr (Or.inl h2)
      · exact Or.inr (Or.inr ⟨it, List.mem_cons_self _ _, h2⟩)
    · exact Or.inr (Or.inl h1)
    · exact Or.inr (Or.inr ⟨it2, List.mem_cons_of_mem _ hit, hc2⟩)

theorem mem_buildList {items : List LItem} {c : Char} (h : c ∈ buildList items) :
    c ∈ lstChars ∨ ∃ it ∈ items, c ∈ it.content := by
  simp only [buildList] at h
  rcases List.mem_append.mp h with h1 | h1
  · rcases mem_buildFold h1 with h2 | h2 | h2
    · cases h2
    · exact Or.inl h2
    · exact Or.inr h2
  · exact Or.inl (mem_closeAll h1)

theorem mem_flushList {items : List LItem} {l : Str} (hl : l ∈ flushList items)
    {c : Char} (hc : c ∈ l) : c ∈ lstChars ∨ ∃ it ∈ items, c ∈ it.content := by
  unfold flushList at hl
  split at hl
  · cases hl
  · rcases List.mem_singleton.mp hl with rfl
    exact mem_buildList hc

theorem mem_listLoop : ∀ {ls : List Str} {acc : List LItem} {l : Str},
    l ∈ listLoop ls acc → ∀ {c : Char}, c ∈ l →
      c ∈ lstChars ∨ (∃ it ∈ acc, c ∈ it.content) ∨ ∃ x ∈ ls, c ∈ x := by
  intro ls
  induction ls with
  | nil =>
    intro acc l hl c hc
    rcases mem_flushList hl hc with h1 | h1
    · exact Or.inl h1
    · exact Or.inr (Or.inl h1)
  | cons l0 rest ih =>
    intro acc l hl c hc
    cases hb : lineItem l0 with
    | some it =>
      rw [show listLoop (l0 :: rest) acc = listLoop rest (acc ++ [it]) from by
        simp [listLoop, hb]] at hl
      rcases ih hl hc with h1 | ⟨it2, hit, hc2⟩ | ⟨x, hx, hcx⟩
      · exact Or.inl h1
      · rcases List.mem_append.mp hit with hit' | hit'
        · exact Or.inr (Or.inl ⟨it2, hit', hc2⟩)
        · rcases List.mem_singleton.mp hit' with rfl
          exact Or.inr (Or.inr ⟨l0, List.mem_cons_self _ _,
            lineItem_content_mem hb hc2⟩)
      · exact Or.inr (Or.inr ⟨x, List.mem_cons_of_mem _ hx, hcx⟩)
    | none =>
      rw [show listLoop (l0 :: rest) acc = flushList acc ++ l0 :: listLoop rest []
          from by simp [listLoop, hb]] at hl
      rcases List.mem_append.mp hl with hl' | hl'
      · rcases mem_flushList hl' hc with h1 | h1
        · exact Or.inl h1
        · exact Or.inr (Or.inl h1)
      · rcases List.mem_cons.mp hl' with hl'' | hl''
        · subst hl''
          exact Or.inr (Or.inr ⟨l, List.mem_cons_self _ _, hc⟩)
        · rcases ih hl'' hc with h1 | ⟨it2, hit, _⟩ | ⟨x, hx, hcx⟩
          · exact Or.inl h1
          · cases hit
          · exact Or.inr (Or.inr ⟨x, List.mem_cons_of_mem _ hx, hcx⟩)

theorem parseLists_not_mem {s : Str} {c : Char} (hmk : ¬ c ∈ lstChars)
    (hnl : ¬ c = '\n') (hs : ¬ c ∈ s) : ¬ c ∈ parseLists s := by
  intro hm
  unfold parseLists at hm
  rcases mem_joinNl hm with h1 | ⟨l, hl, hcl⟩
  · exact hnl h1
  rcases mem_listLoop hl hcl with h1 | ⟨it, hit, _⟩ | ⟨x, hx, hcx⟩
  · exact hmk h1
  · cases hit
  · exact hs (mem_splitNl hx hcx)

theorem mem_paraBlock {tags : List Str} {chk : Bool} {b : Str} {c : Char}
    (h : c ∈ paraBlock tags chk b) : c ∈ b ∨ c ∈ str "<p></p>" := by
  simp only [paraBlock] at h
  split at h
  · cases h
  split at h
  · exact Or.inl (mem_of_jsTrim h)
  split at h
  · exact Or.inl (mem_of_jsTrim h)
  · simp only [List.append_assoc] at h
    rcases List.mem_append.mp h with h1 | h
    · exact Or.inr ((by decide : ∀ x ∈ str "<p>", x ∈ str "<p></p>") c h1)
    rcases List.mem_append.mp h with h1 | h
    · exact Or.inl (mem_of_jsTrim h1)
    · exact Or.inr ((by decide : ∀ x ∈ str "</p>", x ∈ str "<p></p>") c h)

theorem parseParagraphsNew_not_mem {s : Str} {c : Char} (hmk : ¬ c ∈ str "<p></p>")
    (hnl : ¬ c = '\n') (hs : ¬ c ∈ s) : ¬ c ∈ parseParagraphsNew s := by
  intro hm
  unfold parseParagraphsNew at hm
  rcases mem_joinNl hm with h1 | ⟨l, hl, hcl⟩
  · exact hnl h1
  rcases List.mem_map.mp hl with ⟨b, hb, rfl⟩
  rcases mem_paraBlock hcl with h1 | h1
  · exact hs (mem_splitNN hb h1)
  · exact hmk h1

theorem parseParagraphsOld_not_mem {s : Str} {c : Char} (hmk : ¬ c ∈ str "<p></p>")
    (hnl : ¬ c = '\n') (hs : ¬ c ∈ s) : ¬ c ∈ parseParagraphsOld s := by
  intro hm
  unfold parseParagraphsOld at hm
  rcases mem_joinNl hm with h1 | ⟨l, hl, hcl⟩
  · exact hnl h1
  rcases List.mem_map.mp hl with ⟨b, hb, rfl⟩
  rcases mem_paraBlock hcl with h1 | h1
  · exact hs (mem_splitNN hb h1)
  · exact hmk h1

/-! ### Decompositions of the splitters, and `ltOkB` for their fragments -/

theorem ltOkB_joinNl : ∀ {ls : List Str}, (∀ l ∈ ls, ltOkB l = true) →
    ltOkB (joinNl ls) = true := by
  intro ls
  induction ls with
  | nil => intro _; rfl
  | cons l rest ih =>
    intro h
    cases rest with
    | nil => exact h l (List.mem_cons_self _ _)
    | cons l2 rest2 =>
      rw [show joinNl (l :: l2 :: rest2) = l ++ '\n' :: joinNl (l2 :: rest2) from rfl]
      refine ltOkB_append (h l (List.mem_cons_self _ _)) ?_
      rw [ltOkB_cons_ne (by decide)]
      exact ih (fun x hx => h x (List.mem_cons_of_mem _ hx))

theorem splitNl_head_decomp : ∀ {s h0 : Str} {t0 : List Str}, splitNl s = h0 :: t0 →
    ∃ b, s = h0 ++ b ∧ (b = [] ∨ b.head? = some '\n') := by
  intro s
  induction s with
  | nil =>
    intro h0 t0 h
    injection h with h1 h2
    exact ⟨[], by rw [← h1]; rfl, Or.inl rfl⟩
  | cons a r ih =>
    intro h0 t0 h
    by_cases ha : a = '\n'
    · subst ha
      rw [show splitNl ('\n' :: r) = [] :: splitNl r from rfl] at h
      injection h with h1 h2
      exact ⟨'\n' :: r, by rw [← h1]; rfl, Or.inr rfl⟩
    · rw [splitNl_cons_ne ha] at h
      cases hr : splitNl r with
      | nil => exact absurd hr (splitNl_ne_nil r)
      | cons k0 ks =>
        rw [hr] at h
        injection h with h1 h2
        obtain ⟨b, hb, hor⟩ := ih hr
        refine ⟨b, ?_, hor⟩
        rw [← h1, hb]
        rfl

theorem splitNl_parts : ∀ {s l : Str}, l ∈ splitNl s →
    ∃ a b, s = a ++ (l ++ b) ∧ (b = [] ∨ b.head? = some '\n') := by
  intro s
  induction s with
  | nil =>
    intro l hl
    rcases List.mem_singleton.mp hl with rfl
    exact ⟨[], [], rfl, Or.inl rfl⟩
  | cons c0 r ih =>
    intro l hl
    by_cases hc0 : c0 = '\n'
    · subst hc0
      rw [show splitNl ('\n' :: r) = [] :: splitNl r from rfl] at hl
      rcases List.mem_cons.mp hl with h1 | h1
      · subst h1
        exact ⟨[], '\n' :: r, rfl, Or.inr rfl⟩
      · obtain ⟨a, b, heq, hor⟩ := ih h1
        exact ⟨'\n' :: a, b, by rw [heq]; rfl, hor⟩
    · rw [splitNl_cons_ne hc0] at hl
      cases hr : splitNl r with
      | nil => exact absurd hr (splitNl_ne_nil r)
      | cons k0 ks =>
        rw [hr] at hl
        rcases List.mem_cons.mp hl with h1 | h1
        · subst h1
          obtain ⟨b, hb, hor⟩ := splitNl_head_decomp hr
          exact ⟨[], b, by rw [hb]; rfl, hor⟩
        · obtain ⟨a, b, heq, hor⟩ := ih (hr ▸ List.mem_cons_of_mem k0 h1)
          exact ⟨c0 :: a, b, by rw [heq]; rfl, hor⟩

theorem splitNN_single (a : Char) : splitNN [a] = [[a]] := by
  rw [splitNN.eq_def]
  split
  · rename_i heq
    injection heq with _ h2
    cases h2
  · rename_i c' r' heq
    injection heq with h1 h2
    subst h1
    subst h2
    rfl
  · rename_i heq
    cases heq

theorem splitNN_cons2_ne {a a2 : Char} {r : Str} (h : ¬ (a = '\n' ∧ a2 = '\n')) :
    splitNN (a :: a2 :: r) =
      match splitNN (a2 :: r) with
      | l :: ls => (a :: l) :: ls
      | [] => [[a]] := by
  rw [splitNN.eq_def]
  split
  · rename_i heq
    exfalso
    injection heq with h1 h2
    injection h2 with h2a _
    exact h ⟨h1.symm ▸ rfl, h2a.symm ▸ rfl⟩
  · rename_i c' r' heq
    injection heq with h1 h2
    subst h1
    subst h2
    rfl
  · rename_i heq
    cases heq

theorem splitNN_head_decomp : ∀ {s h0 : Str} {t0 : List Str}, splitNN s = h0 :: t0 →
    ∃ b, s = h0 ++ b ∧ (b = [] ∨ b.head? = some '\n') := by
  intro s
  match s with
  | [] =>
    intro h0 t0 h
    injection h with h1 h2
    exact ⟨[], by rw [← h1]; rfl, Or.inl rfl⟩
  | '\n' :: '\n' :: r =>
    intro h0 t0 h
    rw [show splitNN ('\n' :: '\n' :: r) = [] :: splitNN r from rfl] at h
    injection h with h1 h2
    exact ⟨'\n' :: '\n' :: r, by rw [← h1]; rfl, Or.inr rfl⟩
  | [a] =>
    intro h0 t0 h
    rw [splitNN_single a] at h
    injection h with h1 h2
    exact ⟨[], by rw [← h1]; rfl, Or.inl rfl⟩
  | a :: a2 :: r =>
    intro h0 t0 h
    by_cases haa : a = '\n' ∧ a2 = '\n'
    · rcases haa with ⟨rfl, rfl⟩
      rw [show splitNN ('\n' :: '\n' :: r) = [] :: splitNN r from rfl] at h
      injection h with h1 h2
      exact ⟨'\n' :: '\n' :: r, by rw [← h1]; rfl, Or.inr rfl⟩
    · rw [splitNN_cons2_ne haa] at h
      cases hr : splitNN (a2 :: r) with
      | nil => exact absurd hr (splitNN_ne_nil (a2 :: r))
      | cons k0 ks =>
        rw [hr] at h
        injection h with h1 h2
        obtain ⟨b, hb, hor⟩ := splitNN_head_decomp hr
        refine ⟨b, ?_, hor⟩
        rw [← h1, hb]
        rfl
termination_by s => s.length
decreasing_by all_goals (simp <;> omega)

theorem splitNN_parts : ∀ {s l : Str}, l ∈ splitNN s →
    ∃ a b, s = a ++ (l ++ b) ∧ (b = [] ∨ b.head? = some '\n') := by
  intro s
  match s with
  | [] =>
    intro l hl
    rcases List.mem_singleton.mp hl with rfl
    exact ⟨[], [], rfl, Or.inl rfl⟩
  | '\n' :: '\n' :: r =>
    intro l hl
    rw [show splitNN ('\n' :: '\n' :: r) = [] :: splitNN r from rfl] at hl
    rcases List.mem_cons.mp hl with h1 | h1
    · subst h1
      exact ⟨[], '\n' :: '\n' :: r, rfl, Or.inr rfl⟩
    · obtain ⟨a, b, heq, hor⟩ := splitNN_parts h1
      exact ⟨'\n' :: '\n' :: a, b, by rw [heq]; rfl, hor⟩
  | [a0] =>
    intro l hl
    rw [splitNN_single a0] at hl
    rcases List.mem_singleton.mp hl with rfl
    exact ⟨[], [], rfl, Or.inl rfl⟩
  | a :: a2 :: r =>
    intro l hl
    by_cases haa : a = '\n' ∧ a2 = '\n'
    · rcases haa with ⟨rfl, rfl⟩
      rw [show splitNN ('\n' :: '\n' :: r) = [] :: splitNN r from rfl] at hl
      rcases List.mem_cons.mp hl with h1 | h1
      · subst h1
        exact ⟨[], '\n' :: '\n' :: r, rfl, Or.inr rfl⟩
      · obtain ⟨a', b, heq, hor⟩ := splitNN_parts h1
        exact ⟨'\n' :: '\n' :: a', b, by rw [heq]; rfl, hor⟩
    · rw [splitNN_cons2_ne haa] at hl
      cases hr : splitNN (a2 :: r) with
      | nil => exact absurd hr (splitNN_ne_nil (a2 :: r))
      | cons k0 ks =>
        rw [hr] at hl
        rcases List.mem_cons.mp hl with h1 | h1
        · subst h1
          obtain ⟨b, hb, hor⟩ := splitNN_head_decomp hr
          exact ⟨[], b, by rw [hb]; rfl, hor⟩
        · obtain ⟨a', b, heq, hor⟩ := splitNN_parts (hr ▸ List.mem_cons_of_mem k0 h1)
          exact ⟨a :: a', b, by rw [heq]; rfl, hor⟩
termination_by s => s.length
decreasing_by all_goals (simp <;> omega)

theorem splitPipe_cons_ne {c : Char} {r : Str} (hc : ¬ c = '|') :
    splitPipe (c :: r) =
      match splitPipe r with
      | l :: ls => (c :: l) :: ls
      | [] => [[c]] := by
  rw [splitPipe.eq_def]
  split
  · rename_i heq
    cases heq
  · rename_i heq
    injection heq with h1 h2
    exact absurd h1 hc
  · rename_i c' r' heq
    injection heq with h1 h2
    subst h1
    subst h2
    rfl

theorem splitPipe_head_decomp : ∀ {s h0 : Str} {t0 : List Str}, splitPipe s = h0 :: t0 →
    ∃ b, s = h0 ++ b ∧ (b = [] ∨ b.head? = some '|') := by
  intro s
  induction s with
  | nil =>
    intro h0 t0 h
    injection h with h1 h2
    exact ⟨[], by rw [← h1]; rfl, Or.inl rfl⟩
  | cons a r ih =>
    intro h0 t0 h
    by_cases ha : a = '|'
    · subst ha
      rw [show splitPipe ('|' :: r) = [] :: splitPipe r from rfl] at h
      injection h with h1 h2
      exact ⟨'|' :: r, by rw [← h1]; rfl, Or.inr rfl⟩
    · rw [splitPipe_cons_ne ha] at h
      cases hr : splitPipe r with
      | nil => exact absurd hr (splitPipe_ne_nil r)
      | cons k0 ks =>
        rw [hr] at h
        injection h with h1 h2
        obtain ⟨b, hb, hor⟩ := ih hr
        refine ⟨b, ?_, hor⟩
        rw [← h1, hb]
        rfl

theorem splitPipe_parts : ∀ {s l : Str}, l ∈ splitPipe s →
    ∃ a b, s = a ++ (l ++ b) ∧ (b = [] ∨ b.head? = some '|') := by
  intro s
  induction s with
  | nil =>
    intro l hl
    rcases List.mem_singleton.mp hl with rfl
    exact ⟨[], [], rfl, Or.inl rfl⟩
  | cons c0 r ih =>
    intro l hl
    by_cases hc0 : c0 = '|'
    · subst hc0
      rw [show splitPipe ('|' :: r) = [] :: splitPipe r from rfl] at hl
      rcases List.mem_cons.mp hl with h1 | h1
      · subst h1
        exact ⟨[], '|' :: r, rfl, Or.inr rfl⟩
      · obtain ⟨a, b, heq, hor⟩ := ih h1
        exact ⟨'|' :: a, b, by rw [heq]; rfl, hor⟩
    · rw [splitPipe_cons_ne hc0] at hl
      cases hr : splitPipe r with
      | nil => exact absurd hr (splitPipe_ne_nil r)
      | cons k0 ks =>
        rw [hr] at hl
        rcases List.mem_cons.mp hl with h1 | h1
        · subst h1
          obtain ⟨b, hb, hor⟩ := splitPipe_head_decomp hr
          exact ⟨[], b, by rw [hb]; rfl, hor⟩
        · obtain ⟨a, b, heq, hor⟩ := ih (hr ▸ List.mem_cons_of_mem k0 h1)
          exact ⟨c0 :: a, b, by rw [heq]; rfl, hor⟩

theorem ltOkB_parts {a l b : Str} (h : ltOkB (a ++ (l ++ b)) = true)
    (hb : b = [] ∨ b.head? = some '\n' ∨ b.head? = some '|') : ltOkB l = true := by
  have h2 : ltOkB (l ++ b) = true := ltOkB_of_append_right h
  rcases hb with rfl | hb'
  · rw [List.append_nil] at h2
    exact h2
  · refine ltOkB_of_append_left h2 ?_
    intro d hd p hp hmem
    rcases hb' with hb' | hb'
    · rw [hb'] at hd
      injection hd with hd
      subst hd
      exact (pTags_chars p hp _ hmem).2.1 rfl
    · rw [hb'] at hd
      injection hd with hd
      subst hd
      exact (pTags_chars p hp _ hmem).2.2 rfl

theorem ltOkB_mem_splitNl {s l : Str} (hs : ltOkB s = true) (hl : l ∈ splitNl s) :
    ltOkB l = true := by
  obtain ⟨a, b, heq, hor⟩ := splitNl_parts hl
  refine ltOkB_parts (heq ▸ hs) ?_
  rcases hor with h1 | h1
  · exact Or.inl h1
  · exact Or.inr (Or.inl h1)

theorem ltOkB_mem_splitNN {s l : Str} (hs : ltOkB s = true) (hl : l ∈ splitNN s) :
    ltOkB l = true := by
  obtain ⟨a, b, heq, hor⟩ := splitNN_parts hl
  refine ltOkB_parts (heq ▸ hs) ?_
  rcases hor with h1 | h1
  · exact Or.inl h1
  · exact Or.inr (Or.inl h1)

theorem ltOkB_mem_splitPipe {s l : Str} (hs : ltOkB s = true) (hl : l ∈ splitPipe s) :
    ltOkB l = true := by
  obtain ⟨a, b, heq, hor⟩ := splitPipe_parts hl
  refine ltOkB_parts (heq ▸ hs) ?_
  rcases hor with h1 | h1
  · exact Or.inl h1
  · exact Or.inr (Or.inr h1)

/-! ### `ltOkB` through the blockquote and table passes -/

theorem ltOkB_bqContent {l cnt : Str} (h : bqContent l = some cnt)
    (hl : ltOkB l = true) : ltOkB cnt = true := by
  unfold bqContent at h
  split at h
  case isTrue =>
    split at h
    case h_1 c0 r heq =>
      have hdrop : ltOkB (l.drop 4) = true := ltOkB_drop hl 4
      rw [heq] at hdrop
      split at h
      case isTrue =>
        cases h
        exact ltOkB_tail hdrop
      case isFalse =>
        cases h
        exact hdrop
    case h_2 heq =>
      cases h
      rfl
  case isFalse => cases h

theorem ltOkB_flushBq {acc : List Str} (h : ∀ a ∈ acc, ltOkB a = true) :
    ∀ l ∈ flushBq acc, ltOkB l = true := by
  intro l hl
  unfold flushBq at hl
  split at hl
  · cases hl
  · rcases List.mem_singleton.mp hl with rfl
    refine ltOkB_append (ltOkB_append ?_ (ltOkB_joinNl h)) ?_
    · decide
    · decide

theorem ltOkB_bqLoop : ∀ {ls acc : List Str}, (∀ x ∈ ls, ltOkB x = true) →
    (∀ a ∈ acc, ltOkB a = true) → ∀ l ∈ bqLoop ls acc, ltOkB l = true := by
  intro ls
  induction ls with
  | nil =>
    intro acc _ hacc l hl
    exact ltOkB_flushBq hacc l hl
  | cons l0 rest ih =>
    intro acc hls hacc l hl
    cases hb : bqContent l0 with
    | some cnt =>
      rw [show bqLoop (l0 :: rest) acc = bqLoop rest (acc ++ [cnt]) from by
        simp [bqLoop, hb]] at hl
      refine ih (fun x hx => hls x (List.mem_cons_of_mem _ hx)) ?_ l hl
      intro a ha
      rcases List.mem_append.mp ha with ha' | ha'
      · exact hacc a ha'
      · rcases List.mem_singleton.mp ha' with rfl
        exact ltOkB_bqContent hb (hls l0 (List.mem_cons_self _ _))
    | none =>
      rw [show bqLoop (l0 :: rest) acc = flushBq acc ++ l0 :: bqLoop rest []
          from by simp [bqLoop, hb]] at hl
      rcases List.mem_append.mp hl with hl' | hl'
      · exact ltOkB_flushBq hacc l hl'
      · rcases List.mem_cons.mp hl' with hl'' | hl''
        · exact hl'' ▸ hls l0 (List.mem_cons_self _ _)
        · exact ih (fun x hx => hls x (List.mem_cons_of_mem _ hx))
            (fun a ha => absurd ha (List.not_mem_nil a)) l hl''

theorem ltOkB_parseBlockquotes {s : Str} (h : ltOkB s = true) :
    ltOkB (parseBlockquotes s) = true := by
  unfold parseBlockquotes
  refine ltOkB_joinNl ?_
  intro l hl
  exact ltOkB_bqLoop (fun x hx => ltOkB_mem_splitNl h hx) (fun a ha => absurd ha (List.not_mem_nil a)) l hl

theorem ltOkB_dropLeadPipe {t : Str} (h : ltOkB t = true) :
    ltOkB (dropLeadPipe t) = true := by
  unfold dropLeadPipe
  split
  · exact ltOkB_tail h
  · exact h

theorem getLast_decomp : ∀ {t : Str} {x : Char}, t.getLast? = some x →
    t = t.dropLast ++ [x] := by
  intro t
  induction t with
  | nil => intro x h; cases h
  | cons a r ih =>
    intro x h
    cases r with
    | nil =>
      rw [show ([a] : Str).getLast? = some a from rfl] at h
      injection h with h'
      subst h'
      rfl
    | cons b rr =>
      rw [show (a :: b :: rr).getLast? = (b :: rr).getLast? from rfl] at h
      rw [show (a :: b :: rr).dropLast = a :: (b :: rr).dropLast from rfl]
      rw [List.cons_append, ← ih h]

theorem ltOkB_dropTrailPipe {t : Str} (h : ltOkB t = true) :
    ltOkB (dropTrailPipe t) = true := by
  unfold dropTrailPipe
  split
  case isTrue hlast =>
    have h1 : t.getLast? = some '|' := by simpa using hlast
    refine ltOkB_parts (a := []) (b := ['|']) ?_ (Or.inr (Or.inr rfl))
    rw [List.nil_append, ← getLast_decomp h1]
    exact h
  case isFalse => exact h

theorem ltOkB_parseTableRow {l cell : Str} (hl : ltOkB l = true)
    (hc : cell ∈ parseTableRow l) : ltOkB cell = true := by
  unfold parseTableRow at hc
  exact ltOkB_mem_splitPipe (ltOkB_dropTrailPipe (ltOkB_dropLeadPipe (ltOkB_jsTrim hl))) hc

theorem no_lt_alignOf {cell : Str} : ¬ '<' ∈ alignOf cell := by
  intro h
  have := mem_alignOf h
  revert this
  decide

theorem ltOkB_alignAttr (aligns : List Str) (idx : Nat)
    (ha : ∀ a ∈ aligns, ¬ '<' ∈ a) : ltOkB (alignAttr aligns idx) = true := by
  refine ltOkB_of_no_lt ?_
  intro c hc hceq
  subst hceq
  unfold alignAttr at hc
  split at hc
  case h_1 a heq =>
    split at hc
    · cases hc
    · simp only [List.append_assoc] at hc
      rcases List.mem_append.mp hc with h1 | hc
      · revert h1; decide
      rcases List.mem_append.mp hc with h1 | hc
      · exact ha a (List.get?_mem heq) h1
      · revert hc; decide
  case h_2 => cases hc

theorem ltOkB_cellsHtml {tag : Str} {aligns : List Str}
    (htag : tag = str "th" ∨ tag = str "td")
    (ha : ∀ a ∈ aligns, ¬ '<' ∈ a) :
    ∀ {cells : List Str} {idx : Nat}, (∀ x ∈ cells, ltOkB x = true) →
      ltOkB (cellsHtml tag aligns idx cells) = true := by
  intro cells
  induction cells with
  | nil => intro idx _; rfl
  | cons c0 rest ih =>
    intro idx hcells
    rw [show cellsHtml tag aligns idx (c0 :: rest) =
        '<' :: tag ++ alignAttr aligns idx ++ '>' :: jsTrim c0 ++
          '<' :: '/' :: tag ++ '>' :: cellsHtml tag aligns (idx + 1) rest from rfl]
    refine ltOkB_append (ltOkB_append (ltOkB_append (ltOkB_append ?_
      (ltOkB_alignAttr aligns idx ha)) ?_) ?_) ?_
    · rcases htag with rfl | rfl
      · decide
      · decide
    · rw [ltOkB_cons_ne (by decide)]
      exact ltOkB_jsTrim (hcells c0 (List.mem_cons_self _ _))
    · rcases htag with rfl | rfl
      · decide
      · decide
    · rw [ltOkB_cons_ne (by decide)]
      exact ih (fun x hx => hcells x (List.mem_cons_of_mem _ hx))

theorem ltOkB_rowHtml {aligns : List Str} {r : Str}
    (ha : ∀ a ∈ aligns, ¬ '<' ∈ a) (hr : ltOkB r = true) :
    ltOkB (rowHtml aligns r) = true := by
  unfold rowHtml
  refine ltOkB_append (ltOkB_append (by decide) ?_) (by decide)
  refine ltOkB_cellsHtml (Or.inr rfl) ha ?_
  intro x hx
  exact ltOkB_parseTableRow hr hx

theorem ltOkB_flatten : ∀ {ls : List Str}, (∀ l ∈ ls, ltOkB l = true) →
    ltOkB ls.flatten = true := by
  intro ls
  induction ls with
  | nil => intro _; rfl
  | cons l rest ih =>
    intro h
    rw [List.flatten_cons]
    exact ltOkB_append (h l (List.mem_cons_self _ _))
      (ih (fun x hx => h x (List.mem_cons_of_mem _ hx)))

theorem ltOkB_tableHtml {header aligns rows : List Str}
    (hh : ∀ x ∈ header, ltOkB x = true)
    (ha : ∀ a ∈ aligns, ¬ '<' ∈ a)
    (hr : ∀ r ∈ rows, ltOkB r = true) :
    ltOkB (tableHtml header aligns rows) = true := by
  unfold tableHtml
  refine ltOkB_append (ltOkB_append (ltOkB_append (ltOkB_append (by decide)
    (ltOkB_cellsHtml (Or.inl rfl) ha hh)) (by decide)) ?_) (by decide)
  refine ltOkB_flatten ?_
  intro l hl
  rcases List.mem_map.mp hl with ⟨r, hrm, rfl⟩
  exact ltOkB_rowHtml ha (hr r hrm)

theorem ltOkB_tableLoop : ∀ {fuel : Nat} {ls out : List Str},
    tableLoop fuel ls = some out → (∀ x ∈ ls, ltOkB x = true) →
      ∀ l ∈ out, ltOkB l = true := by
  intro fuel
  induction fuel with
  | zero =>
    intro ls out h hls l hl
    cases ls with
    | nil =>
      injection h with h'
      rw [← h'] at hl
      cases hl
    | cons l0 rest => cases h
  | succ n ih =>
    intro ls out h hls l hl
    cases ls with
    | nil =>
      injection h with h'
      rw [← h'] at hl
      cases hl
    | cons l0 rest =>
      cases rest with
      | nil =>
        have hempty : tableLoop n ([] : List Str) = some [] := by
          cases n <;> rfl
        simp only [tableLoop, hempty] at h
        injection h with h'
        rw [← h'] at hl
        rcases List.mem_cons.mp hl with h1 | h1
        · exact h1 ▸ hls l0 (List.mem_cons_self _ _)
        · cases h1
      | cons l1 rest2 =>
        by_cases hsep : (isRowLine l0 && isSepLine l1) = true
        · simp only [tableLoop, hsep, if_pos] at h
          cases hrec : tableLoop n (consumeRows rest2).2 with
          | none => rw [hrec] at h; cases h
          | some t =>
            rw [hrec] at h
            injection h with h'
            rw [← h'] at hl
            have hrest2 : ∀ x ∈ rest2, ltOkB x = true := fun x hx =>
              hls x (List.mem_cons_of_mem _ (List.mem_cons_of_mem _ hx))
            rcases List.mem_cons.mp hl with h1 | h1
            · subst h1
              refine ltOkB_tableHtml ?_ ?_ ?_
              · intro x hx
                exact ltOkB_parseTableRow (hls l0 (List.mem_cons_self _ _)) hx
              · intro a haa hlt
                unfold parseTableAligns at haa
                rcases List.mem_map.mp haa with ⟨cell, _, rfl⟩
                exact no_lt_alignOf hlt
              · intro r hrm
                exact hrest2 r ((consumeRows_sub rest2).1 r hrm)
            · exact ih hrec (fun x hx => hrest2 x ((consumeRows_sub rest2).2 x hx)) l h1
        · simp only [tableLoop, hsep, if_neg] at h
          cases hrec : tableLoop n (l1 :: rest2) with
          | none => rw [hrec] at h; cases h
          | some t =>
            rw [hrec] at h
            injection h with h'
            rw [← h'] at hl
            rcases List.mem_cons.mp hl with h1 | h1
            · exact h1 ▸ hls l0 (List.mem_cons_self _ _)
            · exact ih hrec (fun x hx => hls x (List.mem_cons_of_mem _ hx)) l h1

theorem ltOkB_parseTables {s out : Str} (h : parseTables s = some out)
    (hs : ltOkB s = true) : ltOkB out = true := by
  unfold parseTables at h
  cases htl : tableLoop (splitNl s).length (splitNl s) with
  | none => rw [htl] at h; cases h
  | some ls2 =>
    rw [htl] at h
    injection h with h'
    rw [← h']
    refine ltOkB_joinNl ?_
    intro l hl
    exact ltOkB_tableLoop htl (fun x hx => ltOkB_mem_splitNl hs hx) l hl

/-! ### `ltOkB` through the anchored scanning passes (hr, headings) -/

theorem scanRep_copy_pfx {m : Matcher Str} (hanch : ∀ u, m false u = none) :
    ∀ (q : Str), (∀ x ∈ q, ¬ x = '\n') →
      ∀ {fuel : Nat} {s out : Str}, pfx q s = true →
        scanRep m fuel false s = some out → pfx q out = true := by
  intro q
  induction q with
  | nil => intro _ fuel s out _ _; rfl
  | cons a qs ih =>
    intro hq fuel s out hpfx h
    cases s with
    | nil => simp [pfx] at hpfx
    | cons c0 cs =>
      have ha : a = c0 ∧ pfx qs cs = true := by
        simpa [pfx] using hpfx
      cases fuel with
      | zero => cases h
      | succ n =>
        simp only [scanRep, hanch (c0 :: cs)] at h
        cases ht : scanRep m n (c0 == '\n') cs with
        | none => rw [ht] at h; cases h
        | some t =>
          rw [ht] at h
          injection h with h'
          rw [← h']
          have hc0 : (c0 == '\n') = false := by
            have hnl := hq a (List.mem_cons_self _ _)
            rw [ha.1] at hnl
            simpa using hnl
          rw [hc0] at ht
          have hres := ih (fun x hx => hq x (List.mem_cons_of_mem _ hx)) ha.2 ht
          simp [pfx, ha.1, hres]

theorem scanRep_ltOkB {m : Matcher Str}
    (hanch : ∀ u, m false u = none)
    (hm : ∀ a u r, m a u = some r → ltOkB u = true →
      ltOkB r.payload = true ∧ ltOkB r.rest = true) :
    ∀ {fuel : Nat} {a : Bool} {s out : Str}, scanRep m fuel a s = some out →
      ltOkB s = true → ltOkB out = true := by
  intro fuel
  induction fuel with
  | zero =>
    intro a s out h hs
    cases s with
    | nil =>
      injection h with h'
      rw [← h']
      rfl
    | cons c0 cs => cases h
  | succ n ih =>
    intro a s out h hs
    cases s with
    | nil =>
      injection h with h'
      rw [← h']
      rfl
    | cons c0 cs =>
      cases hm0 : m a (c0 :: cs) with
      | some r =>
        simp only [scanRep, hm0] at h
        cases ht : scanRep m n r.nlEnd r.rest with
        | none => rw [ht] at h; cases h
        | some t =>
          rw [ht] at h
          injection h with h'
          rw [← h']
          obtain ⟨hp, hr⟩ := hm _ _ _ hm0 hs
          exact ltOkB_append hp (ih ht hr)
      | none =>
        simp only [scanRep, hm0] at h
        cases ht : scanRep m n (c0 == '\n') cs with
        | none => rw [ht] at h; cases h
        | some t =>
          rw [ht] at h
          injection h with h'
          rw [← h']
          have hcs : ltOkB cs = true := ltOkB_tail hs
          have hout : ltOkB t = true := ih ht hcs
          by_cases hc0 : c0 = '<'
          · subst hc0
            have hany : PTags.any (fun p => pfx p ('<' :: cs)) = true := by
              have hs' := hs
              simp only [ltOkB, Bool.and_eq_true] at hs'
              simpa using hs'.1
            rcases List.any_eq_true.mp hany with ⟨p, hp, hpfx⟩
            cases p with
            | nil =>
              have hfin : (PTags.any fun p => pfx p ('<' :: t)) = true :=
                List.any_eq_true.mpr ⟨[], hp, rfl⟩
              simp [ltOkB, hout, hfin]
            | cons p0 ps =>
              have hsplit : p0 = '<' ∧ pfx ps cs = true := by
                simpa [pfx] using hpfx
              have hflag : (('<' : Char) == '\n') = false := by decide
              rw [hflag] at ht
              have hqnl : ∀ x ∈ ps, ¬ x = '\n' := fun x hx =>
                (pTags_chars (p0 :: ps) hp x (List.mem_cons_of_mem _ hx)).2.1
              have hpt : pfx ps t = true := scanRep_copy_pfx hanch ps hqnl hsplit.2 ht
              have hfin : (PTags.any fun p => pfx p ('<' :: t)) = true := by
                refine List.any_eq_true.mpr ⟨p0 :: ps, hp, ?_⟩
                simp [pfx, hsplit.1, hpt]
              simp [ltOkB, hout, hfin]
          · rw [ltOkB_cons_ne hc0]
            exact hout

theorem hrTail_ltOkB {w afterW : Str} {q : Str × Bool} (h : hrTail w afterW = some q)
    (hw : ∀ x ∈ w, jsWs x = true) (ha : ltOkB afterW = true) : ltOkB q.1 = true := by
  unfold hrTail at h
  split at h
  case isTrue =>
    cases h
    rfl
  case isFalse =>
    split at h
    case isTrue => cases h
    case isFalse =>
      cases h
      dsimp only
      refine ltOkB_append ?_ ha
      refine ltOkB_of_no_lt ?_
      intro c hc hceq
      subst hceq
      have hws := hw '<' (mem_of_drop hc)
      revert hws
      decide

theorem mHr_ltOkB {a : Bool} {u : Str} {r : MRes Str} (h : mHr a u = some r)
    (hu : ltOkB u = true) : ltOkB r.payload = true ∧ ltOkB r.rest = true := by
  unfold mHr at h
  split at h
  case isTrue => cases h
  case isFalse =>
    split at h
    case isTrue =>
      split at h
      case h_1 q hq =>
        cases h
        dsimp only
        constructor
        · decide
        · refine hrTail_ltOkB hq (fun x hx => mem_takeWhile_pred hx) ?_
          exact ltOkB_dropWhile (ltOkB_drop hu 3)
      case h_2 => cases h
    case isFalse => cases h

theorem headTail_ltOkB {w afterW : Str} {q : Str × Str} (h : headTail w afterW = some q)
    (hw : ∀ x ∈ w, jsWs x = true) (ha : ltOkB afterW = true) :
    ltOkB q.1 = true ∧ ltOkB q.2 = true := by
  unfold headTail at h
  split at h
  case h_1 a l =>
    cases h
    dsimp only
    exact ⟨ltOkB_takeWhile_not_nl ha, ltOkB_dropWhile ha⟩
  case h_2 =>
    split at h
    case h_1 => cases h
    case h_2 => cases h
    case h_3 lastC b rest heq =>
      cases h
      dsimp only
      constructor
      · refine ltOkB_of_no_lt ?_
        intro c hc hceq
        subst hceq
        rcases List.mem_singleton.mp hc with rfl
        have hlc : '<' ∈ w.reverse.dropWhile (fun x => x == '\n') := by
          rw [heq]
          exact List.mem_cons_self _ _
        have hws := hw '<' (List.mem_reverse.mp (mem_of_dropWhile hlc))
        revert hws
        decide
      · refine ltOkB_of_no_lt ?_
        intro c hc hceq
        subst hceq
        rw [List.mem_reverse] at hc
        have hws := hw '<' (List.mem_reverse.mp (mem_of_takeWhile hc))
        revert hws
        decide

theorem mHeading_ltOkB {n : Nat} {a : Bool} {u : Str} {r : MRes Str}
    (hn : ltOkB (str "<h" ++ natDigits n ++ str ">") = true ∧
          ltOkB (str "</h" ++ natDigits n ++ str ">") = true)
    (h : mHeading n a u = some r) (hu : ltOkB u = true) :
    ltOkB r.payload = true ∧ ltOkB r.rest = true := by
  unfold mHeading at h
  split at h
  case isTrue => cases h
  case isFalse =>
    split at h
    case isTrue hp =>
      split at h
      case isTrue => cases h
      case isFalse hw =>
        split at h
        case h_1 q hq =>
          cases h
          dsimp only
          obtain ⟨h1, h2⟩ := headTail_ltOkB hq (fun x hx => mem_takeWhile_pred hx)
            (ltOkB_dropWhile (ltOkB_drop hu n))
          constructor
          · have hre : str "<h" ++ natDigits n ++ str ">" ++ q.1 ++ str "</h" ++
                natDigits n ++ str ">" =
                (str "<h" ++ natDigits n ++ str ">") ++
                  (q.1 ++ (str "</h" ++ natDigits n ++ str ">")) := by
              simp [List.append_assoc]
            rw [hre]
            exact ltOkB_append hn.1 (ltOkB_append h1 hn.2)
          · exact h2
        case h_2 => cases h
    case isFalse => cases h

theorem parseHorizontalRules_ltOkB {s out : Str} (h : parseHorizontalRules s = some out)
    (hs : ltOkB s = true) : ltOkB out = true :=
  scanRep_ltOkB (fun _ => rfl) (fun _ _ _ h' hu => mHr_ltOkB h' hu) h hs

theorem parseHeadings_ltOkB {s out : Str} (h : parseHeadings s = some out)
    (hs : ltOkB s = true) : ltOkB out = true := by
  have key : ∀ (n : Nat), (ltOkB (str "<h" ++ natDigits n ++ str ">") = true ∧
      ltOkB (str "</h" ++ natDigits n ++ str ">") = true) →
      ∀ (x y : Str), scanRep (mHeading n) x.length true x = some y →
        ltOkB x = true → ltOkB y = true := by
    intro n hn x y hxy hx
    exact scanRep_ltOkB (fun _ => rfl) (fun _ _ _ h' hu => mHeading_ltOkB hn h' hu) hxy hx
  unfold parseHeadings at h
  cases h6 : scanRep (mHeading 6) s.length true s with
  | none => rw [h6] at h; cases h
  | some a =>
    rw [h6] at h
    simp only [Option.bind] at h
    have ha := key 6 (by decide) s a h6 hs
    cases h5 : scanRep (mHeading 5) a.length true a with
    | none => rw [h5] at h; cases h
    | some b =>
      rw [h5] at h
      simp only [Option.bind] at h
      have hb := key 5 (by decide) a b h5 ha
      cases h4 : scanRep (mHeading 4) b.length true b with
      | none => rw [h4] at h; cases h
      | some d =>
        rw [h4] at h
        simp only [Option.bind] at h
        have hd := key 4 (by decide) b d h4 hb
        cases h3 : scanRep (mHeading 3) d.length true d with
        | none => rw [h3] at h; cases h
        | some e =>
          rw [h3] at h
          simp only [Option.bind] at h
          have he := key 3 (by decide) d e h3 hd
          cases h2 : scanRep (mHeading 2) e.length true e with
          | none => rw [h2] at h; cases h
          | some g =>
            rw [h2] at h
            simp only [Option.bind] at h
            have hg := key 2 (by decide) e g h2 he
            exact key 1 (by decide) g out h hg

/-! ### `ltOkB` through the list pass -/

theorem lineItem_content_ltOkB {l : Str} {it : LItem} (h : lineItem l = some it)
    (hl : ltOkB l = true) : ltOkB it.content = true := by
  simp only [lineItem] at h
  split at h
  case h_1 it1 heq1 =>
    injection h with h'
    subst h'
    split at heq1
    case h_1 r1 heqr =>
      have hr1 : ltOkB r1 = true := by
        have := ltOkB_dropWhile (q := jsWs) hl
        rw [heqr] at this
        exact ltOkB_tail this
      split at heq1
      case isTrue => cases heq1
      case isFalse =>
        split at heq1
        case h_1 m r2 heqr2 =>
          split at heq1
          case isTrue =>
            split at heq1
            case isTrue => cases heq1
            case isFalse =>
              injection heq1 with h''
              subst h''
              dsimp only
              have hr2 : ltOkB r2 = true := by
                have := ltOkB_dropWhile (q := jsWs) hr1
                rw [heqr2] at this
                exact ltOkB_tail (ltOkB_tail (ltOkB_tail this))
              exact ltOkB_dropWhile hr2
          case isFalse => cases heq1
        case h_2 => cases heq1
    case h_2 => cases heq1
  case h_2 heq1 =>
    split at h
    case h_1 it1 heq2 =>
      injection h with h'
      subst h'
      split at heq2
      case h_1 m r1 heqr =>
        split at heq2
        case isTrue =>
          split at heq2
          case isTrue => cases heq2
          case isFalse =>
            injection heq2 with h''
            subst h''
            dsimp only
            have hr1 : ltOkB r1 = true := by
              have := ltOkB_dropWhile (q := jsWs) hl
              rw [heqr] at this
              exact ltOkB_tail this
            exact ltOkB_dropWhile hr1
        case isFalse => cases heq2
      case h_2 => cases heq2
    case h_2 heq2 =>
      split at h
      case isTrue => cases h
      case isFalse =>
        split at h
        case h_1 r2 heqr =>
          split at h
          case isTrue => cases h
          case isFalse =>
            injection h with h'
            subst h'
            dsimp only
            have hr2 : ltOkB r2 = true := by
              have := ltOkB_dropWhile (q := jsDigit) (ltOkB_dropWhile (q := jsWs) hl)
              rw [heqr] at this
              exact ltOkB_tail this
            exact ltOkB_dropWhile hr2
        case h_2 => cases h

theorem ltOkB_closeTag (t : LType) : ltOkB (closeTag t) = true := by
  cases t
  · decide
  · decide

theorem ltOkB_openTag (t : LType) : ltOkB (openTag t) = true := by
  cases t
  · decide
  · decide

theorem ltOkB_popGe {indent : Nat} : ∀ {st : List (Nat × LType)},
    ltOkB (popGe indent st).1 = true := by
  intro st
  induction st with
  | nil => rfl
  | cons p rest ih =>
    obtain ⟨i, t⟩ := p
    have hstep : popGe indent ((i, t) :: rest) =
        if (i ≥ indent && i ≠ indent) = true then
          (closeTag t ++ (popGe indent rest).1, (popGe indent rest).2)
        else ([], (i, t) :: rest) := rfl
    by_cases hcond : (i ≥ indent && i ≠ indent) = true
    · rw [hstep, if_pos hcond]
      exact ltOkB_append (ltOkB_closeTag t) ih
    · rw [hstep, if_neg hcond]
      rfl

theorem ltOkB_closeAll : ∀ {st : List (Nat × LType)}, ltOkB (closeAll st) = true := by
  intro st
  induction st with
  | nil => rfl
  | cons p rest ih =>
    obtain ⟨i, t⟩ := p
    rw [show closeAll ((i, t) :: rest) = closeTag t ++ closeAll rest from rfl]
    exact ltOkB_append (ltOkB_closeTag t) ih

theorem ltOkB_liHtml {it : LItem} (hc : ltOkB it.content = true) :
    ltOkB (liHtml it) = true := by
  unfold liHtml
  split
  case h_1 b heq =>
    refine ltOkB_append (ltOkB_append (ltOkB_append (ltOkB_append (by decide) ?_)
      (by decide)) hc) (by decide)
    split
    · decide
    · decide
  case h_2 =>
    exact ltOkB_append (ltOkB_append (by decide) hc) (by decide)

theorem ltOkB_buildStep {acc : Str × List (Nat × LType)} {it : LItem}
    (hacc : ltOkB acc.1 = true) (hc : ltOkB it.content = true) :
    ltOkB (buildStep acc it).1 = true := by
  simp only [buildStep]
  refine ltOkB_append ?_ (ltOkB_liHtml hc)
  split
  case h_1 =>
    dsimp only
    exact ltOkB_append (ltOkB_append hacc ltOkB_popGe) (ltOkB_openTag _)
  case h_2 i t st =>
    split
    · dsimp only
      exact ltOkB_append (ltOkB_append hacc ltOkB_popGe) (ltOkB_openTag _)
    · split
      · dsimp only
        exact ltOkB_append (ltOkB_append (ltOkB_append hacc ltOkB_popGe)
          (ltOkB_closeTag _)) (ltOkB_openTag _)
      · dsimp only
        exact ltOkB_append hacc ltOkB_popGe

theorem ltOkB_buildFold : ∀ {items : List LItem} {acc : Str × List (Nat × LType)},
    ltOkB acc.1 = true → (∀ it ∈ items, ltOkB it.content = true) →
      ltOkB (items.foldl buildStep acc).1 = true := by
  intro items
  induction items with
  | nil => intro acc h _; exact h
  | cons it rest ih =>
    intro acc hacc hits
    rw [List.foldl_cons]
    refine ih ?_ (fun x hx => hits x (List.mem_cons_of_mem _ hx))
    exact ltOkB_buildStep hacc (hits it (List.mem_cons_self _ _))

theorem ltOkB_buildList {items : List LItem}
    (hits : ∀ it ∈ items, ltOkB it.content = true) :
    ltOkB (buildList items) = true := by
  simp only [buildList]
  exact ltOkB_append (ltOkB_buildFold rfl hits) ltOkB_closeAll

theorem ltOkB_flushList {items : List LItem}
    (hits : ∀ it ∈ items, ltOkB it.content = true) :
    ∀ l ∈ flushList items, ltOkB l = true := by
  intro l hl
  unfold flushList at hl
  split at hl
  · cases hl
  · rcases List.mem_singleton.mp hl with rfl
    exact ltOkB_buildList hits

theorem ltOkB_listLoop : ∀ {ls : List Str} {acc : List LItem},
    (∀ x ∈ ls, ltOkB x = true) → (∀ it ∈ acc, ltOkB it.content = true) →
      ∀ l ∈ listLoop ls acc, ltOkB l = true := by
  intro ls
  induction ls with
  | nil =>
    intro acc _ hacc l hl
    exact ltOkB_flushList hacc l hl
  | cons l0 rest ih =>
    intro acc hls hacc l hl
    cases hb : lineItem l0 with
    | some it =>
      rw [show listLoop (l0 :: rest) acc = listLoop rest (acc ++ [it]) from by
        simp [listLoop, hb]] at hl
      refine ih (fun x hx => hls x (List.mem_cons_of_mem _ hx)) ?_ l hl
      intro a ha
      rcases List.mem_append.mp ha with ha' | ha'
      · exact hacc a ha'
      · rcases List.mem_singleton.mp ha' with rfl
        exact lineItem_content_ltOkB hb (hls l0 (List.mem_cons_self _ _))
    | none =>
      rw [show listLoop (l0 :: rest) acc = flushList acc ++ l0 :: listLoop rest []
          from by simp [listLoop, hb]] at hl
      rcases List.mem_append.mp hl with hl' | hl'
      · exact ltOkB_flushList hacc l hl'
      · rcases List.mem_cons.mp hl' with hl'' | hl''
        · exact hl'' ▸ hls l0 (List.mem_cons_self _ _)
        · exact ih (fun x hx => hls x (List.mem_cons_of_mem _ hx))
            (fun a ha => absurd ha (List.not_mem_nil a)) l hl''

theorem ltOkB_parseLists {s : Str} (h : ltOkB s = true) :
    ltOkB (parseLists s) = true := by
  unfold parseLists
  refine ltOkB_joinNl ?_
  intro l hl
  exact ltOkB_listLoop (fun x hx => ltOkB_mem_splitNl h hx)
    (fun a ha => absurd ha (List.not_mem_nil a)) l hl

/-! ### Agreement of the two paragraph block tests on `ltOkB` strings -/

theorem any_tags_false1 {tags : List Str} {c0 : Char} (cs' : Str)
    (h : ∀ t ∈ tags, (match t with
        | hd :: _ => hd == asciiLower c0
        | [] => true) = false) :
    tags.any (fun tag => ciPfx tag (c0 :: cs') && wsGtHead ((c0 :: cs').drop tag.length))
      = false := by
  rw [List.any_eq_false]
  intro t ht
  have h1 := h t ht
  cases t with
  | nil => simp at h1
  | cons hd tl =>
    intro habs
    have h2 : ciPfx (hd :: tl) (c0 :: cs') = true := by
      have h3 := habs
      simp only [Bool.and_eq_true] at h3
      exact h3.1
    simp only [ciPfx, Bool.and_eq_true, decide_eq_true_eq] at h2
    simp only [beq_eq_false_iff_ne, ne_eq] at h1
    exact h1 h2.1

theorem any_tags_false2 {tags : List Str} {c0 c1 : Char} (cs' : Str)
    (h : ∀ t ∈ tags, (match t with
        | hd :: hd2 :: _ => hd == asciiLower c0 && hd2 == asciiLower c1
        | _ => true) = false) :
    tags.any (fun tag => ciPfx tag (c0 :: c1 :: cs') &&
      wsGtHead ((c0 :: c1 :: cs').drop tag.length)) = false := by
  rw [List.any_eq_false]
  intro t ht
  have h1 := h t ht
  cases t with
  | nil => simp at h1
  | cons hd tl =>
    cases tl with
    | nil => simp at h1
    | cons hd2 tl2 =>
      intro habs
      have h2 : ciPfx (hd :: hd2 :: tl2) (c0 :: c1 :: cs') = true := by
        have h3 := habs
        simp only [Bool.and_eq_true] at h3
        exact h3.1
      simp only [ciPfx, Bool.and_eq_true, decide_eq_true_eq] at h2
      simp only [Bool.and_eq_false_iff, beq_eq_false_iff_ne, ne_eq] at h1
      rcases h1 with h1 | h1
      · exact h1 h2.1
      · exact h1 h2.2.1

theorem blockTagTest_agree {t : Str} (hlt : ltOkB t = true) :
    blockTagTest paraTagsNew t = blockTagTest paraTagsOld t := by
  cases t with
  | nil => rfl
  | cons c0 cs =>
    by_cases hc0 : c0 = '<'
    · subst hc0
      rw [show blockTagTest paraTagsNew ('<' :: cs) =
          paraTagsNew.any (fun tag => ciPfx tag cs && wsGtHead (cs.drop tag.length))
          from rfl,
        show blockTagTest paraTagsOld ('<' :: cs) =
          paraTagsOld.any (fun tag => ciPfx tag cs && wsGtHead (cs.drop tag.length))
          from rfl]
      rw [show paraTagsNew = paraTagsOld ++ paraExtra from rfl, List.any_append]
      have hany : PTags.any (fun p => pfx p ('<' :: cs)) = true := by
        simp only [ltOkB, Bool.and_eq_true] at hlt
        simpa using hlt.1
      have hext : paraExtra.any
          (fun tag => ciPfx tag cs && wsGtHead (cs.drop tag.length)) = false := by
        rcases List.any_eq_true.mp hany with ⟨p, hp, hpfx⟩
        simp only [PTags, List.mem_cons, List.not_mem_nil, or_false] at hp
        rcases hp with rfl | rfl | rfl | rfl | rfl | rfl | rfl | rfl | rfl | rfl |
          rfl | rfl | rfl | rfl | rfl
        · rw [(by decide : str "<b" = ['<', 'b'])] at hpfx
          cases cs with
          | nil => simp [pfx] at hpfx
          | cons c1 cs' =>
            simp only [pfx, Bool.and_eq_true, decide_eq_true_eq] at hpfx
            obtain ⟨-, h1, -⟩ := hpfx
            subst h1
            exact any_tags_false1 cs' (by decide)
        · rw [(by decide : str "<p" = ['<', 'p'])] at hpfx
          cases cs with
          | nil => simp [pfx] at hpfx
          | cons c1 cs' =>
            simp only [pfx, Bool.and_eq_true, decide_eq_true_eq] at hpfx
            obtain ⟨-, h1, -⟩ := hpfx
            subst h1
            exact any_tags_false1 cs' (by decide)
        · rw [(by decide : str "</" = ['<', '/'])] at hpfx
          cases cs with
          | nil => simp [pfx] at hpfx
          | cons c1 cs' =>
            simp only [pfx, Bool.and_eq_true, decide_eq_true_eq] at hpfx
            obtain ⟨-, h1, -⟩ := hpfx
            subst h1
            exact any_tags_false1 cs' (by decide)
        · rw [(by decide : str "<t" = ['<', 't'])] at hpfx
          cases cs with
          | nil => simp [pfx] at hpfx
          | cons c1 cs' =>
            simp only [pfx, Bool.and_eq_true, decide_eq_true_eq] at hpfx
            obtain ⟨-, h1, -⟩ := hpfx
            subst h1
            exact any_tags_false1 cs' (by decide)
        · rw [(by decide : str "<hr" = ['<', 'h', 'r'])] at hpfx
          cases cs with
          | nil => simp [pfx] at hpfx
          | cons c1 cs2 =>
            cases cs2 with
            | nil => simp [pfx] at hpfx
            | cons c2 cs3 =>
              simp only [pfx, Bool.and_eq_true, decide_eq_true_eq] at hpfx
              obtain ⟨-, h1, h2, -⟩ := hpfx
              subst h1
              subst h2
              exact any_tags_false2 cs3 (by decide)
        · rw [(by decide : str "<h1" = ['<', 'h', '1'])] at hpfx
          cases cs with
          | nil => simp [pfx] at hpfx
          | cons c1 cs2 =>
            cases cs2 with
            | nil => simp [pfx] at hpfx
            | cons c2 cs3 =>
              simp only [pfx, Bool.and_eq_true, decide_eq_true_eq] at hpfx
              obtain ⟨-, h1, h2, -⟩ := hpfx
              subst h1
              subst h2
              exact any_tags_false2 cs3 (by decide)
        · rw [(by decide : str "<h2" = ['<', 'h', '2'])] at hpfx
          cases cs with
          | nil => simp [pfx] at hpfx
          | cons c1 cs2 =>
            cases cs2 with
            | nil => simp [pfx] at hpfx
            | cons c2 cs3 =>
              simp only [pfx, Bool.and_eq_true, decide_eq_true_eq] at hpfx
              obtain ⟨-, h1, h2, -⟩ := hpfx
              subst h1
              subst h2
              exact any_tags_false2 cs3 (by decide)
        · rw [(by decide : str "<h3" = ['<', 'h', '3'])] at hpfx
          cases cs with
          | nil => simp [pfx] at hpfx
          | cons c1 cs2 =>
            cases cs2 with
            | nil => simp [pfx] at hpfx
            | cons c2 cs3 =>
              simp only [pfx, Bool.and_eq_true, decide_eq_true_eq] at hpfx
              obtain ⟨-, h1, h2, -⟩ := hpfx
              subst h1
              subst h2
              exact any_tags_false2 cs3 (by decide)
        · rw [(by decide : str "<h4" = ['<', 'h', '4'])] at hpfx
          cases cs with
          | nil => simp [pfx] at hpfx
          | cons c1 cs2 =>
            cases cs2 with
            | nil => simp [pfx] at hpfx
            | cons c2 cs3 =>
              simp only [pfx, Bool.and_eq_true, decide_eq_true_eq] at hpfx
              obtain ⟨-, h1, h2, -⟩ := hpfx
              subst h1
              subst h2
              exact any_tags_false2 cs3 (by decide)
        · rw [(by decide : str "<h5" = ['<', 'h', '5'])] at hpfx
          cases cs with
          | nil => simp [pfx] at hpfx
          | cons c1 cs2 =>
            cases cs2 with
            | nil => simp [pfx] at hpfx
            | cons c2 cs3 =>
              simp only [pfx, Bool.and_eq_true, decide_eq_true_eq] at hpfx
              obtain ⟨-, h1, h2, -⟩ := hpfx
              subst h1
              subst h2
              exact any_tags_false2 cs3 (by decide)
        · rw [(by decide : str "<h6" = ['<', 'h', '6'])] at hpfx
          cases cs with
          | nil => simp [pfx] at hpfx
          | cons c1 cs2 =>
            cases cs2 with
            | nil => simp [pfx] at hpfx
            | cons c2 cs3 =>
              simp only [pfx, Bool.and_eq_true, decide_eq_true_eq] at hpfx
              obtain ⟨-, h1, h2, -⟩ := hpfx
              subst h1
              subst h2
              exact any_tags_false2 cs3 (by decide)
        · rw [(by decide : str "<u" = ['<', 'u'])] at hpfx
          cases cs with
          | nil => simp [pfx] at hpfx
          | cons c1 cs' =>
            simp only [pfx, Bool.and_eq_true, decide_eq_true_eq] at hpfx
            obtain ⟨-, h1, -⟩ := hpfx
            subst h1
            exact any_tags_false1 cs' (by decide)
        · rw [(by decide : str "<o" = ['<', 'o'])] at hpfx
          cases cs with
          | nil => simp [pfx] at hpfx
          | cons c1 cs' =>
            simp only [pfx, Bool.and_eq_true, decide_eq_true_eq] at hpfx
            obtain ⟨-, h1, -⟩ := hpfx
            subst h1
            exact any_tags_false1 cs' (by decide)
        · rw [(by decide : str "<l" = ['<', 'l'])] at hpfx
          cases cs with
          | nil => simp [pfx] at hpfx
          | cons c1 cs' =>
            simp only [pfx, Bool.and_eq_true, decide_eq_true_eq] at hpfx
            obtain ⟨-, h1, -⟩ := hpfx
            subst h1
            exact any_tags_false1 cs' (by decide)
        · rw [(by decide : str "<i" = ['<', 'i'])] at hpfx
          cases cs with
          | nil => simp [pfx] at hpfx
          | cons c1 cs' =>
            simp only [pfx, Bool.and_eq_true, decide_eq_true_eq] at hpfx
            obtain ⟨-, h1, -⟩ := hpfx
            subst h1
            exact any_tags_false1 cs' (by decide)
      rw [hext, Bool.or_false]
    · rw [show blockTagTest paraTagsNew (c0 :: cs) = false from by
          simp [blockTagTest, hc0],
        show blockTagTest paraTagsOld (c0 :: cs) = false from by
          simp [blockTagTest, hc0]]

theorem head?_mem {l : Str} {x : Char} (h : l.head? = some x) : x ∈ l := by
  cases l with
  | nil => cases h
  | cons y ys =>
    injection h with h'
    subst h'
    exact List.mem_cons_self _ _

theorem paraBlock_agree {b : Str} (hlt : ltOkB (jsTrim b) = true)
    (hsen : ¬ sentinel ∈ jsTrim b) :
    paraBlock paraTagsNew true b = paraBlock paraTagsOld false b := by
  simp only [paraBlock]
  by_cases he : (jsTrim b).isEmpty = true
  · rw [if_pos he, if_pos he]
  · rw [if_neg he, if_neg he, blockTagTest_agree hlt]
    by_cases hbt : blockTagTest paraTagsOld (jsTrim b) = true
    · rw [if_pos hbt, if_pos hbt]
    · rw [if_neg hbt, if_neg hbt]
      have hhd : (true && (jsTrim b).head? == some sentinel) = false := by
        cases hh : (jsTrim b).head? with
        | none => simp [hh]
        | some x =>
          have hx : ¬ x = sentinel := fun hxe => hsen (hxe ▸ head?_mem hh)
          simp [hh, hx]
      rw [hhd, Bool.false_and]

theorem paragraphs_agree {s : Str} (hlt : ltOkB s = true) (hsen : ¬ sentinel ∈ s) :
    parseParagraphsNew s = parseParagraphsOld s := by
  unfold parseParagraphsNew parseParagraphsOld
  congr 1
  refine List.map_congr_left ?_
  intro b hb
  refine paraBlock_agree (ltOkB_jsTrim (ltOkB_mem_splitNN hlt hb)) ?_
  intro hx
  exact hsen (mem_splitNN hb (mem_of_jsTrim hx))

/-! ### Assembly: the two revisions agree on the restricted input class -/

theorem phaseBlocks_not_mem {s out : Str} {c : Char} (h : phaseBlocks s = some out)
    (hbq : ¬ c ∈ str "<blockquote><p></p></blockquote>")
    (htb : ¬ c ∈ tblChars) (hhr : ¬ c ∈ str "<hr>")
    (hh1 : ¬ c ∈ str "<h") (hh2 : ¬ c ∈ str ">") (hh3 : ¬ c ∈ str "</h")
    (hdig : c.toNat < 48 ∨ 57 < c.toNat)
    (hls : ¬ c ∈ lstChars) (hnl : ¬ c = '\n')
    (hs : ¬ c ∈ s) : ¬ c ∈ out := by
  unfold phaseBlocks at h
  cases h1 : parseTables (parseBlockquotes s) with
  | none => rw [h1] at h; cases h
  | some a =>
    rw [h1] at h
    simp only [Option.bind] at h
    have hbq' := parseBlockquotes_not_mem hbq hnl hs
    have ha := parseTables_not_mem h1 htb hnl hbq'
    cases h2 : parseHorizontalRules a with
    | none => rw [h2] at h; cases h
    | some b =>
      rw [h2] at h
      simp only [Option.bind] at h
      have hbm := parseHorizontalRules_not_mem h2 hhr ha
      cases h3 : parseHeadings b with
      | none => rw [h3] at h; cases h
      | some d =>
        rw [h3] at h
        simp only [Option.map] at h
        injection h with h'
        rw [← h']
        have hdm := parseHeadings_not_mem h3 hh1 hh2 hh3 hdig hbm
        exact parseLists_not_mem hls hnl hdm

theorem phaseBlocks_ltOkB {s out : Str} (h : phaseBlocks s = some out)
    (hs : ltOkB s = true) : ltOkB out = true := by
  unfold phaseBlocks at h
  cases h1 : parseTables (parseBlockquotes s) with
  | none => rw [h1] at h; cases h
  | some a =>
    rw [h1] at h
    simp only [Option.bind] at h
    have ha := ltOkB_parseTables h1 (ltOkB_parseBlockquotes hs)
    cases h2 : parseHorizontalRules a with
    | none => rw [h2] at h; cases h
    | some b =>
      rw [h2] at h
      simp only [Option.bind] at h
      have hbm := parseHorizontalRules_ltOkB h2 ha
      cases h3 : parseHeadings b with
      | none => rw [h3] at h; cases h
      | some d =>
        rw [h3] at h
        simp only [Option.map] at h
        injection h with h'
        rw [← h']
        exact ltOkB_parseLists (parseHeadings_ltOkB h3 hbm)

/-- **Claim C10, amended.**  On every input containing no backtick, no
dollar sign, no backslash, no `<` and no `U+0000`, and for every image-path
resolver that never introduces the `U+0000` sentinel into a
sentinel-free path (the default identity resolver qualifies), the two
revisions return identical output: phase 1 extracts nothing, phase 5
restores nothing, the old revision's code passes never fire, and the two
paragraph block tests agree on everything the shared block transforms can
emit. -/
theorem revisions_agree_restricted (f : Str → Str) (md : Str)
    (hf : ∀ t, ¬ sentinel ∈ t → ¬ sentinel ∈ f t)
    (hb : ¬ btick ∈ md) (hd : ¬ '$' ∈ md) (_hbs : ¬ '\\' ∈ md)
    (hlt : ¬ '<' ∈ md) (hse : ¬ sentinel ∈ md) :
    parseNew f md = parseOld f md := by
  unfold parseNew parseOld
  by_cases hmd : md.isEmpty = true
  · rw [if_pos hmd, if_pos hmd]
  · rw [if_neg hmd, if_neg hmd]
    have hb1 : ¬ btick ∈ normNl md := fun h => hb (mem_normNl h)
    have hd1 : ¬ '$' ∈ normNl md := fun h => hd (mem_normNl h)
    have hlt1 : ¬ '<' ∈ normNl md := fun h => hlt (mem_normNl h)
    have hse1 : ¬ sentinel ∈ normNl md := fun h => hse (mem_normNl h)
    rw [phase1_id hb1 hd1 hlt1]
    have hbe : ¬ btick ∈ escapeHtml (normNl md) := by
      intro h
      rcases mem_escapeHtml h with h' | h'
      · exact hb1 h'
      · revert h'
        decide
    have hse2 : ¬ sentinel ∈ escapeHtml (normNl md) := by
      intro h
      rcases mem_escapeHtml h with h' | h'
      · exact hse1 h'
      · revert h'
        decide
    have hltokb : ltOkB (escapeHtml (normNl md)) = true :=
      ltOkB_of_no_lt (fun x hx hxe => escapeHtml_no_lt (normNl md) (hxe ▸ hx))
    rw [parseCodeBlocksOld_id hbe]
    simp only [Option.bind]
    obtain ⟨h13, h13eq⟩ := phaseBlocks_total (escapeHtml (normNl md))
    rw [h13eq]
    simp only [Option.bind]
    have hltokb13 : ltOkB h13 = true := phaseBlocks_ltOkB h13eq hltokb
    have hse13 : ¬ sentinel ∈ h13 :=
      phaseBlocks_not_mem h13eq (by decide) (by decide) (by decide) (by decide)
        (by decide) (by decide) (by decide) (by decide) (by decide) hse2
    have hb13 : ¬ btick ∈ h13 :=
      phaseBlocks_not_mem h13eq (by decide) (by decide) (by decide) (by decide)
        (by decide) (by decide) (by decide) (by decide) (by decide) hbe
    rw [paragraphs_agree hltokb13 hse13]
    have hbP : ¬ btick ∈ parseParagraphsOld h13 :=
      parseParagraphsOld_not_mem (by decide) (by decide) hb13
    rw [parseInlineCodeOld_id hbP]
    simp only [Option.bind]
    have hseP : ¬ sentinel ∈ parseParagraphsOld h13 :=
      parseParagraphsOld_not_mem (by decide) (by decide) hse13
    obtain ⟨h19, h19eq⟩ := phaseInline_total f (parseParagraphsOld h13)
    rw [h19eq]
    simp only [Option.map]
    have hse19 : ¬ sentinel ∈ h19 :=
      phaseInline_not_mem hf (by decide) (by decide) (by decide) (by decide)
        (by decide) (by decide) (by decide) (by decide) (by decide) (by decide)
        h19eq hseP
    rw [phase5_empty, replEscDollarBack_id hse19]

/-- Witness for `revisions_agree_restricted` at a concrete resolver and
input. -/
theorem revisions_agree_restricted_witness :
    parseNew (fun _ => str "x") (str "# hi\n\n- a\n- b") =
      parseOld (fun _ => str "x") (str "# hi\n\n- a\n- b") :=
  revisions_agree_restricted (fun _ => str "x") (str "# hi\n\n- a\n- b")
    (fun t _ => by show ¬ sentinel ∈ str "x"; decide)
    (by decide) (by decide) (by decide) (by decide) (by decide)

end RealtimeMD
